import Mathlib

/-!
Verification of the planner_research search core against its specification.

The definitions below are a shallow embedding of the C++ sources:
  - include/bucket_pq.hpp          (key packing, Bitset, TwoLevelBucketPQ)
  - src/sas/sas_search.cpp         (sequential A*, in-place apply/undo)
  - src/sas/bi_search.cpp          (bidirectional A*, regress_state)
  - include/sas/parallel_SOC/closed_table.hpp (ClosedTable)
  - src/sas/parallel_SOC/parallel_search.cpp  (astar_soc)

C++ `int` values are modelled as `Int` (no overflow is exercised by the
properties below except the deliberate 16-bit key packing, which is made
explicit with `% 2 ^ 32` / `% 2 ^ 16`), `uint32_t` keys as `Nat` reduced
mod `2 ^ 32`, vectors as `List`, and `std::unordered_map` as association
lists.  Fallible operations (assertion failures, exceptions, `std::exit`)
are modelled with `Option` / `Except`.
-/

namespace PlannerV

/-! ## Key packing (include/bucket_pq.hpp lines 13-35)

`using UKey = uint32_t; H_BITS = 16; H_MASK = (1 << 16) - 1`.
`pack_fh_asc` clamps negative inputs to 0, then computes
`(UKey(f) << H_BITS) | (UKey(h) & H_MASK)`; the shift of a `uint32_t`
wraps mod `2 ^ 32`.  `unpack_f` is `key >> 16`, `unpack_h` is
`key & 0xFFFF` (that is, `% 2 ^ 16`). -/

def H_BITS : Nat := 16

def H_MASK : Nat := 2 ^ 16 - 1

/-- `UKey(x)` for a non-negative C++ `int x` (value below `2 ^ 31`). -/
def toUKey (x : Int) : Nat := x.toNat % 2 ^ 32

/-- `pack_fh_asc(int f, int h)`: clamp negatives to 0, then
`(UKey(f) << 16) | (UKey(h) & H_MASK)` in 32-bit arithmetic. -/
def pack_fh_asc (f h : Int) : Nat :=
  let f' : Int := if f < 0 then 0 else f
  let h' : Int := if h < 0 then 0 else h
  ((toUKey f' <<< H_BITS) % 2 ^ 32) ||| (toUKey h' &&& H_MASK)

/-- `unpack_f(UKey key) = int(key >> 16)`. -/
def unpack_f (key : Nat) : Nat := key >>> H_BITS

/-- `unpack_h(UKey key) = int(key & H_MASK)`. -/
def unpack_h (key : Nat) : Nat := key &&& H_MASK

/-! ## SAS⁺ data model (include/sas/sas_reader.hpp)

`State = std::vector<int>` becomes `List Int`; variable ids (always used as
vector indices) are `Nat`; domain values, `pre`/`post` and costs are `Int`
(`Operator.cost` is declared `int` in the header).  `s[v]` is modelled by
`List.getD s v 0`; all uses below are guarded by well-formedness hypotheses
or concrete in-range inputs, matching the unchecked C++ indexing. -/

abbrev State := List Int

structure Variable where
  name : String := ""
  domain : Int := 0

/-- One `pre_post` entry `(conds, var, pre, post)`. -/
structure PrePost where
  conds : List (Nat × Int)
  var : Nat
  pre : Int
  post : Int

structure Operator where
  name : String := ""
  prevail : List (Nat × Int)
  pre_posts : List PrePost
  cost : Int := 1

structure MutexGroup where
  lits : List (Nat × Int)

structure Task where
  version : Int := 3
  metric : Int := 0
  vars : List Variable
  init : List Int
  goal : List (Nat × Int)
  ops : List Operator
  mutexes : List MutexGroup

/-- `is_goal` (sas_search.cpp lines 85-92): all goal pairs hold in `s`. -/
def is_goal (T : Task) (s : State) : Bool :=
  T.goal.all (fun p => decide (List.getD s p.1 0 = p.2))

/-- `is_applicable` (sas_search.cpp lines 95-122): prevail pairs hold, every
condition of every pre_post holds, and every `pre ≥ 0` matches. -/
def is_applicable (op : Operator) (s : State) : Bool :=
  op.prevail.all (fun p => decide (List.getD s p.1 0 = p.2)) &&
  op.pre_posts.all (fun pp => pp.conds.all (fun c => decide (List.getD s c.1 0 = c.2))) &&
  op.pre_posts.all (fun pp => decide (0 ≤ pp.pre → List.getD s pp.var 0 = pp.pre))

/-- `violates_mutex` (sas_reader.cpp lines 310-325): some group has at least
two satisfied literals (variables beyond the state length are skipped). -/
def violates_mutex (T : Task) (s : State) : Bool :=
  T.mutexes.any (fun G =>
    2 ≤ (G.lits.filter (fun p => decide (p.1 < s.length) &&
          decide (List.getD s p.1 0 = p.2))).length)

/-! ## In-place application with undo (sas_search.cpp lines 124-147, 181-187)

`Undo = std::vector<std::pair<int,int>>` of `(var, old_value)` records.
`apply_inplace` writes `s[var] := post` for each pre_post, logging each
actual change.  `undo_to(s, u, mark)` walks the log backwards down to
`mark`, restoring old values, then truncates the log.  The RAII
`UndoGuard` calls `undo_to(work, undo, mark)` on scope exit. -/

abbrev Undo := List (Nat × Int)

/-- One guarded write `s[v] := x` that logs `(v, old)` when the value changes:
the loop body of `apply_inplace`. -/
def logWrite (su : State × Undo) (v : Nat) (x : Int) : State × Undo :=
  if List.getD su.1 v 0 ≠ x then
    (List.set su.1 v x, su.2 ++ ([(v, List.getD su.1 v 0)] : Undo))
  else su

def apply_inplace (op : Operator) (s : State) (u : Undo) : State × Undo :=
  op.pre_posts.foldl (fun su pp => logWrite su pp.var pp.post) (s, u)

def undo_mark (u : Undo) : Nat := List.length u

def undo_to (s : State) (u : Undo) (mark : Nat) : State × Undo :=
  ((List.drop mark u).foldr (fun p t => List.set t p.1 p.2) s, List.take mark u)

/-! ## ClosedTable (include/sas/parallel_SOC/closed_table.hpp)

The striped `unordered_map`s partition the key space; their logical content
is a single map from states to `ClosedEntry`, modelled as an association
list searched front-to-back (`find`), with `emplace` appending a fresh
binding and updates rewriting the found binding in place. -/

structure ClosedEntry where
  best_g : Int
  node_id : Nat
deriving DecidableEq

abbrev ClosedMap := List (State × ClosedEntry)

def mapFind? : ClosedMap → State → Option ClosedEntry
  | [], _ => none
  | (t, e) :: rest, s => if t = s then some e else mapFind? rest s

/-- `ClosedTable::prune_or_update(s, g, node_id)` (closed_table.hpp lines
45-65): absent → emplace `(g, id)`, return false; present with `g ≥ best_g`
→ return true; present with `g < best_g` → overwrite entry, return false. -/
def prune_or_update : ClosedMap → State → Int → Nat → Bool × ClosedMap
  | [], s, g, id => (false, [(s, ⟨g, id⟩)])
  | (t, e) :: rest, s, g, id =>
    if t = s then
      if g ≥ e.best_g then (true, (t, e) :: rest)
      else (false, (t, ⟨g, id⟩) :: rest)
    else
      let r := prune_or_update rest s g id
      (r.1, (t, e) :: r.2)

/-! ## Backward regression (src/sas/bi_search.cpp lines 250-362)

`RegState = std::vector<int>` with `-1` (any negative value) meaning
UNKNOWN.  `regress_state(T, op, r, prev_out)` initialises `prev_out := r`
and runs four sequential phases, failing (returning false) on the first
violated check; it is modelled with `Option RegState`. -/

abbrev RegState := List Int

instance : Inhabited Variable := ⟨⟨"", 0⟩⟩

/-- Apply a list of assignments left to right: the evolving `prev_out`. -/
def override (r : RegState) (D : List (Nat × Int)) : RegState :=
  D.foldl (fun a p => List.set a p.1 p.2) r

/-- The value the assignment list `D` leaves at variable `v` (last write
wins), if any. -/
def assigned : List (Nat × Int) → Nat → Option Int
  | [], _ => none
  | p :: D, v =>
    match assigned D v with
    | some x => some x
    | none => if p.1 = v then some p.2 else none

/-- Phases 3-4 of `regress_state`: inject prevail / condition constraints
into the predecessor, checking each against `reg_state` and against the
current `prev_out` before writing it. -/
def injectConstraints (r : RegState) : List (Nat × Int) → RegState → Option RegState
  | [], prev => some prev
  | c :: rest, prev =>
    if 0 ≤ List.getD r c.1 0 ∧ List.getD r c.1 0 ≠ c.2 then none
    else if 0 ≤ List.getD prev c.1 0 ∧ List.getD prev c.1 0 ≠ c.2 then none
    else injectConstraints r rest (List.set prev c.1 c.2)

/-- Phase 5 of `regress_state`: write each `pre ≥ 0` into the predecessor;
a conflicting fixed value is tolerated only when it equals `reg_state[var]`
(which phase 1 already forced to equal the post). -/
def injectPres (r : RegState) : List PrePost → RegState → Option RegState
  | [], prev => some prev
  | pp :: rest, prev =>
    if 0 ≤ pp.pre then
      if 0 ≤ List.getD prev pp.var 0 ∧ List.getD prev pp.var 0 ≠ pp.pre then
        if 0 ≤ List.getD r pp.var 0 ∧ List.getD prev pp.var 0 = List.getD r pp.var 0 then
          injectPres r rest (List.set prev pp.var pp.pre)
        else none
      else injectPres r rest (List.set prev pp.var pp.pre)
    else injectPres r rest prev

/-- `regress_state` (bi_search.cpp lines 250-362).  Phase 1: every written
variable that is known in `r` must equal its post, and at least one must be
known (`relevant`).  Phases 3-4: prevail and condition constraints.  Phase
5: `pre` values.  Phase 6: the domain check on the resulting predecessor. -/
def regress_state (T : Task) (op : Operator) (r : RegState) : Option RegState :=
  if op.pre_posts.any (fun pp => decide (0 ≤ List.getD r pp.var 0) &&
      decide (List.getD r pp.var 0 ≠ pp.post)) then none
  else if op.pre_posts.all (fun pp => decide (List.getD r pp.var 0 < 0)) then none
  else
    match injectConstraints r op.prevail r with
    | none => none
    | some p3 =>
      match injectConstraints r (op.pre_posts.flatMap PrePost.conds) p3 with
      | none => none
      | some p4 =>
        match injectPres r op.pre_posts p4 with
        | none => none
        | some p5 =>
          if (List.range T.vars.length).any (fun v => decide (0 ≤ List.getD p5 v 0) &&
              decide ((T.vars.getD v default).domain ≤ List.getD p5 v 0)) then none
          else some p5

/-- The claim's reading of "consistent with r's concrete values". -/
def consistentR (r : RegState) (C : List (Nat × Int)) : Prop :=
  ∀ p ∈ C, 0 ≤ List.getD r p.1 0 → List.getD r p.1 0 = p.2

/-- A constraint list is functional: two constraints on one variable agree. -/
def functionalC (C : List (Nat × Int)) : Prop :=
  ∀ p ∈ C, ∀ q ∈ C, p.1 = q.1 → p.2 = q.2

/-- The `(var, pre)` assignments phase 5 writes into the predecessor. -/
def presMap (pres : List PrePost) : List (Nat × Int) :=
  (pres.filter (fun pp => decide (0 ≤ pp.pre))).map (fun pp => (pp.var, pp.pre))

/-- All prevail pairs followed by all pre_post condition pairs: the
constraints phases 3-4 check and inject. -/
def constraintsOf (op : Operator) : List (Nat × Int) :=
  op.prevail ++ op.pre_posts.flatMap PrePost.conds

/-- The declarative reading of the claim about `regress_state`: (1) every
written variable is unknown in `r` or equals the written post; (2) at least
one written variable is concretely equal in `r`; (3) the prevail and
condition constraints are mutually functional and consistent with `r`'s
concrete values (they are injected into the predecessor); (4) for each
`pre ≥ 0`, a conflicting fixed predecessor value fails unless it came from
`r`'s value matching the operator's post, the variable then being
overwritten with `pre`. -/
def regressOK (op : Operator) (r : RegState) : Prop :=
  (∀ pp ∈ op.pre_posts, List.getD r pp.var 0 < 0 ∨ List.getD r pp.var 0 = pp.post) ∧
  (∃ pp ∈ op.pre_posts, 0 ≤ List.getD r pp.var 0 ∧ List.getD r pp.var 0 = pp.post) ∧
  consistentR r (constraintsOf op) ∧
  functionalC (constraintsOf op) ∧
  (∀ pp ∈ op.pre_posts, 0 ≤ pp.pre →
    List.getD (override r (constraintsOf op)) pp.var 0 < 0 ∨
    List.getD (override r (constraintsOf op)) pp.var 0 = pp.pre ∨
    (0 ≤ List.getD r pp.var 0 ∧
     List.getD (override r (constraintsOf op)) pp.var 0 = List.getD r pp.var 0 ∧
     List.getD r pp.var 0 = pp.post))

/-- Concrete two-variable task used by the C7 witness. -/
def task7 : Task :=
  { vars := [⟨"x0", 2⟩, ⟨"x1", 2⟩], init := [0, 0], goal := [(1, 1)],
    ops := [], mutexes := [] }

/-- Concrete operator used by the C7 witness: prevail `x0 = 1`, effect
`x1 : 0 → 1`. -/
def op7 : Operator := ⟨"o", [(0, 1)], [⟨[], 1, 0, 1⟩], 1⟩

/-- Concrete backward state used by the C7 witness: `x0` unknown, `x1 = 1`. -/
def reg7 : RegState := [-1, 1]

/-! ## Bitset (include/bucket_pq.hpp lines 548-632)

`w_` is a vector of `uint64_t` words, `min_word_` a `uint32_t` whose
`UINT32_MAX` sentinel is modelled as `Option.none`.  Only the operations
the priority queue uses are modelled (`clear_all` is used solely by
`TwoLevelBucketPQ::clear`, which the searches never call). -/

/-- `__builtin_ctzll`: the number of trailing zero bits (of a non-zero word;
the intrinsic is undefined at 0, where this model returns 0). -/
def ctzAux : Nat → Nat → Nat
  | 0, _ => 0
  | fuel + 1, n => if n % 2 = 1 then 0 else ctzAux fuel (n / 2) + 1

def ctz (n : Nat) : Nat := ctzAux n n

structure Bitset where
  w : List Nat
  minWord : Option Nat

instance : Inhabited Bitset := ⟨⟨[], none⟩⟩

/-- `test(i)`: bit `i % 64` of word `i / 64`, false beyond the word list. -/
def Bitset.test (b : Bitset) (i : Nat) : Bool :=
  let wi := i / 64
  let bi := i % 64
  if wi < b.w.length then decide ((List.getD b.w wi 0 >>> bi) % 2 = 1) else false

/-- `ensure_word_for_index(i)`: grow the word list to cover index `i`. -/
def Bitset.ensureWord (b : Bitset) (i : Nat) : Bitset :=
  let wi := i / 64
  if wi < b.w.length then b
  else { b with w := b.w ++ List.replicate (wi + 1 - b.w.length) 0 }

/-- `set(i)`: grow if needed, OR the bit in, and update the `min_word_`
hint exactly as the C++ does (`before == 0 && wi < min_word_`, plus the
sentinel re-initialisation). -/
def Bitset.set (b : Bitset) (i : Nat) : Bitset :=
  let wi := i / 64
  let bi := i % 64
  let w1 := (b.ensureWord i).w
  let before := List.getD w1 wi 0
  let word := before ||| (1 <<< bi)
  let mw : Option Nat :=
    match b.minWord with
    | none => some wi
    | some m => if before = 0 ∧ wi < m then some wi else some m
  { w := List.set w1 wi word, minWord := mw }

/-- First index `≥ start` whose word is non-zero (the scan of
`advance_min_word_`). -/
def firstNZ : List Nat → Option Nat
  | [] => none
  | x :: xs => if x ≠ 0 then some 0 else (firstNZ xs).map (· + 1)

def firstNonzeroFrom (w : List Nat) (start : Nat) : Option Nat :=
  (firstNZ (List.drop start w)).map (start + ·)

/-- `clear(i)`: out-of-range indices are ignored; the word is masked with
`~(1 << bi)` (on 64-bit words); if the cleared word was the tracked
minimum and became zero, scan forward for the next non-zero word. -/
def Bitset.clear (b : Bitset) (i : Nat) : Bitset :=
  let wi := i / 64
  let bi := i % 64
  if wi < b.w.length then
    let word := List.getD b.w wi 0 &&& (2 ^ 64 - 1 - 2 ^ bi)
    let w2 := List.set b.w wi word
    let mw := if word = 0 ∧ b.minWord = some wi then firstNonzeroFrom w2 wi
      else b.minWord
    { w := w2, minWord := mw }
  else b

/-- `any()`: the hint is not the sentinel. -/
def Bitset.any (b : Bitset) : Bool := b.minWord.isSome

/-- `find_first()`: `(min_word_ << 6) + ctz(word)`, none when empty. -/
def Bitset.findFirst (b : Bitset) : Option Nat :=
  match b.minWord with
  | none => none
  | some wi => some (wi * 64 + ctz (List.getD b.w wi 0))

/-- Well-formedness: words fit in 64 bits, and `min_word_` points to the
first non-zero word (or is the sentinel when all words are zero). -/
def Bitset.WF (b : Bitset) : Prop :=
  (∀ x ∈ b.w, x < 2 ^ 64) ∧
  (match b.minWord with
   | none => ∀ x ∈ b.w, x = 0
   | some m => m < b.w.length ∧ List.getD b.w m 0 ≠ 0 ∧
       ∀ j, j < m → List.getD b.w j 0 = 0)

/-! ### TwoLevelBucketPQ (`src/include/bucket_pq.hpp`, lines 396-735)

The two-level bucket queue stores node ids bucketed by `(f, h)`; two
bitsets (one global over `f`, one per `f`-layer over `h`) track the
non-empty buckets. `DynamicArray::resize` grows with default-constructed
elements; out-of-range reads are modelled with `getD` on the default. -/

structure Pos where
  f : Nat
  h : Nat
  idx : Nat
  present : Bool

instance : Inhabited Pos := ⟨⟨0, 0, 0, false⟩⟩

structure HLayer where
  buckets : List (List Nat)
  hbits : Bitset

instance : Inhabited HLayer := ⟨⟨[], ⟨[], none⟩⟩⟩

structure TLBPQ where
  layers : List HLayer
  fbits : Bitset
  pos : List Pos
  count : Nat

def TLBPQ.emptyQ : TLBPQ := ⟨[], ⟨[], none⟩, [], 0⟩

/-- `resize(n)` as used by the `ensure_*` helpers: grow to length `n`
with default elements, never shrink (the C++ calls are guarded by
`idx >= size()`). -/
def listResize {α : Type} [Inhabited α] (l : List α) (n : Nat) : List α :=
  l ++ List.replicate (n - l.length) default

/-- `HLayer::ensure_h`: grow the bucket array to cover `h` and the
`h`-bitset word list to cover bit `h`. -/
def HLayer.ensure_h (L : HLayer) (h : Nat) : HLayer :=
  ⟨listResize L.buckets (h + 1), L.hbits.ensureWord h⟩

def TLBPQ.bucketAt (q : TLBPQ) (f h : Nat) : List Nat :=
  List.getD (List.getD q.layers f default).buckets h []

/-- The key reconstructed on extraction: `(f << H_BITS) | (h & H_MASK)`. -/
def TLBPQ.keyFH (f h : Nat) : Nat := (f <<< H_BITS) ||| (h &&& H_MASK)

/-- `TwoLevelBucketPQ::insert(v, k)`: unpack `(f, h)` from the key, grow
`pos_`/`layers_`/bitset storage, record the position, push `v` on the
bucket, and raise the two bits. The `assert(!p.present)` is modelled as
`none`. `count_` is a `uint32_t`. -/
def TLBPQ.insert (q : TLBPQ) (v k : Nat) : Option TLBPQ :=
  let pos1 := listResize q.pos (v + 1)
  if (List.getD pos1 v default).present then none
  else
    let f := unpack_f k
    let h := unpack_h k
    let layers1 := listResize q.layers (f + 1)
    let fbits1 := q.fbits.ensureWord f
    let L1 := (List.getD layers1 f default).ensure_h h
    let bucket := List.getD L1.buckets h []
    let p : Pos := ⟨f, h, bucket.length, true⟩
    let L2 : HLayer := ⟨List.set L1.buckets h (bucket ++ [v]), L1.hbits⟩
    let L3 : HLayer := if L2.hbits.test h then L2 else ⟨L2.buckets, L2.hbits.set h⟩
    let fbits2 := if fbits1.test f then fbits1 else fbits1.set f
    some ⟨List.set layers1 f L3, fbits2, List.set pos1 v p, (q.count + 1) % 2 ^ 32⟩

/-- The value `extract_min` produces once the two bit scans and the
bucket pop are known: pop the bucket's last element, mark it absent,
decrement the count, and clear the bits that became empty. -/
def extractResult (q : TLBPQ) (f h v : Nat) : TLBPQ × Nat × Nat :=
  let L := List.getD q.layers f default
  let bucket := List.getD L.buckets h []
  let bucket2 := bucket.dropLast
  let L1 : HLayer := ⟨List.set L.buckets h bucket2, L.hbits⟩
  let L2 : HLayer := if bucket2.isEmpty then ⟨L1.buckets, L1.hbits.clear h⟩ else L1
  let fbits1 := if bucket2.isEmpty && !L2.hbits.any then q.fbits.clear f else q.fbits
  let pos1 := List.set q.pos v ⟨(List.getD q.pos v default).f,
    (List.getD q.pos v default).h, (List.getD q.pos v default).idx, false⟩
  (⟨List.set q.layers f L2, fbits1, pos1, q.count - 1⟩, v, TLBPQ.keyFH f h)

/-- The bucket pop (`bucket.size() - 1` on an empty bucket is the
asserted-away case, modelled as `none`). -/
def extractStep3 (q : TLBPQ) (f h : Nat) : Option (TLBPQ × Nat × Nat) :=
  match (List.getD (List.getD q.layers f default).buckets h []).getLast? with
  | none => none
  | some v => some (extractResult q f h v)

/-- The inner `h`-bit scan (`assert(h >= 0)` modelled as `none`). -/
def extractStep2 (q : TLBPQ) (f : Nat) : Option (TLBPQ × Nat × Nat) :=
  match (List.getD q.layers f default).hbits.findFirst with
  | none => none
  | some h => extractStep3 q f h

/-- `TwoLevelBucketPQ::extract_min()`: take the first set `f` bit, then
the first set `h` bit of that layer, pop the bucket's last element, mark
it absent, and clear the bits that became empty. The entry asserts
(`count_ > 0`, `f >= 0`) are modelled as `none`. -/
def TLBPQ.extract_min (q : TLBPQ) : Option (TLBPQ × Nat × Nat) :=
  if q.count = 0 then none
  else
    match q.fbits.findFirst with
    | none => none
    | some f => extractStep2 q f

/-- Decidable well-formedness of a bitset (words in range, `min_word_`
hint correct). -/
def Bitset.wfCheck (b : Bitset) : Bool :=
  b.w.all (fun x => decide (x < 2 ^ 64)) &&
  (match b.minWord with
   | none => b.w.all (fun x => decide (x = 0))
   | some m => decide (m < b.w.length) && decide (List.getD b.w m 0 ≠ 0) &&
       (List.range m).all (fun j => decide (List.getD b.w j 0 = 0)))

/-- Decidable well-formedness of an `h` layer: its bitset is well formed
and bit `h` is set exactly on the non-empty buckets. -/
def HLayer.wfCheck (L : HLayer) : Bool :=
  L.hbits.wfCheck &&
  (List.range (max (64 * L.hbits.w.length) L.buckets.length)).all (fun h =>
    L.hbits.test h ==
      (decide (h < L.buckets.length) && !(List.getD L.buckets h []).isEmpty))

/-- Decidable well-formedness of the whole queue: both bitset levels in
sync with the buckets, `pos_` in sync with bucket membership (both
directions), packed coordinates inside 16 bits, and `count_` equal to
the total number of stored entries. -/
def TLBPQ.wfCheck (q : TLBPQ) : Bool :=
  q.fbits.wfCheck &&
  q.layers.all HLayer.wfCheck &&
  (List.range (max (64 * q.fbits.w.length) q.layers.length)).all (fun f =>
    q.fbits.test f ==
      (decide (f < q.layers.length) &&
        (List.getD q.layers f default).buckets.any (fun bk => !bk.isEmpty))) &&
  (List.range q.pos.length).all (fun v =>
    !(List.getD q.pos v default).present ||
      (decide ((List.getD q.pos v default).f < 2 ^ 16) &&
       decide ((List.getD q.pos v default).h < 2 ^ 16) &&
       decide ((List.getD q.pos v default).f < q.layers.length) &&
       decide ((List.getD q.pos v default).h <
         (List.getD q.layers (List.getD q.pos v default).f default).buckets.length) &&
       decide (v ∈ q.bucketAt (List.getD q.pos v default).f (List.getD q.pos v default).h))) &&
  (List.range q.layers.length).all (fun f =>
    (List.range (List.getD q.layers f default).buckets.length).all (fun h =>
      (q.bucketAt f h).all (fun v =>
        decide (v < q.pos.length) &&
        (List.getD q.pos v default).present &&
        decide ((List.getD q.pos v default).f = f) &&
        decide ((List.getD q.pos v default).h = h)))) &&
  decide (q.count = (q.layers.map (fun L => (L.buckets.map List.length).sum)).sum)

/-- The sanity-scenario queue: three inserts into an empty queue. -/
def scenarioQ : Option TLBPQ :=
  Option.bind
    (Option.bind (TLBPQ.emptyQ.insert 3 (pack_fh_asc 5 7))
      (fun q => q.insert 1 (pack_fh_asc 3 9)))
    (fun q => q.insert 2 (pack_fh_asc 5 2))

def scenarioEx1 : Option (TLBPQ × Nat × Nat) := Option.bind scenarioQ TLBPQ.extract_min

def scenarioEx2 : Option (TLBPQ × Nat × Nat) :=
  Option.bind (Option.map Prod.fst scenarioEx1) TLBPQ.extract_min

def scenarioEx3 : Option (TLBPQ × Nat × Nat) :=
  Option.bind (Option.map Prod.fst scenarioEx2) TLBPQ.extract_min

/-- The concrete scenario queue (used by the witness). -/
def q6 : TLBPQ := scenarioQ.getD TLBPQ.emptyQ

/-! ### Sequential A* (`src/src/sas/sas_search.cpp`, `astar`, lines 196-471)

Only the integer fast path is modelled: `Operator.cost` is a C++ `int`,
so `all_action_costs_are_integers` is identically true, and `main.cpp`
always passes `h_is_integer = true`, making the `double` branch dead
code in this build. `rounding` on an already-integer value is the
identity (it throws on negatives; the optimality theorem assumes
non-negative costs and heuristic values, which is exactly the no-throw
condition). The CPU clock is modelled by an oracle `tout` indexed by the
loop-iteration counter; `std::exit(101)` is `Except.error 101`; loop
fuel exhaustion (a run longer than `fuel` iterations) is `none`. -/

instance : Inhabited Operator := ⟨⟨"", [], [], 0⟩⟩

structure SNode where
  s : State
  parent : Int
  act : Int

instance : Inhabited SNode := ⟨⟨[], -1, -1⟩⟩

structure MetaI where
  g : Int
  h : Int
  closed : Bool

instance : Inhabited MetaI := ⟨⟨0, 0, false⟩⟩

structure SStats where
  expanded : Nat
  generated : Nat
  evaluated : Nat
  duplicates : Nat

def SStats.zero : SStats := ⟨0, 0, 0, 0⟩

structure SResult where
  solved : Bool
  plan_cost : Int
  plan : List Int
  nodes : List SNode
  stats : SStats

/-- `eval_plan_cost`: sum of the referenced operator costs. -/
def eval_plan_cost (T : Task) (plan : List Int) : Int :=
  (plan.map (fun a => (T.ops.getD a.toNat default).cost)).sum

/-- `should_check_mutex_runtime`: driven by the global `g_mutex_mode`
(0 = auto: check iff the task declares mutex groups, 1 = on, 2 = off). -/
def should_check_mutex_runtime (mutex_mode : Int) (T : Task) : Bool :=
  if mutex_mode = 2 then false
  else if mutex_mode = 1 then true
  else !T.mutexes.isEmpty

/-- The state after applying `op` to a fresh work copy of `s`
(`work = s; apply_inplace(T, op, work, undo)`). -/
def succState (op : Operator) (s : State) : State := (apply_inplace op s []).1

/-- `extract_plan`: walk the parent chain from `goal_id`, collecting
`act_id`s root-first. The C++ `for` loop does not terminate on a cyclic
parent chain; that is the `none` (fuel-out) case. -/
def extract_plan_aux (nodes : List SNode) : Nat → Int → Option (List Int)
  | 0, v =>
    if v ≥ 0 ∧ (nodes.getD v.toNat default).parent ≥ 0 then none else some []
  | fuel + 1, v =>
    if v ≥ 0 ∧ (nodes.getD v.toNat default).parent ≥ 0 then
      (extract_plan_aux nodes fuel (nodes.getD v.toNat default).parent).map
        (fun acts => acts ++ [(nodes.getD v.toNat default).act])
    else some []

def extract_plan (nodes : List SNode) (goal_id : Int) : Option (List Int) :=
  extract_plan_aux nodes (nodes.length + 1) goal_id

/-! The open list: the verified abstraction of `TwoLevelBucketPQ` (see
the C6 section for the concrete structure). The queue holds at most one
entry per id (`insert` asserts absence; key changes are in-place), so it
is a list of `(id, key)` pairs, newest first; `extract_min` returns an
entry of minimal key, ties to the newest (the bucket pop is LIFO);
`decrease_key`/`increase_key` both rewrite the stored key in place. -/

abbrev OpenL := List (Nat × Nat)

def olInsert (o : OpenL) (v k : Nat) : OpenL := (v, k) :: o

def olContains (o : OpenL) (v : Nat) : Bool := o.any (fun e => decide (e.1 = v))

def olKeyOf (o : OpenL) (v : Nat) : Nat :=
  match o.find? (fun e => decide (e.1 = v)) with
  | some e => e.2
  | none => 2 ^ 32 - 1

def olChangeKey (o : OpenL) (v k : Nat) : OpenL :=
  o.map (fun e => if e.1 = v then (v, k) else e)

def olExtractMin : OpenL → Option ((Nat × Nat) × OpenL)
  | [] => none
  | e :: rest =>
    match olExtractMin rest with
    | none => some (e, [])
    | some (m, rest2) => if e.2 ≤ m.2 then some (e, rest) else some (m, e :: rest2)

/-- The `index_of` hash map as an association list. -/
def lookupIdx : List (State × Nat) → State → Option Nat
  | [], _ => none
  | e :: rest, t => if e.1 = t then some e.2 else lookupIdx rest t

structure AState where
  nodes : List SNode
  idx : List (State × Nat)
  meta : List MetaI
  openl : OpenL
  stats : SStats

/-- One successor visit of the integer A* inner loop (operator index
`a` applied to the popped state `su` of node `u`): applicability test,
in-place apply (the `UndoGuard` restoration is implicit — each visit
starts from a fresh copy of `su`), optional mutex pruning, then the
new-node / improved-g / duplicate bookkeeping exactly as in the code. -/
def relaxOp (T : Task) (hfun : State → Int) (reopen do_mutex : Bool)
    (u a : Nat) (su : State) (st : AState) : AState :=
  let op := T.ops.getD a default
  if is_applicable op su then
    let work := succState op su
    let st := { st with stats := { st.stats with generated := st.stats.generated + 1 } }
    if do_mutex && violates_mutex T work then st
    else
      let tg := (st.meta.getD u default).g + op.cost
      match lookupIdx st.idx work with
      | none =>
        let v := st.nodes.length
        let hv := hfun work
        { nodes := st.nodes ++ [⟨work, (u : Int), (a : Int)⟩],
          idx := (work, v) :: st.idx,
          meta := st.meta ++ [⟨tg, hv, false⟩],
          openl := olInsert st.openl v (pack_fh_asc (tg + hv) hv),
          stats := { st.stats with evaluated := st.stats.evaluated + 1 } }
      | some v =>
        let mv := st.meta.getD v default
        if tg < mv.g then
          let hv := hfun ((st.nodes.getD v default).s)
          let newKey := pack_fh_asc (tg + hv) hv
          let st2 : AState := { st with
            nodes := st.nodes.set v ⟨(st.nodes.getD v default).s, (u : Int), (a : Int)⟩,
            meta := st.meta.set v ⟨tg, hv, mv.closed⟩,
            stats := { st.stats with evaluated := st.stats.evaluated + 1 } }
          if mv.closed then
            if reopen then
              { st2 with
                meta := st2.meta.set v ⟨tg, hv, false⟩
                openl := olInsert st2.openl v newKey }
            else
              { st2 with stats :=
                { st2.stats with duplicates := st2.stats.duplicates + 1 } }
          else
            if olContains st2.openl v then
              let cur := olKeyOf st2.openl v
              if newKey < cur then { st2 with openl := olChangeKey st2.openl v newKey }
              else if newKey > cur then
                { st2 with openl := olChangeKey st2.openl v newKey }
              else st2
            else { st2 with openl := olInsert st2.openl v newKey }
        else
          { st with stats := { st.stats with duplicates := st.stats.duplicates + 1 } }
  else st

/-- The `for (a = 0; a < ops.size(); ++a)` successor loop. -/
def expandNode (T : Task) (hfun : State → Int) (reopen do_mutex : Bool)
    (u : Nat) (su : State) (st : AState) : AState :=
  (List.range T.ops.length).foldl
    (fun st a => relaxOp T hfun reopen do_mutex u a su st) st

def mkResult (solved : Bool) (cost : Int) (plan : List Int) (st : AState) : SResult :=
  ⟨solved, cost, plan, st.nodes, st.stats⟩

/-- The integer A* main loop. Each iteration: open-empty exit, CPU-time
check (`std::exit(101)` on the error side), pop, stale-key skip, goal
test on pop, close + expansion-budget break, successor expansion. -/
def astarLoop (T : Task) (hfun : State → Int) (pmax : Nat) (reopen do_mutex : Bool)
    (tout : Nat → Bool) : Nat → Nat → AState → Option (Except Nat SResult)
  | 0, _, _ => none
  | fuel + 1, iter, st =>
    if st.openl.isEmpty then some (Except.ok (mkResult false 0 [] st))
    else if tout iter then some (Except.error 101)
    else
      match olExtractMin st.openl with
      | none => none
      | some ((u, key), rest) =>
        let mu := st.meta.getD u default
        if (unpack_f key : Int) ≠ mu.g + mu.h ∨ (unpack_h key : Int) ≠ mu.h then
          astarLoop T hfun pmax reopen do_mutex tout fuel (iter + 1)
            { st with openl := rest }
        else
          let su := (st.nodes.getD u default).s
          if is_goal T su then
            match extract_plan st.nodes (u : Int) with
            | none => none
            | some acts =>
              some (Except.ok (mkResult true (eval_plan_cost T acts) acts st))
          else
            let st1 : AState := { st with
              openl := rest
              meta := st.meta.set u ⟨mu.g, mu.h, true⟩
              stats := { st.stats with expanded := st.stats.expanded + 1 } }
            if pmax < st1.stats.expanded then some (Except.ok (mkResult false 0 [] st1))
            else
              astarLoop T hfun pmax reopen do_mutex tout fuel (iter + 1)
                (expandNode T hfun reopen do_mutex u su st1)

/-- `astar` (integer mode): initial goal test, then the loop seeded with
node 0 at key `pack(h0, h0)`. -/
def astar (T : Task) (hfun : State → Int) (pmax : Nat) (reopen do_mutex : Bool)
    (tout : Nat → Bool) (fuel : Nat) : Option (Except Nat SResult) :=
  let s0 := T.init
  let node0 : SNode := ⟨s0, -1, -1⟩
  if is_goal T s0 then some (Except.ok ⟨true, 0, [], [node0], SStats.zero⟩)
  else
    let h0 := hfun s0
    let st0 : AState := ⟨[node0], [(s0, 0)], [⟨0, h0, false⟩],
      olInsert [] 0 (pack_fh_asc h0 h0), ⟨0, 0, 1, 0⟩⟩
    astarLoop T hfun pmax reopen do_mutex tout fuel 0 st0

/-- A plan is a sequence of in-range operator indices, each applicable
in turn from the initial state; out-of-range indices are undefined
behaviour in the C++ and rejected here. -/
def applyPlan (T : Task) : State → List Int → Option State
  | s, [] => some s
  | s, a :: rest =>
    if a ≥ 0 ∧ a.toNat < T.ops.length ∧ is_applicable (T.ops.getD a.toNat default) s = true
    then applyPlan T (succState (T.ops.getD a.toNat default) s) rest
    else none

def validPlan (T : Task) (acts : List Int) : Prop :=
  ∃ s, applyPlan T T.init acts = some s ∧ is_goal T s = true

/-- Projections used to state concrete runs compactly. -/
def resSolved (r : Option (Except Nat SResult)) : Option Bool :=
  match r with
  | some (Except.ok R) => some R.solved
  | _ => none

/-- The spec's unsolvable task: one variable `x ∈ {0,1}`, `init x=0`,
`goal x=1`, no operators. -/
def task3 : Task := ⟨3, 0, [⟨"x", 2⟩], [0], [(0, 1)], [], []⟩

/-! ### Bidirectional A* (`src/src/sas/bi_search.cpp`, `bidir_astar`,
lines 399-853)

Same modelling conventions as the sequential engine. The backward
frontier regresses partial states (`RegState`, unknown = -1) with the
`regress_state` of the C7 section. `all_action_costs_are_integers` is
identically true (integer costs), so `integer_mode = h_is_integer`; the
non-integer branch is `std::exit(201)`, modelled as `Except.error 201`.
`best_cost` starts at +infinity (`none`); the comparison
`cand + 1e-12 < best_cost` between integer candidates is `cand <
best`. -/

structure BackNode where
  s : RegState
  parent : Int
  act : Int

instance : Inhabited BackNode := ⟨⟨[], -1, -1⟩⟩

structure MetaB where
  g : Int
  closed : Bool

instance : Inhabited MetaB := ⟨⟨0, false⟩⟩

structure BResult where
  solved : Bool
  plan_cost : Int
  plan : List Int
  nodes : List SNode
  stats : SStats
  meet : Bool
  reg_plan_len : Nat

/-- `make_goal_reg_state`: all-unknown vector overwritten by the goal
pairs. -/
def make_goal_reg_state (T : Task) : RegState :=
  T.goal.foldl (fun g p => g.set p.1 p.2) (List.replicate T.vars.length (-1))

/-- `forward_state_satisfies_reg`: every known (`>= 0`) regression value
must match the forward state. -/
def forward_state_satisfies_reg (s : State) (reg : RegState) : Bool :=
  (List.range reg.length).all (fun v =>
    if List.getD reg v (-1) ≥ 0 then decide (List.getD s v 0 = List.getD reg v (-1))
    else true)

/-- The backward half of the final plan: walk the backward parent chain
from `best_b`, keeping the meeting-to-goal order (no reversal). -/
def back_plan_aux (bnodes : List BackNode) : Nat → Int → Option (List Int)
  | 0, v =>
    if v ≥ 0 ∧ (bnodes.getD v.toNat default).parent ≥ 0 then none else some []
  | fuel + 1, v =>
    if v ≥ 0 ∧ (bnodes.getD v.toNat default).parent ≥ 0 then
      (back_plan_aux bnodes fuel (bnodes.getD v.toNat default).parent).map
        (fun acts => (bnodes.getD v.toNat default).act :: acts)
    else some []

def lookupIdxR : List (RegState × Nat) → RegState → Option Nat
  | [], _ => none
  | e :: rest, t => if e.1 = t then some e.2 else lookupIdxR rest t

structure BState where
  nodes : List SNode
  index_fwd : List (State × Nat)
  back_nodes : List BackNode
  index_bwd : List (RegState × Nat)
  meta_fwd : List MetaI
  meta_bwd : List MetaB
  open_fwd : OpenL
  open_bwd : OpenL
  stats : SStats
  have_meeting : Bool
  best_cost : Option Int
  best_f : Int
  best_b : Int
  turn : Bool

/-- The forward-direction meeting scan over all backward nodes for a new
or improved forward node `v`. -/
def meetScanF (st : BState) (v : Nat) : BState :=
  let sv := (st.nodes.getD v default).s
  let gv := (st.meta_fwd.getD v default).g
  (List.range st.back_nodes.length).foldl (fun st b_id =>
    if forward_state_satisfies_reg sv ((st.back_nodes.getD b_id default).s) then
      let gb := if b_id < st.meta_bwd.length then (st.meta_bwd.getD b_id default).g else 0
      let cand := gv + gb
      let upd := match st.best_cost with
        | none => true
        | some b => decide (cand < b)
      if upd then
        { st with
          best_cost := some cand
          have_meeting := true
          best_f := (v : Int)
          best_b := (b_id : Int) }
      else st
    else st) st

/-- The backward-direction meeting scan over all forward nodes for a new
or improved backward node `v`. -/
def meetScanB (st : BState) (v : Nat) : BState :=
  let rv := (st.back_nodes.getD v default).s
  let gv := (st.meta_bwd.getD v default).g
  (List.range st.nodes.length).foldl (fun st f_id =>
    if forward_state_satisfies_reg ((st.nodes.getD f_id default).s) rv then
      let gf := if f_id < st.meta_fwd.length then (st.meta_fwd.getD f_id default).g else 0
      let cand := gf + gv
      let upd := match st.best_cost with
        | none => true
        | some b => decide (cand < b)
      if upd then
        { st with
          best_cost := some cand
          have_meeting := true
          best_f := (f_id : Int)
          best_b := (v : Int) }
      else st
    else st) st

/-- One forward successor visit of the bidirectional loop, followed by
the meeting scan when the visit was not skipped. -/
def relaxOpF (T : Task) (hfun : State → Int) (reopen do_mutex : Bool)
    (u a : Nat) (su : State) (st : BState) : BState :=
  let op := T.ops.getD a default
  if is_applicable op su then
    let work := succState op su
    let st := { st with stats := { st.stats with generated := st.stats.generated + 1 } }
    if do_mutex && violates_mutex T work then st
    else
      let tg := (st.meta_fwd.getD u default).g + op.cost
      match lookupIdx st.index_fwd work with
      | none =>
        let v := st.nodes.length
        let hv := hfun work
        meetScanF { st with
          nodes := st.nodes ++ [⟨work, (u : Int), (a : Int)⟩]
          index_fwd := (work, v) :: st.index_fwd
          meta_fwd := st.meta_fwd ++ [⟨tg, hv, false⟩]
          open_fwd := olInsert st.open_fwd v (pack_fh_asc (tg + hv) hv)
          stats := { st.stats with evaluated := st.stats.evaluated + 1 } } v
      | some v =>
        let mv := st.meta_fwd.getD v default
        if tg < mv.g then
          let hv := hfun ((st.nodes.getD v default).s)
          let newKey := pack_fh_asc (tg + hv) hv
          let st2 : BState := { st with
            nodes := st.nodes.set v ⟨(st.nodes.getD v default).s, (u : Int), (a : Int)⟩,
            meta_fwd := st.meta_fwd.set v ⟨tg, hv, mv.closed⟩,
            stats := { st.stats with evaluated := st.stats.evaluated + 1 } }
          if mv.closed then
            if reopen then
              meetScanF { st2 with
                meta_fwd := st2.meta_fwd.set v ⟨tg, hv, false⟩
                open_fwd := olInsert st2.open_fwd v newKey } v
            else
              { st2 with stats :=
                { st2.stats with duplicates := st2.stats.duplicates + 1 } }
          else
            if olContains st2.open_fwd v then
              let cur := olKeyOf st2.open_fwd v
              if newKey < cur then
                meetScanF { st2 with open_fwd := olChangeKey st2.open_fwd v newKey } v
              else if newKey > cur then
                meetScanF { st2 with open_fwd := olChangeKey st2.open_fwd v newKey } v
              else meetScanF st2 v
            else meetScanF { st2 with open_fwd := olInsert st2.open_fwd v newKey } v
        else
          { st with stats := { st.stats with duplicates := st.stats.duplicates + 1 } }
  else st

/-- One backward (regression) successor visit, followed by the meeting
scan when not skipped. -/
def relaxOpB (T : Task) (reopen : Bool) (u a : Nat) (su : RegState)
    (st : BState) : BState :=
  let op := T.ops.getD a default
  match regress_state T op su with
  | none => st
  | some prev =>
    let st := { st with stats := { st.stats with generated := st.stats.generated + 1 } }
    let tg := (st.meta_bwd.getD u default).g + op.cost
    match lookupIdxR st.index_bwd prev with
    | none =>
      let v := st.back_nodes.length
      meetScanB { st with
        back_nodes := st.back_nodes ++ [⟨prev, (u : Int), (a : Int)⟩]
        index_bwd := (prev, v) :: st.index_bwd
        meta_bwd := st.meta_bwd ++ [⟨tg, false⟩]
        open_bwd := olInsert st.open_bwd v (pack_fh_asc tg 0) } v
    | some v =>
      let mv := st.meta_bwd.getD v default
      if tg < mv.g then
        let newKey := pack_fh_asc tg 0
        let st2 : BState := { st with
          back_nodes := st.back_nodes.set v
            ⟨(st.back_nodes.getD v default).s, (u : Int), (a : Int)⟩,
          meta_bwd := st.meta_bwd.set v ⟨tg, mv.closed⟩ }
        if mv.closed then
          if reopen then
            meetScanB { st2 with
              meta_bwd := st2.meta_bwd.set v ⟨tg, false⟩
              open_bwd := olInsert st2.open_bwd v newKey } v
          else
            { st2 with stats :=
              { st2.stats with duplicates := st2.stats.duplicates + 1 } }
        else
          if olContains st2.open_bwd v then
            let cur := olKeyOf st2.open_bwd v
            if newKey < cur then
              meetScanB { st2 with open_bwd := olChangeKey st2.open_bwd v newKey } v
            else if newKey > cur then
              meetScanB { st2 with open_bwd := olChangeKey st2.open_bwd v newKey } v
            else meetScanB st2 v
          else meetScanB { st2 with open_bwd := olInsert st2.open_bwd v newKey } v
      else
        { st with stats := { st.stats with duplicates := st.stats.duplicates + 1 } }

/-- The final plan reconstruction (`extract_plan_forward` trail plus the
unreversed backward trail) executed after the loop exits, which the code
follows with an unconditional `R.solved = true`. A cyclic parent chain
(a C++ hang) is `none`. -/
def bidirFinish (T : Task) (st : BState) : Option BResult :=
  match extract_plan st.nodes st.best_f,
      back_plan_aux st.back_nodes (st.back_nodes.length + 1) st.best_b with
  | some fwdActs, some bwdActs =>
    let plan := fwdActs ++ bwdActs
    some ⟨true, eval_plan_cost T plan, plan, st.nodes, st.stats, false, 0⟩
  | _, _ => none

/-- The bidirectional main loop: both-empty exit (falling through to the
reconstruction tail), CPU check, expansion-budget break (also to the
tail), then one alternating forward/backward step. The in-loop
`continue`s skip the turn flip and the `stop_on_first_meet` check,
exactly as in the code. -/
def bidirLoop (T : Task) (hfun : State → Int) (pmax : Nat)
    (reopen do_mutex stop_first : Bool) (tout : Nat → Bool) :
    Nat → Nat → BState → Option (Except Nat BResult)
  | 0, _, _ => none
  | fuel + 1, iter, st =>
    if st.open_fwd.isEmpty && st.open_bwd.isEmpty then
      (bidirFinish T st).map Except.ok
    else if tout iter then some (Except.error 101)
    else if pmax < st.stats.expanded then (bidirFinish T st).map Except.ok
    else if st.turn then
      match (if st.open_fwd.isEmpty then none else olExtractMin st.open_fwd) with
      | none =>
        let st2 : BState := { st with turn := !st.turn }
        if stop_first && st2.have_meeting then (bidirFinish T st2).map Except.ok
        else bidirLoop T hfun pmax reopen do_mutex stop_first tout fuel (iter + 1) st2
      | some ((u, key), rest) =>
        let st := { st with open_fwd := rest }
        if ¬ u < st.meta_fwd.length then
          bidirLoop T hfun pmax reopen do_mutex stop_first tout fuel (iter + 1) st
        else if (st.meta_fwd.getD u default).closed then
          bidirLoop T hfun pmax reopen do_mutex stop_first tout fuel (iter + 1) st
        else
          let mu := st.meta_fwd.getD u default
          if (unpack_f key : Int) ≠ mu.g + mu.h ∨ (unpack_h key : Int) ≠ mu.h then
            bidirLoop T hfun pmax reopen do_mutex stop_first tout fuel (iter + 1) st
          else
            let su := (st.nodes.getD u default).s
            if is_goal T su then
              match extract_plan st.nodes (u : Int) with
              | none => none
              | some acts =>
                some (Except.ok ⟨true, eval_plan_cost T acts, acts, st.nodes,
                  st.stats, false, 0⟩)
            else
              let st1 : BState := { st with
                meta_fwd := st.meta_fwd.set u ⟨mu.g, mu.h, true⟩
                stats := { st.stats with expanded := st.stats.expanded + 1 } }
              let st2 := (List.range T.ops.length).foldl
                (fun st a => relaxOpF T hfun reopen do_mutex u a su st) st1
              let st3 : BState := { st2 with turn := !st.turn }
              if stop_first && st3.have_meeting then (bidirFinish T st3).map Except.ok
              else bidirLoop T hfun pmax reopen do_mutex stop_first tout fuel (iter + 1) st3
    else
      match (if st.open_bwd.isEmpty then none else olExtractMin st.open_bwd) with
      | none =>
        let st2 : BState := { st with turn := !st.turn }
        if stop_first && st2.have_meeting then (bidirFinish T st2).map Except.ok
        else bidirLoop T hfun pmax reopen do_mutex stop_first tout fuel (iter + 1) st2
      | some ((u, _), rest) =>
        let st := { st with open_bwd := rest }
        if ¬ u < st.meta_bwd.length then
          bidirLoop T hfun pmax reopen do_mutex stop_first tout fuel (iter + 1) st
        else if (st.meta_bwd.getD u default).closed then
          bidirLoop T hfun pmax reopen do_mutex stop_first tout fuel (iter + 1) st
        else
          let su := (st.back_nodes.getD u default).s
          if forward_state_satisfies_reg T.init su then
            match back_plan_aux st.back_nodes (st.back_nodes.length + 1) (u : Int) with
            | none => none
            | some acts =>
              some (Except.ok ⟨true, eval_plan_cost T acts, acts, st.nodes,
                st.stats, false, acts.length⟩)
          else
            let mu := st.meta_bwd.getD u default
            let st1 : BState := { st with
              meta_bwd := st.meta_bwd.set u ⟨mu.g, true⟩
              stats := { st.stats with expanded := st.stats.expanded + 1 } }
            let st2 := (List.range T.ops.length).foldl
              (fun st a => relaxOpB T reopen u a su st) st1
            let st3 : BState := { st2 with turn := !st.turn }
            if stop_first && st3.have_meeting then (bidirFinish T st3).map Except.ok
            else bidirLoop T hfun pmax reopen do_mutex stop_first tout fuel (iter + 1) st3

/-- `bidir_astar`: the early init-satisfies-goal return (before the
integer-mode test), then either the integer loop or `std::exit(201)`. -/
def bidir_astar (T : Task) (hfun : State → Int) (h_int : Bool) (pmax : Nat)
    (reopen do_mutex stop_first : Bool) (tout : Nat → Bool) (fuel : Nat) :
    Option (Except Nat BResult) :=
  let s0 := T.init
  let g0 := make_goal_reg_state T
  if forward_state_satisfies_reg s0 g0 then
    some (Except.ok ⟨true, 0, [], [⟨s0, -1, -1⟩], SStats.zero, true, 0⟩)
  else if h_int then
    let h0 := hfun s0
    let st0 : BState := ⟨[⟨s0, -1, -1⟩], [(s0, 0)], [⟨g0, -1, -1⟩], [(g0, 0)],
      [⟨0, h0, false⟩], [⟨0, false⟩],
      olInsert [] 0 (pack_fh_asc h0 h0), olInsert [] 0 (pack_fh_asc 0 0),
      ⟨0, 0, 1, 0⟩, false, none, -1, -1, true⟩
    bidirLoop T hfun pmax reopen do_mutex stop_first tout fuel 0 st0
  else some (Except.error 201)

def bresSolved (r : Option (Except Nat BResult)) : Option Bool :=
  match r with
  | some (Except.ok R) => some R.solved
  | _ => none

def bresSummary (r : Option (Except Nat BResult)) : Option (Bool × List Int × Int) :=
  match r with
  | some (Except.ok R) => some (R.solved, R.plan, R.plan_cost)
  | _ => none

/-- The C10 counterexample task: `init` already satisfies the goal. -/
def task10 : Task := ⟨3, 0, [⟨"x", 2⟩], [0], [(0, 0)], [], []⟩

/-! ### Parallel shared-open A* (`src/src/sas/parallel_SOC/parallel_search.cpp`,
`astar_soc`)

Modelled as the deterministic single-worker run (`num_threads = 1`, the
default): the shared open list then behaves as one priority queue
ordered by `NodeLess` (`f = g + h`, tie on `h`, tie on smaller id). The
heuristic is the built-in goal-count. The node `registry` needed by
`reconstruct_plan` is commented out in the source, and the solved branch
builds `std::vector<uint32_t> plan;` — an empty vector — so the returned
plan is always empty and its summed cost always 0. -/

structure PNode where
  id : Nat
  g : Int
  h : Int
  op_id : Nat
  parent : Nat

structure SearchResult where
  solved : Bool
  cost : Int
  plan_ops : List Nat

/-- `Heuristic::goalcount`: the number of unmet goal pairs. -/
def goalcount (T : Task) (s : State) : Int :=
  (T.goal.countP (fun p => decide (List.getD s p.1 0 ≠ p.2)) : Int)

/-- Pop the best node under `NodeLess`: smallest `f = g + h`, then
smallest `h`, then smallest id. -/
def popBest : List PNode → Option (PNode × List PNode)
  | [] => none
  | n :: rest =>
    match popBest rest with
    | none => some (n, [])
    | some (m, rest2) =>
      if n.g + n.h < m.g + m.h ∨ (n.g + n.h = m.g + m.h ∧
          (n.h < m.h ∨ (n.h = m.h ∧ n.id ≤ m.id)))
      then some (n, rest) else some (m, n :: rest2)

def storeGet : List (Nat × State) → Nat → Option State
  | [], _ => none
  | e :: rest, i => if e.1 = i then some e.2 else storeGet rest i

structure PState where
  openp : List PNode
  closed : ClosedMap
  store : List (Nat × State)
  nextId : Nat
  goal_node : Option Nat

/-- One generated successor inside `Expander::for_each_inplace`'s
callback: allocate an id, prune-or-update against the closed table,
evaluate the heuristic, record the state, push the node. -/
def socRelax (T : Task) (cur : PNode) (cur_state : State) (a : Nat)
    (st : PState) : PState :=
  let op := T.ops.getD a default
  if is_applicable op cur_state then
    let succ := succState op cur_state
    let nid := st.nextId
    let tg := cur.g + op.cost
    let st := { st with nextId := st.nextId + 1 }
    let res := prune_or_update st.closed succ tg nid
    if res.1 then { st with closed := res.2 }
    else
      { st with
        closed := res.2
        store := (nid, succ) :: st.store
        openp := st.openp ++ [⟨nid, tg, goalcount T succ, a, cur.id⟩] }
  else st

/-- The final `SearchResult` construction after the workers join: when a
goal node was recorded the code sets `solved = true` but builds the plan
from a fresh empty vector (the registry-based `reconstruct_plan` call is
commented out), so `plan_ops = []` and the summed cost is 0. -/
def socFinish (T : Task) (st : PState) : SearchResult :=
  match st.goal_node with
  | some _ =>
    let plan : List Nat := []
    ⟨true, (plan.map (fun oi => (T.ops.getD oi default).cost)).sum, plan⟩
  | none => ⟨false, -1, []⟩

/-- The single-worker loop: termination-flag/timeout check, pop (an
empty pop with no other active worker sets `done` and falls through to
the result construction), goal test on pop, expansion. -/
def socLoop (T : Task) (tout : Nat → Bool) : Nat → Nat → PState → Option SearchResult
  | 0, _, _ => none
  | fuel + 1, iter, st =>
    if tout iter then some ⟨false, -1, []⟩
    else
      match popBest st.openp with
      | none => some (socFinish T st)
      | some (cur, rest) =>
        match storeGet st.store cur.id with
        | none => socLoop T tout fuel (iter + 1) { st with openp := rest }
        | some cur_state =>
          if is_goal T cur_state then
            some (socFinish T { st with openp := rest, goal_node := some cur.id })
          else
            socLoop T tout fuel (iter + 1)
              ((List.range T.ops.length).foldl
                (fun st2 a => socRelax T cur cur_state a st2)
                { st with openp := rest })

/-- `astar_soc` (single worker): root node with the goal-count
heuristic, seeded store and closed table, then the worker loop. -/
def astar_soc (T : Task) (tout : Nat → Bool) (fuel : Nat) : Option SearchResult :=
  let root : PNode := ⟨0, 0, goalcount T T.init, 2 ^ 32 - 1, 2 ^ 64 - 1⟩
  let st0 : PState := ⟨[root], (prune_or_update [] T.init 0 0).2, [(0, T.init)], 1, none⟩
  socLoop T tout fuel 0 st0

/-- The spec's switch task: one variable `x ∈ {0,1}`, `init x=0`,
`goal x=1`, one operator flipping `x` from 0 to 1 at cost 1. -/
def task2 : Task := ⟨3, 0, [⟨"x", 2⟩], [0], [(0, 1)], [⟨"flip", [], [⟨[], 0, 0, 1⟩], 1⟩], []⟩

/-! ### C1: optimality of the sequential integer A*

Support layer: exact arithmetic of packed keys in the unwrapped range,
and the behaviour of the open-list operations. -/

def inOpen (st : AState) (v : Nat) : Prop := ∃ e ∈ st.openl, e.1 = v

/-! The search invariant. Accessors: `gOf`/`hOf`/`clOf` read the `meta`
entry, `sOf` the stored state. -/

def gOf (st : AState) (v : Nat) : Int := (st.meta.getD v default).g

def hOf (st : AState) (v : Nat) : Int := (st.meta.getD v default).h

def clOf (st : AState) (v : Nat) : Bool := (st.meta.getD v default).closed

def sOf (st : AState) (v : Nat) : State := (st.nodes.getD v default).s

/-- A node whose synced key wrapped in one of the 16-bit fields: its pop
is always discarded by the stale test. -/
def limbo (st : AState) (v : Nat) : Prop :=
  2 ^ 16 ≤ gOf st v + hOf st v ∨ 2 ^ 16 ≤ hOf st v

def witOK (st : AState) (v : Nat) : Prop :=
  inOpen st v ∨ clOf st v = true ∨ limbo st v

def opAt (T : Task) (a : Nat) : Operator := T.ops.getD a default

/-- The A* loop invariant (for reopening enabled). `exc` is the set of
closed nodes whose expansion is still in progress (their successor
obligations are exempt until the expansion fold finishes). -/
structure Inv (T : Task) (hfun : State → Int) (do_mutex : Bool)
    (exc : Nat → Prop) (st : AState) : Prop where
  lenm : st.meta.length = st.nodes.length
  root : ∀ v, v < st.nodes.length → (st.nodes.getD v default).parent < 0 →
    sOf st v = T.init
  gnn : ∀ v, v < st.nodes.length → 0 ≤ gOf st v
  hsy : ∀ v, v < st.nodes.length → hOf st v = hfun (sOf st v)
  edge : ∀ v, v < st.nodes.length → 0 ≤ (st.nodes.getD v default).parent →
    (st.nodes.getD v default).parent.toNat < st.nodes.length ∧
    0 ≤ (st.nodes.getD v default).act ∧
    (st.nodes.getD v default).act.toNat < T.ops.length ∧
    is_applicable (opAt T (st.nodes.getD v default).act.toNat)
      (sOf st (st.nodes.getD v default).parent.toNat) = true ∧
    succState (opAt T (st.nodes.getD v default).act.toNat)
      (sOf st (st.nodes.getD v default).parent.toNat) = sOf st v ∧
    gOf st (st.nodes.getD v default).parent.toNat +
      (opAt T (st.nodes.getD v default).act.toNat).cost ≤ gOf st v
  keysync : ∀ e ∈ st.openl, e.1 < st.nodes.length ∧
    e.2 = pack_fh_asc (gOf st e.1 + hOf st e.1) (hOf st e.1)
  closedprop : ∀ v, v < st.nodes.length → ¬ exc v → clOf st v = true →
    ∀ a, a < T.ops.length → is_applicable (opAt T a) (sOf st v) = true →
    (do_mutex && violates_mutex T (succState (opAt T a) (sOf st v))) = false →
    ∃ v2, v2 < st.nodes.length ∧
      sOf st v2 = succState (opAt T a) (sOf st v) ∧
      gOf st v2 ≤ gOf st v + (opAt T a).cost
  goalcl : ∀ v, v < st.nodes.length → clOf st v = true →
    is_goal T (sOf st v) = false
  idxp : ∀ p ∈ st.idx, p.2 < st.nodes.length ∧ sOf st p.2 = p.1
  allwit : ∀ v, v < st.nodes.length → witOK st v
  nodup : (st.openl.map Prod.fst).Nodup
  nco : ∀ v, clOf st v = true → ¬ inOpen st v
  rootwit : 0 < st.nodes.length ∧ sOf st 0 = T.init ∧ gOf st 0 ≤ 0

theorem toUKey_small {x : Int} (h0 : 0 ≤ x) (h1 : x < 2 ^ 32) : toUKey x = x.toNat := by
  unfold toUKey
  apply Nat.mod_eq_of_lt
  omega

/-- The packed key always fits in 32 bits. -/
theorem pack_fh_asc_lt (f h : Int) : pack_fh_asc f h < 2 ^ 32 := by
  unfold pack_fh_asc
  apply Nat.lt_pow_two_of_testBit
  intro i hi
  rw [Nat.testBit_lor]
  have h1 : ((toUKey (if f < 0 then 0 else f) <<< H_BITS) % 2 ^ 32).testBit i = false := by
    rw [Nat.testBit_mod_two_pow]
    simp only [Bool.and_eq_false_imp, decide_eq_true_eq]
    omega
  have h2 : (toUKey (if h < 0 then 0 else h) &&& H_MASK).testBit i = false := by
    apply Nat.testBit_lt_two_pow
    calc toUKey (if h < 0 then 0 else h) &&& H_MASK ≤ H_MASK := Nat.and_le_right
      _ < 2 ^ 16 := by unfold H_MASK; omega
      _ ≤ 2 ^ i := Nat.pow_le_pow_right (by omega) (by omega)
  rw [h1, h2]
  rfl

/-- General behaviour of the packer on the `f` field: the clamped input is
reduced mod `2 ^ 16` (wrap-around), not saturated. -/
theorem unpack_f_pack (f h : Int) :
    unpack_f (pack_fh_asc f h) = (if f < 0 then 0 else f).toNat % 2 ^ 16 := by
  unfold unpack_f pack_fh_asc toUKey H_BITS H_MASK
  apply Nat.eq_of_testBit_eq
  intro j
  rw [Nat.testBit_shiftRight, Nat.testBit_lor, Nat.testBit_mod_two_pow,
      Nat.testBit_shiftLeft, Nat.testBit_mod_two_pow, Nat.testBit_mod_two_pow]
  have hb : ((if h < 0 then 0 else h).toNat % 2 ^ 32 &&& 2 ^ 16 - 1).testBit (16 + j) = false := by
    apply Nat.testBit_lt_two_pow
    calc (if h < 0 then 0 else h).toNat % 2 ^ 32 &&& 2 ^ 16 - 1 ≤ 2 ^ 16 - 1 := Nat.and_le_right
      _ < 2 ^ 16 := by omega
      _ ≤ 2 ^ (16 + j) := Nat.pow_le_pow_right (by omega) (by omega)
  rw [hb]
  by_cases hj : j < 16
  · have h32 : 16 + j < 32 := by omega
    have h16 : 16 ≤ 16 + j := by omega
    have hj32 : j < 32 := by omega
    simp [h32, h16, hj, hj32, Nat.add_sub_cancel_left]
  · have h32 : ¬ (16 + j < 32) := by omega
    simp [hj, h32]

/-- General behaviour of the packer on the `h` field: reduced mod `2 ^ 16`. -/
theorem unpack_h_pack (f h : Int) :
    unpack_h (pack_fh_asc f h) = (if h < 0 then 0 else h).toNat % 2 ^ 16 := by
  unfold unpack_h pack_fh_asc toUKey H_BITS H_MASK
  apply Nat.eq_of_testBit_eq
  intro j
  simp only [Nat.testBit_land, Nat.testBit_lor, Nat.testBit_mod_two_pow,
      Nat.testBit_shiftLeft, Nat.testBit_two_pow_sub_one]
  by_cases hj : j < 16
  · have h1 : ¬ 16 ≤ j := by omega
    have h32 : j < 32 := by omega
    simp [hj, h1, h32]
  · simp [hj]

/-- C5, counterexample.  The claim `unpack_f(pack_fh_asc(f,h)) = min(f, 0xFFFF)`
fails at `f = 65536 = 2 ^ 16, h = 0`: the 32-bit shift wraps, the packed key is
`0`, and `unpack_f` returns `0` rather than the saturated edge `0xFFFF = 65535`. -/
theorem C5_counterexample :
    ¬ ((unpack_f (pack_fh_asc 65536 0) : Int) = min (65536 : Int) 65535 ∧
       (unpack_h (pack_fh_asc 65536 0) : Int) = min (0 : Int) 65535) := by
  intro hc
  have h1 := hc.1
  rw [show pack_fh_asc 65536 0 = 0 from by decide] at h1
  rw [show unpack_f 0 = 0 from rfl] at h1
  omega

/-- C5, amended.  For all integer inputs `f` and `h`,
`unpack_f(pack_fh_asc(f,h)) = max(f,0) mod 2 ^ 16` and
`unpack_h(pack_fh_asc(f,h)) = max(h,0) mod 2 ^ 16`: negative inputs are clamped
to 0, while inputs at or above `2 ^ 16` wrap around (truncate mod `2 ^ 16`)
instead of saturating. -/
theorem C5_amended_pack_roundtrip (f h : Int) :
    (unpack_f (pack_fh_asc f h) : Int) = (max f 0) % 2 ^ 16 ∧
    (unpack_h (pack_fh_asc f h) : Int) = (max h 0) % 2 ^ 16 := by
  have hf : (if f < 0 then 0 else f) = max f 0 := by split <;> omega
  have hh : (if h < 0 then 0 else h) = max h 0 := by split <;> omega
  constructor
  · rw [unpack_f_pack, hf]
    have h0 : (0 : Int) ≤ max f 0 := le_max_right f 0
    push_cast [Int.toNat_of_nonneg h0]
    rfl
  · rw [unpack_h_pack, hh]
    have h0 : (0 : Int) ≤ max h 0 := le_max_right h 0
    push_cast [Int.toNat_of_nonneg h0]
    rfl

theorem set_getD_self (l : List Int) (v : Nat) :
    List.set l v (List.getD l v 0) = l := by
  induction l generalizing v with
  | nil => rfl
  | cons a t ih =>
    cases v with
    | zero => simp [List.getD]
    | succ n => simp [List.getD] at ih ⊢; exact ih n

/-- Main cancellation lemma: starting from `(s, u)`, any sequence of logged
writes leaves `undo_to _ _ mark` unchanged for every `mark ≤ u.length`.
This is the guarantee the `UndoGuard` destructor provides on every exit
path of the successor-visit block. -/
theorem undo_to_foldl_logWrite (ws : List (Nat × Int)) (s : State) (u : Undo)
    (mark : Nat) (hm : mark ≤ List.length u) :
    undo_to (ws.foldl (fun su p => logWrite su p.1 p.2) (s, u)).1
            (ws.foldl (fun su p => logWrite su p.1 p.2) (s, u)).2 mark =
      undo_to s u mark := by
  induction ws generalizing s u with
  | nil => rfl
  | cons w rest ih =>
    simp only [List.foldl_cons]
    by_cases hc : List.getD s w.1 0 = w.2
    · rw [show logWrite (s, u) w.1 w.2 = (s, u) from by
        unfold logWrite; exact if_neg (not_not_intro hc)]
      exact ih s u hm
    · rw [show logWrite (s, u) w.1 w.2 =
          (List.set s w.1 w.2, u ++ [(w.1, List.getD s w.1 0)]) from by
        unfold logWrite; exact if_pos hc]
      have hm2 : mark ≤ List.length (u ++ [(w.1, List.getD s w.1 0)]) := by
        simp; omega
      rw [ih (List.set s w.1 w.2) (u ++ [(w.1, List.getD s w.1 0)]) hm2]
      unfold undo_to
      rw [List.drop_append_of_le_length hm, List.take_append_of_le_length hm,
          List.foldr_append]
      simp only [List.foldr_cons, List.foldr_nil]
      rw [List.set_set, set_getD_self]

/-- C9.  For every state `s`, undo log `u`, and operator `op` applicable in
`s`, applying `op` in place (`apply_inplace`, which logs every change) and
then undoing to the saved mark `undo_mark u` restores exactly the original
state and log; since `undo_to` cancels an arbitrary sequence of logged
writes (`undo_to_foldl_logWrite`), the RAII `UndoGuard`, which runs
`undo_to(work, undo, mark)` on scope exit, restores the state on every exit
path of the successor-visit block. -/
theorem C9_apply_undo_restores (op : Operator) (s : State) (u : Undo)
    (happ : is_applicable op s = true) :
    undo_to (apply_inplace op s u).1 (apply_inplace op s u).2 (undo_mark u) = (s, u) := by
  unfold apply_inplace
  have h := undo_to_foldl_logWrite (op.pre_posts.map (fun pp => (pp.var, pp.post))) s u
      (undo_mark u) (le_refl _)
  rw [List.foldl_map] at h
  rw [h]
  unfold undo_to undo_mark
  simp

/-- C9 witness: a concrete applicable operator, applied and undone. -/
theorem C9_witness :
    undo_to (apply_inplace ⟨"op", [(0, 0)], [⟨[], 1, 0, 5⟩], 1⟩ [0, 0] []).1
            (apply_inplace ⟨"op", [(0, 0)], [⟨[], 1, 0, 5⟩], 1⟩ [0, 0] []).2
            (undo_mark []) = ([0, 0], []) :=
  C9_apply_undo_restores ⟨"op", [(0, 0)], [⟨[], 1, 0, 5⟩], 1⟩ [0, 0] [] (by decide)

/-- C8.  `prune_or_update(s, g, id)` returns true exactly when `s` is present
with recorded `best_g ≤ g` (and then leaves the table unchanged); otherwise
(absent, or present with `best_g > g`) it stores the entry `(g, id)` for `s`,
leaves every other state's entry unchanged, and returns false. -/
theorem C8_prune_or_update_spec (m : ClosedMap) (s : State) (g : Int) (id : Nat) :
    ((prune_or_update m s g id).1 = true ↔
      ∃ e, mapFind? m s = some e ∧ e.best_g ≤ g) ∧
    ((prune_or_update m s g id).1 = true → (prune_or_update m s g id).2 = m) ∧
    ((prune_or_update m s g id).1 = false → ∀ t, mapFind? (prune_or_update m s g id).2 t =
      if t = s then some ⟨g, id⟩ else mapFind? m t) := by
  induction m with
  | nil =>
    refine ⟨by simp [prune_or_update, mapFind?], by simp [prune_or_update], ?_⟩
    intro _ t
    by_cases ht : t = s
    · simp [prune_or_update, mapFind?, ht]
    · have ht2 : ¬ (s = t) := fun h => ht h.symm
      simp [prune_or_update, mapFind?, ht, ht2]
  | cons hd rest ih =>
    obtain ⟨t0, e0⟩ := hd
    by_cases hts : t0 = s
    · by_cases hg : g ≥ e0.best_g
      · refine ⟨?_, fun _ => by simp [prune_or_update, hts, hg], fun hfalse => ?_⟩
        · constructor
          · intro _
            exact ⟨e0, by simp [mapFind?, hts], by omega⟩
          · intro _
            simp [prune_or_update, hts, hg]
        · simp [prune_or_update, hts, hg] at hfalse
      · refine ⟨?_, fun htrue => ?_, fun _ t => ?_⟩
        · constructor
          · intro htrue
            simp [prune_or_update, hts, hg] at htrue
          · rintro ⟨e, he, hle⟩
            rw [show mapFind? ((t0, e0) :: rest) s = some e0 from by
              simp [mapFind?, hts]] at he
            cases he
            omega
        · simp [prune_or_update, hts, hg] at htrue
        · by_cases ht : t0 = t
          · have h1 : t = s := ht.symm.trans hts
            simp [prune_or_update, hts, hg, mapFind?, ht, h1]
          · have h1 : ¬ (t = s) := fun h => ht (hts.trans h.symm)
            have h2 : ¬ (s = t) := fun h => h1 h.symm
            simp [prune_or_update, hts, hg, mapFind?, ht, h1, h2]
    · have hfind : mapFind? ((t0, e0) :: rest) s = mapFind? rest s := by
        simp [mapFind?, hts]
      have hsplit : prune_or_update ((t0, e0) :: rest) s g id =
          ((prune_or_update rest s g id).1,
            (t0, e0) :: (prune_or_update rest s g id).2) := by
        simp [prune_or_update, hts]
      refine ⟨?_, fun htrue => ?_, fun hfalse t => ?_⟩
      · rw [hsplit, hfind]
        exact ih.1
      · rw [hsplit] at htrue ⊢
        simp only at htrue ⊢
        rw [ih.2.1 htrue]
      · rw [hsplit] at hfalse ⊢
        simp only at hfalse ⊢
        have h3 := ih.2.2 hfalse t
        by_cases ht : t0 = t
        · have h1 : ¬ (t = s) := fun h => hts (ht.trans h)
          simp [mapFind?, ht, h1]
        · rw [show mapFind? ((t0, e0) :: (prune_or_update rest s g id).2) t =
              mapFind? (prune_or_update rest s g id).2 t from by simp [mapFind?, ht]]
          rw [h3]
          by_cases h1 : t = s
          · simp [h1]
          · simp [h1, mapFind?, ht]

/-- C8 witness: concrete run on a two-entry table. -/
theorem C8_witness :
    ((prune_or_update [([0, 1], ⟨3, 7⟩)] [0, 1] 5 9).1 = true ↔
      ∃ e, mapFind? [([0, 1], ⟨3, 7⟩)] [0, 1] = some e ∧ e.best_g ≤ 5) ∧
    ((prune_or_update [([0, 1], ⟨3, 7⟩)] [0, 1] 5 9).1 = true →
      (prune_or_update [([0, 1], ⟨3, 7⟩)] [0, 1] 5 9).2 = [([0, 1], ⟨3, 7⟩)]) ∧
    ((prune_or_update [([0, 1], ⟨3, 7⟩)] [0, 1] 5 9).1 = false →
      ∀ t, mapFind? (prune_or_update [([0, 1], ⟨3, 7⟩)] [0, 1] 5 9).2 t =
        if t = [0, 1] then some ⟨5, 9⟩ else mapFind? [([0, 1], ⟨3, 7⟩)] t) :=
  C8_prune_or_update_spec [([0, 1], ⟨3, 7⟩)] [0, 1] 5 9

theorem getD_set (l : List Int) (i j : Nat) (x : Int) :
    List.getD (List.set l i x) j 0 =
      if i = j ∧ i < l.length then x else List.getD l j 0 := by
  induction l generalizing i j with
  | nil => simp [List.getD]
  | cons a t ih =>
    cases i with
    | zero =>
      cases j with
      | zero => simp
      | succ m => simp [List.getD]
    | succ n =>
      cases j with
      | zero => simp [List.getD]
      | succ m =>
        simp only [List.set, List.getD, List.get?, List.length_cons]
        have := ih n m
        simp only [List.getD] at this
        rw [this]
        by_cases h : n = m ∧ n < t.length
        · rw [if_pos h, if_pos ⟨by omega, by omega⟩]
        · rw [if_neg h, if_neg (by omega)]

theorem override_append (r : RegState) (D E : List (Nat × Int)) :
    override r (D ++ E) = override (override r D) E := by
  unfold override
  rw [List.foldl_append]

theorem override_length (r : RegState) (D : List (Nat × Int)) :
    (override r D).length = r.length := by
  induction D generalizing r with
  | nil => rfl
  | cons p D ih =>
    show (override (List.set r p.1 p.2) D).length = _
    rw [ih]
    simp

theorem assigned_mem {D : List (Nat × Int)} {v : Nat} {x : Int}
    (h : assigned D v = some x) : (v, x) ∈ D := by
  induction D with
  | nil => simp [assigned] at h
  | cons p D ih =>
    unfold assigned at h
    cases hD : assigned D v with
    | some y =>
      rw [hD] at h
      cases h
      exact List.mem_cons_of_mem p (ih hD)
    | none =>
      rw [hD] at h
      by_cases hp : p.1 = v
      · rw [if_pos hp] at h
        cases h
        have hpv : p = (v, p.2) := by
          rw [← hp]
        rw [← hpv]
        exact List.mem_cons_self p D
      · rw [if_neg hp] at h
        exact Option.noConfusion h

theorem assigned_eq_none {D : List (Nat × Int)} {v : Nat}
    (h : ∀ q ∈ D, q.1 ≠ v) : assigned D v = none := by
  induction D with
  | nil => rfl
  | cons p D ih =>
    unfold assigned
    rw [ih (fun q hq => h q (List.mem_cons_of_mem p hq))]
    simp [h p (List.mem_cons_self p D)]

theorem override_getD (r : RegState) (D : List (Nat × Int)) (v : Nat)
    (hv : v < r.length) (hD : ∀ p ∈ D, p.1 < r.length) :
    List.getD (override r D) v 0 = (assigned D v).getD (List.getD r v 0) := by
  induction D generalizing r with
  | nil => simp [override, assigned]
  | cons p D ih =>
    show List.getD (override (List.set r p.1 p.2) D) v 0 = _
    rw [ih (List.set r p.1 p.2) (by simpa using hv)
        (fun q hq => by simpa using hD q (List.mem_cons_of_mem p hq))]
    cases hDv : assigned D v with
    | some x =>
      rw [show assigned (p :: D) v = some x from by unfold assigned; rw [hDv]]
      simp
    | none =>
      rw [show assigned (p :: D) v = (if p.1 = v then some p.2 else none) from by
        unfold assigned; rw [hDv]]
      simp only [Option.getD_none]
      rw [getD_set]
      have hp := hD p (List.mem_cons_self p D)
      by_cases hpv : p.1 = v
      · rw [if_pos ⟨hpv, hp⟩, if_pos hpv]
        simp
      · rw [if_neg (fun hc => hpv hc.1), if_neg hpv]
        simp

theorem assigned_ne_none {D : List (Nat × Int)} {p : Nat × Int} (hp : p ∈ D) :
    assigned D p.1 ≠ none := by
  induction D with
  | nil => exact absurd hp (List.not_mem_nil p)
  | cons q D ih =>
    unfold assigned
    rcases List.mem_cons.mp hp with rfl | hmem
    · cases hA : assigned D p.1 with
      | some x => simp
      | none => simp
    · have := ih hmem
      cases hA : assigned D p.1 with
      | some x => simp
      | none => exact absurd hA this

/-- Sequential constraint injection (phases 3-4 of `regress_state`), with an
already-injected prefix `D`, succeeds exactly when the remaining constraints
are consistent with `r` and the whole list is functional; on success the
predecessor is `r` overridden by all constraints. -/
theorem injC_spec (r : RegState) (C : List (Nat × Int)) :
    ∀ (D : List (Nat × Int)),
    (∀ p ∈ C, 0 ≤ p.2) → (∀ p ∈ D, 0 ≤ p.2) →
    (∀ p ∈ C, p.1 < r.length) → (∀ p ∈ D, p.1 < r.length) →
    consistentR r D → functionalC D →
    (((injectConstraints r C (override r D)).isSome ↔
      consistentR r C ∧ functionalC (D ++ C)) ∧
    (∀ p, injectConstraints r C (override r D) = some p → p = override r (D ++ C))) := by
  induction C with
  | nil =>
    intro D hCv hDv hCl hDl hDr hDD
    refine ⟨?_, ?_⟩
    · constructor
      · intro _
        refine ⟨fun p hp => absurd hp (List.not_mem_nil p), ?_⟩
        rw [List.append_nil]
        exact hDD
      · intro _
        simp [injectConstraints]
    · intro p hp
      simp only [injectConstraints] at hp
      cases hp
      rw [List.append_nil]
  | cons c rest ih =>
    intro D hCv hDv hCl hDl hDr hDD
    by_cases h1 : 0 ≤ List.getD r c.1 0 ∧ List.getD r c.1 0 ≠ c.2
    · rw [show injectConstraints r (c :: rest) (override r D) = none from by
        unfold injectConstraints; rw [if_pos h1]]
      refine ⟨⟨fun hfalse => absurd hfalse (by simp), ?_⟩,
        fun p hp => Option.noConfusion hp⟩
      rintro ⟨hc, _⟩
      exact absurd (hc c (List.mem_cons_self c rest) h1.1) h1.2
    · have hcr : 0 ≤ List.getD r c.1 0 → List.getD r c.1 0 = c.2 := by
        intro h0
        by_contra hne
        exact h1 ⟨h0, hne⟩
      have hcl := hCl c (List.mem_cons_self c rest)
      have hprev : List.getD (override r D) c.1 0 =
          (assigned D c.1).getD (List.getD r c.1 0) :=
        override_getD r D c.1 hcl hDl
      by_cases h2 : 0 ≤ List.getD (override r D) c.1 0 ∧
          List.getD (override r D) c.1 0 ≠ c.2
      · rw [show injectConstraints r (c :: rest) (override r D) = none from by
          unfold injectConstraints; rw [if_neg h1, if_pos h2]]
        refine ⟨⟨fun hfalse => absurd hfalse (by simp), ?_⟩,
          fun p hp => Option.noConfusion hp⟩
        rintro ⟨hc, hfun⟩
        cases hA : assigned D c.1 with
        | none =>
          rw [hA] at hprev
          simp only [Option.getD_none] at hprev
          rw [hprev] at h2
          exact absurd (hc c (List.mem_cons_self c rest) h2.1) h2.2
        | some x =>
          rw [hA] at hprev
          simp only [Option.getD_some] at hprev
          have hmem := assigned_mem hA
          have hx := hfun (c.1, x) (List.mem_append_left _ hmem) c
            (List.mem_append_right _ (List.mem_cons_self c rest)) rfl
          rw [hprev] at h2
          exact absurd (show x = c.2 by simpa using hx) h2.2
      · have hstep : injectConstraints r (c :: rest) (override r D) =
            injectConstraints r rest (List.set (override r D) c.1 c.2) := by
          show (if 0 ≤ List.getD r c.1 0 ∧ List.getD r c.1 0 ≠ c.2 then none
            else if 0 ≤ List.getD (override r D) c.1 0 ∧
                List.getD (override r D) c.1 0 ≠ c.2 then none
            else injectConstraints r rest (List.set (override r D) c.1 c.2)) =
            injectConstraints r rest (List.set (override r D) c.1 c.2)
          rw [if_neg h1, if_neg h2]
        have hset : List.set (override r D) c.1 c.2 = override r (D ++ [c]) := by
          rw [override_append]
          rfl
        have hc2 : 0 ≤ c.2 := hCv c (List.mem_cons_self c rest)
        have hDceq : ∀ p ∈ D, p.1 = c.1 → p.2 = c.2 := by
          intro p hp hpc
          cases hA : assigned D c.1 with
          | none =>
            have := assigned_ne_none hp
            rw [hpc] at this
            exact absurd hA this
          | some x =>
            rw [hA] at hprev
            simp only [Option.getD_some] at hprev
            have hx0 : 0 ≤ x := by
              have := hDv (c.1, x) (assigned_mem hA)
              simpa using this
            have hxc : x = c.2 := by
              by_contra hne
              exact h2 (by rw [hprev]; exact ⟨hx0, hne⟩)
            have hpx : p.2 = x := hDD p hp (c.1, x) (assigned_mem hA) hpc
            rw [hpx, hxc]
        have hD'v : ∀ p ∈ D ++ [c], 0 ≤ p.2 := by
          intro p hp
          rcases List.mem_append.mp hp with h | h
          · exact hDv p h
          · rw [List.mem_singleton.mp h]
            exact hc2
        have hD'l : ∀ p ∈ D ++ [c], p.1 < r.length := by
          intro p hp
          rcases List.mem_append.mp hp with h | h
          · exact hDl p h
          · rw [List.mem_singleton.mp h]
            exact hcl
        have hD'r : consistentR r (D ++ [c]) := by
          intro p hp
          rcases List.mem_append.mp hp with h | h
          · exact hDr p h
          · rw [List.mem_singleton.mp h]
            exact hcr
        have hD'D : functionalC (D ++ [c]) := by
          intro p hp q hq hpq
          rcases List.mem_append.mp hp with h | h <;>
            rcases List.mem_append.mp hq with h' | h'
          · exact hDD p h q h' hpq
          · rw [List.mem_singleton.mp h'] at hpq ⊢
            exact hDceq p h hpq
          · rw [List.mem_singleton.mp h] at hpq ⊢
            exact (hDceq q h' hpq.symm).symm
          · rw [List.mem_singleton.mp h, List.mem_singleton.mp h']
        have ihD := ih (D ++ [c]) (fun p hp => hCv p (List.mem_cons_of_mem c hp))
          hD'v (fun p hp => hCl p (List.mem_cons_of_mem c hp)) hD'l hD'r hD'D
        have hassoc : (D ++ [c]) ++ rest = D ++ (c :: rest) := by
          rw [List.append_assoc]
          rfl
        rw [hstep, hset]
        constructor
        · rw [ihD.1]
          constructor
          · rintro ⟨hrest, hfun⟩
            rw [hassoc] at hfun
            refine ⟨?_, hfun⟩
            intro p hp
            rcases List.mem_cons.mp hp with rfl | hmem
            · exact hcr
            · exact hrest p hmem
          · rintro ⟨hcons, hfun⟩
            rw [← hassoc] at hfun
            exact ⟨fun p hp => hcons p (List.mem_cons_of_mem c hp), hfun⟩
        · intro p hp
          rw [ihD.2 p hp, hassoc]

/-- Phase 5 of `regress_state` over a base predecessor (the result of phases
3-4), with the already-written assignments `Dp` (all on variables disjoint
from the remaining pre_posts): it succeeds exactly when, for every
`pre ≥ 0`, the base value at the written variable is unknown, already equals
`pre`, or coincides with `reg_state`'s concrete value; on success the pres
are written over the base. -/
theorem injP_spec (r base : RegState) (pres : List PrePost) :
    ∀ (Dp : List (Nat × Int)),
    (∀ pp ∈ pres, pp.var < base.length) → (∀ q ∈ Dp, q.1 < base.length) →
    (∀ pp ∈ pres, ∀ q ∈ Dp, q.1 ≠ pp.var) →
    pres.Pairwise (fun a b => a.var ≠ b.var) →
    (((injectPres r pres (override base Dp)).isSome ↔
      ∀ pp ∈ pres, 0 ≤ pp.pre →
        List.getD base pp.var 0 < 0 ∨ List.getD base pp.var 0 = pp.pre ∨
        (0 ≤ List.getD r pp.var 0 ∧
         List.getD base pp.var 0 = List.getD r pp.var 0)) ∧
    (∀ p, injectPres r pres (override base Dp) = some p →
      p = override base (Dp ++ presMap pres))) := by
  induction pres with
  | nil =>
    intro Dp _ _ _ _
    refine ⟨by simp [injectPres], ?_⟩
    intro p hp
    simp only [injectPres] at hp
    cases hp
    rw [show presMap [] = [] from rfl, List.append_nil]
  | cons pp rest ih =>
    intro Dp hvars hDl hdisj hdist
    have hvp := hvars pp (List.mem_cons_self pp rest)
    have hbefore : List.getD (override base Dp) pp.var 0 = List.getD base pp.var 0 := by
      rw [override_getD base Dp pp.var hvp hDl,
          assigned_eq_none (fun q hq => hdisj pp (List.mem_cons_self pp rest) q hq)]
      rfl
    by_cases hpre : 0 ≤ pp.pre
    · have hmap : presMap (pp :: rest) = (pp.var, pp.pre) :: presMap rest := by
        unfold presMap
        rw [List.filter_cons_of_pos (by simpa using hpre)]
        rfl
      have hsetD : List.set (override base Dp) pp.var pp.pre =
          override base (Dp ++ [(pp.var, pp.pre)]) := by
        rw [override_append]
        rfl
      have hstep0 : injectPres r (pp :: rest) (override base Dp) =
          (if 0 ≤ pp.pre then
            if 0 ≤ List.getD (override base Dp) pp.var 0 ∧
                List.getD (override base Dp) pp.var 0 ≠ pp.pre then
              if 0 ≤ List.getD r pp.var 0 ∧
                  List.getD (override base Dp) pp.var 0 = List.getD r pp.var 0 then
                injectPres r rest (List.set (override base Dp) pp.var pp.pre)
              else none
            else injectPres r rest (List.set (override base Dp) pp.var pp.pre)
          else injectPres r rest (override base Dp)) := rfl
      have hDl2 : ∀ q ∈ Dp ++ [(pp.var, pp.pre)], q.1 < base.length := by
        intro q hq
        rcases List.mem_append.mp hq with h | h
        · exact hDl q h
        · rw [List.mem_singleton.mp h]
          exact hvp
      have hdisj2 : ∀ a ∈ rest, ∀ q ∈ Dp ++ [(pp.var, pp.pre)], q.1 ≠ a.var := by
        intro a ha q hq
        rcases List.mem_append.mp hq with h | h
        · exact hdisj a (List.mem_cons_of_mem pp ha) q h
        · rw [List.mem_singleton.mp h]
          exact (List.pairwise_cons.mp hdist).1 a ha
      have ihrec := ih (Dp ++ [(pp.var, pp.pre)])
        (fun a ha => hvars a (List.mem_cons_of_mem pp ha)) hDl2 hdisj2
        (List.pairwise_cons.mp hdist).2
      rw [← hsetD] at ihrec
      by_cases hconf : 0 ≤ List.getD base pp.var 0 ∧ List.getD base pp.var 0 ≠ pp.pre
      · by_cases hesc : 0 ≤ List.getD r pp.var 0 ∧
            List.getD base pp.var 0 = List.getD r pp.var 0
        · have hstep : injectPres r (pp :: rest) (override base Dp) =
              injectPres r rest (List.set (override base Dp) pp.var pp.pre) := by
            rw [hstep0, if_pos hpre, if_pos (by rw [hbefore]; exact hconf),
                if_pos (by rw [hbefore]; exact hesc)]
          rw [hstep]
          constructor
          · rw [ihrec.1]
            constructor
            · intro hrest q hq hqpre
              rcases List.mem_cons.mp hq with rfl | hmem
              · right
                right
                exact hesc
              · exact hrest q hmem hqpre
            · intro hall q hq
              exact hall q (List.mem_cons_of_mem pp hq)
          · intro p hp
            rw [ihrec.2 p hp, hmap, List.append_assoc]
            rfl
        · have hstep : injectPres r (pp :: rest) (override base Dp) = none := by
            rw [hstep0, if_pos hpre, if_pos (by rw [hbefore]; exact hconf),
                if_neg (by rw [hbefore]; exact hesc)]
          rw [hstep]
          refine ⟨⟨fun hfalse => absurd hfalse (by simp), ?_⟩,
            fun p hp => Option.noConfusion hp⟩
          intro hall
          have := hall pp (List.mem_cons_self pp rest) hpre
          rcases this with h | h | h
          · omega
          · exact absurd h hconf.2
          · exact absurd h hesc
      · have hstep : injectPres r (pp :: rest) (override base Dp) =
            injectPres r rest (List.set (override base Dp) pp.var pp.pre) := by
          rw [hstep0, if_pos hpre, if_neg (by rw [hbefore]; exact hconf)]
        rw [hstep]
        constructor
        · rw [ihrec.1]
          constructor
          · intro hrest q hq hqpre
            rcases List.mem_cons.mp hq with rfl | hmem
            · by_cases hb : 0 ≤ List.getD base q.var 0
              · right
                left
                by_contra hne
                exact hconf ⟨hb, hne⟩
              · left
                omega
            · exact hrest q hmem hqpre
          · intro hall q hq
            exact hall q (List.mem_cons_of_mem pp hq)
        · intro p hp
          rw [ihrec.2 p hp, hmap, List.append_assoc]
          rfl
    · have hmap : presMap (pp :: rest) = presMap rest := by
        unfold presMap
        rw [List.filter_cons_of_neg (by simpa using hpre)]
      have hstep : injectPres r (pp :: rest) (override base Dp) =
          injectPres r rest (override base Dp) := by
        show (if 0 ≤ pp.pre then _ else injectPres r rest (override base Dp)) = _
        rw [if_neg hpre]
      have ihrec := ih Dp (fun a ha => hvars a (List.mem_cons_of_mem pp ha)) hDl
        (fun a ha q hq => hdisj a (List.mem_cons_of_mem pp ha) q hq)
        (List.pairwise_cons.mp hdist).2
      rw [hstep, hmap]
      constructor
      · rw [ihrec.1]
        constructor
        · intro hrest q hq hqpre
          rcases List.mem_cons.mp hq with rfl | hmem
          · exact absurd hqpre hpre
          · exact hrest q hmem hqpre
        · intro hall q hq
          exact hall q (List.mem_cons_of_mem pp hq)
      · exact ihrec.2

theorem functionalC_append_left {A B : List (Nat × Int)} (h : functionalC (A ++ B)) :
    functionalC A :=
  fun p hp q hq => h p (List.mem_append_left B hp) q (List.mem_append_left B hq)

theorem consistentR_append {r : RegState} {A B : List (Nat × Int)} :
    consistentR r (A ++ B) ↔ consistentR r A ∧ consistentR r B := by
  constructor
  · intro h
    exact ⟨fun p hp => h p (List.mem_append_left B hp),
      fun p hp => h p (List.mem_append_right A hp)⟩
  · rintro ⟨hA, hB⟩ p hp
    rcases List.mem_append.mp hp with h | h
    · exact hA p h
    · exact hB p h

/-- C7.  For every well-formed backward state `r` and operator `op`,
`regress_state` succeeds if and only if the four conditions of `regressOK`
hold, and on success the predecessor is exactly `r` overridden by the
prevail/condition constraints and then by the `pre ≥ 0` values. -/
theorem C7_regress_state_spec (T : Task) (op : Operator) (r : RegState)
    (hlen : r.length = T.vars.length)
    (hrv : ∀ v, v < r.length →
      -1 ≤ List.getD r v 0 ∧ List.getD r v 0 < (T.vars.getD v default).domain)
    (hC : ∀ p ∈ constraintsOf op,
      p.1 < r.length ∧ 0 ≤ p.2 ∧ p.2 < (T.vars.getD p.1 default).domain)
    (hpp : ∀ pp ∈ op.pre_posts, pp.var < r.length ∧
      (0 ≤ pp.pre → pp.pre < (T.vars.getD pp.var default).domain))
    (hdist : op.pre_posts.Pairwise (fun a b => a.var ≠ b.var)) :
    ((regress_state T op r).isSome ↔ regressOK op r) ∧
    (∀ p, regress_state T op r = some p →
      p = override (override r (constraintsOf op)) (presMap op.pre_posts)) := by
  by_cases hB1 : ∀ pp ∈ op.pre_posts,
      List.getD r pp.var 0 < 0 ∨ List.getD r pp.var 0 = pp.post
  · have hany1 : (op.pre_posts.any (fun pp => decide (0 ≤ List.getD r pp.var 0) &&
        decide (List.getD r pp.var 0 ≠ pp.post))) = false := by
      rw [List.any_eq_false]
      intro pp hm
      simp only [Bool.and_eq_true, decide_eq_true_eq, not_and]
      intro h0
      rcases hB1 pp hm with h | h
      · omega
      · exact not_not_intro h
    by_cases hB2 : ∃ pp ∈ op.pre_posts,
        0 ≤ List.getD r pp.var 0 ∧ List.getD r pp.var 0 = pp.post
    · have hall2 : (op.pre_posts.all (fun pp =>
          decide (List.getD r pp.var 0 < 0))) = false := by
        rcases hB2 with ⟨pp, hm, h0, _⟩
        rw [List.all_eq_false]
        exact ⟨pp, hm, by simpa using (by omega : ¬ List.getD r pp.var 0 < 0)⟩
      have hstep12 : regress_state T op r =
          (match injectConstraints r op.prevail r with
          | none => none
          | some p3 =>
            match injectConstraints r (op.pre_posts.flatMap PrePost.conds) p3 with
            | none => none
            | some p4 =>
              match injectPres r op.pre_posts p4 with
              | none => none
              | some p5 =>
                if (List.range T.vars.length).any (fun v =>
                    decide (0 ≤ List.getD p5 v 0) &&
                    decide ((T.vars.getD v default).domain ≤ List.getD p5 v 0)) then none
                else some p5) := by
        unfold regress_state
        rw [hany1, hall2]
        rfl
      have hCl : ∀ p ∈ constraintsOf op, p.1 < r.length := fun p hp => (hC p hp).1
      have hCv : ∀ p ∈ constraintsOf op, 0 ≤ p.2 := fun p hp => (hC p hp).2.1
      have hprevail_sub : ∀ p ∈ op.prevail, p ∈ constraintsOf op :=
        fun p hp => List.mem_append_left _ hp
      have hconds_sub : ∀ p ∈ op.pre_posts.flatMap PrePost.conds, p ∈ constraintsOf op :=
        fun p hp => List.mem_append_right _ hp
      have hiC1 := injC_spec r op.prevail []
        (fun p hp => hCv p (hprevail_sub p hp)) (by simp)
        (fun p hp => hCl p (hprevail_sub p hp)) (by simp)
        (fun p hp => absurd hp (List.not_mem_nil p))
        (fun p hp => absurd hp (List.not_mem_nil p))
      rw [show override r [] = r from rfl] at hiC1
      rw [show ([] : List (Nat × Int)) ++ op.prevail = op.prevail from rfl] at hiC1
      cases h3 : injectConstraints r op.prevail r with
      | none =>
        have hno : ¬ (consistentR r op.prevail ∧ functionalC op.prevail) := by
          rw [← hiC1.1, h3]
          simp
        rw [hstep12, h3]
        constructor
        · simp only [Option.isSome_none]
          constructor
          · intro hfalse
            exact absurd hfalse (by simp)
          · intro hOK
            exact absurd ⟨(consistentR_append.mp hOK.2.2.1).1,
              functionalC_append_left hOK.2.2.2.1⟩ hno
        · intro p hp
          exact Option.noConfusion hp
      | some p3 =>
        have hC1ok : consistentR r op.prevail ∧ functionalC op.prevail := by
          rw [← hiC1.1, h3]
          rfl
        have hp3 : p3 = override r op.prevail := hiC1.2 p3 h3
        have hiC2 := injC_spec r (op.pre_posts.flatMap PrePost.conds) op.prevail
          (fun p hp => hCv p (hconds_sub p hp))
          (fun p hp => hCv p (hprevail_sub p hp))
          (fun p hp => hCl p (hconds_sub p hp))
          (fun p hp => hCl p (hprevail_sub p hp))
          hC1ok.1 hC1ok.2
        rw [← hp3] at hiC2
        have hres1 : regress_state T op r =
            (match injectConstraints r (op.pre_posts.flatMap PrePost.conds) p3 with
            | none => none
            | some p4 =>
              match injectPres r op.pre_posts p4 with
              | none => none
              | some p5 =>
                if (List.range T.vars.length).any (fun v =>
                    decide (0 ≤ List.getD p5 v 0) &&
                    decide ((T.vars.getD v default).domain ≤ List.getD p5 v 0)) then none
                else some p5) := by
          rw [hstep12, h3]
        cases h4 : injectConstraints r (op.pre_posts.flatMap PrePost.conds) p3 with
        | none =>
          rw [show regress_state T op r = none from by rw [hres1, h4]]
          constructor
          · simp only [Option.isSome_none]
            constructor
            · intro hfalse
              exact absurd hfalse (by simp)
            · intro hOK
              have hsome : (injectConstraints r
                  (op.pre_posts.flatMap PrePost.conds) p3).isSome = true :=
                hiC2.1.mpr ⟨(consistentR_append.mp hOK.2.2.1).2, hOK.2.2.2.1⟩
              rw [h4] at hsome
              exact hsome
          · intro p hp
            exact Option.noConfusion hp
        | some p4 =>
          have hC2ok : consistentR r (op.pre_posts.flatMap PrePost.conds) ∧
              functionalC (op.prevail ++ op.pre_posts.flatMap PrePost.conds) :=
            hiC2.1.mp (by rw [h4]; rfl)
          have hp4 : p4 = override r (constraintsOf op) := hiC2.2 p4 h4
          have hblen : (override r (constraintsOf op)).length = r.length :=
            override_length r (constraintsOf op)
          have hiP := injP_spec r (override r (constraintsOf op)) op.pre_posts []
            (fun pp hm => by rw [hblen]; exact (hpp pp hm).1)
            (by simp)
            (fun pp hm q hq => absurd hq (List.not_mem_nil q))
            hdist
          rw [show override (override r (constraintsOf op)) [] =
            override r (constraintsOf op) from rfl] at hiP
          rw [← hp4] at hiP
          have hres2 : regress_state T op r =
              (match injectPres r op.pre_posts p4 with
              | none => none
              | some p5 =>
                if (List.range T.vars.length).any (fun v =>
                    decide (0 ≤ List.getD p5 v 0) &&
                    decide ((T.vars.getD v default).domain ≤ List.getD p5 v 0)) then none
                else some p5) := by
            rw [hres1, h4]
          cases h5 : injectPres r op.pre_posts p4 with
          | none =>
            rw [show regress_state T op r = none from by rw [hres2, h5]]
            constructor
            · simp only [Option.isSome_none]
              constructor
              · intro hfalse
                exact absurd hfalse (by simp)
              · intro hOK
                have hsome : (injectPres r op.pre_posts p4).isSome = true := by
                  apply hiP.1.mpr
                  intro pp hm hpre
                  rw [hp4]
                  rcases hOK.2.2.2.2 pp hm hpre with h | h | h
                  · exact Or.inl h
                  · exact Or.inr (Or.inl h)
                  · exact Or.inr (Or.inr ⟨h.1, h.2.1⟩)
                rw [h5] at hsome
                exact hsome
            · intro p hp
              exact Option.noConfusion hp
          | some p5 =>
            have hPok := hiP.1.mp (by rw [h5]; rfl)
            rw [hp4] at hPok
            have hp5 : p5 = override (override r (constraintsOf op))
                (presMap op.pre_posts) := by
              have := hiP.2 p5 h5
              rwa [show ([] : List (Nat × Int)) ++ presMap op.pre_posts =
                presMap op.pre_posts from rfl, hp4] at this
            have hpm : ∀ q ∈ presMap op.pre_posts, q.1 < r.length ∧
                0 ≤ q.2 ∧ q.2 < (T.vars.getD q.1 default).domain := by
              intro q hq
              unfold presMap at hq
              rcases List.mem_map.mp hq with ⟨pp, hfil, hqe⟩
              rcases List.mem_filter.mp hfil with ⟨hm, hpre⟩
              have hb := hpp pp hm
              cases hqe
              exact ⟨hb.1, by simpa using hpre, hb.2 (by simpa using hpre)⟩
            have hbound : ∀ v, v < T.vars.length →
                List.getD p5 v 0 < (T.vars.getD v default).domain := by
              intro v hv
              have hvr : v < r.length := by omega
              have hvb : v < (override r (constraintsOf op)).length := by
                rw [hblen]
                exact hvr
              rw [hp5, override_getD (override r (constraintsOf op))
                    (presMap op.pre_posts) v hvb
                    (fun q hq => by rw [hblen]; exact (hpm q hq).1)]
              cases hA : assigned (presMap op.pre_posts) v with
              | some x =>
                have := hpm (v, x) (assigned_mem hA)
                simpa using this.2.2
              | none =>
                simp only [Option.getD_none]
                rw [override_getD r (constraintsOf op) v hvr hCl]
                cases hA2 : assigned (constraintsOf op) v with
                | some x =>
                  have := hC (v, x) (assigned_mem hA2)
                  simpa using this.2.2
                | none =>
                  simp only [Option.getD_none]
                  exact (hrv v hvr).2
            have hany6 : ((List.range T.vars.length).any (fun v =>
                decide (0 ≤ List.getD p5 v 0) &&
                decide ((T.vars.getD v default).domain ≤ List.getD p5 v 0))) = false := by
              rw [List.any_eq_false]
              intro v hv
              rw [List.mem_range] at hv
              simp only [Bool.and_eq_true, decide_eq_true_eq, not_and]
              intro _
              have := hbound v hv
              omega
            have hres3 : regress_state T op r =
                (if (List.range T.vars.length).any (fun v =>
                    decide (0 ≤ List.getD p5 v 0) &&
                    decide ((T.vars.getD v default).domain ≤ List.getD p5 v 0)) then none
                else some p5) := by
              rw [hres2, h5]
            rw [show regress_state T op r = some p5 from by rw [hres3, hany6]; rfl]
            constructor
            · constructor
              · intro _
                refine ⟨hB1, hB2, ?_, hC2ok.2, ?_⟩
                · exact consistentR_append.mpr ⟨hC1ok.1, hC2ok.1⟩
                · intro pp hm hpre
                  rcases hPok pp hm hpre with h | h | h
                  · exact Or.inl h
                  · exact Or.inr (Or.inl h)
                  · rcases hB1 pp hm with hb | hb
                    · exact absurd hb (by omega)
                    · exact Or.inr (Or.inr ⟨h.1, h.2, hb⟩)
              · intro _
                rfl
            · intro p hp
              cases hp
              exact hp5
    · have hall2 : (op.pre_posts.all (fun pp =>
          decide (List.getD r pp.var 0 < 0))) = true := by
        rw [List.all_eq_true]
        intro pp hm
        simp only [decide_eq_true_eq]
        by_contra h0
        rcases hB1 pp hm with h | h
        · omega
        · exact hB2 ⟨pp, hm, by omega, h⟩
      have hnone : regress_state T op r = none := by
        unfold regress_state
        rw [hany1, hall2]
        rfl
      rw [hnone]
      constructor
      · simp only [Option.isSome_none]
        constructor
        · intro hfalse
          exact absurd hfalse (by simp)
        · intro hOK
          exact absurd hOK.2.1 hB2
      · intro p hp
        exact Option.noConfusion hp
  · have hany1 : (op.pre_posts.any (fun pp => decide (0 ≤ List.getD r pp.var 0) &&
        decide (List.getD r pp.var 0 ≠ pp.post))) = true := by
      rw [List.any_eq_true]
      push_neg at hB1
      rcases hB1 with ⟨pp, hm, h1, h2⟩
      refine ⟨pp, hm, ?_⟩
      simp only [Bool.and_eq_true, decide_eq_true_eq]
      exact ⟨by omega, h2⟩
    have hnone : regress_state T op r = none := by
      unfold regress_state
      rw [hany1]
      rfl
    rw [hnone]
    constructor
    · simp only [Option.isSome_none]
      constructor
      · intro hfalse
        exact absurd hfalse (by simp)
      · intro hOK
        exact absurd hOK.1 hB1
    · intro p hp
      exact Option.noConfusion hp

/-- C7 witness: the regression characterisation applied to a concrete
well-formed task, operator and backward state. -/
theorem C7_regress_witness :
    ((regress_state task7 op7 reg7).isSome ↔ regressOK op7 reg7) ∧
    (∀ p, regress_state task7 op7 reg7 = some p →
      p = override (override reg7 (constraintsOf op7)) (presMap op7.pre_posts)) :=
  C7_regress_state_spec task7 op7 reg7 (by decide)
    (by decide) (by decide) (by decide) (by decide)

theorem ctzAux_succ (f n : Nat) :
    ctzAux (f + 1) n = if n % 2 = 1 then 0 else ctzAux f (n / 2) + 1 := rfl

theorem getD_mem_of_lt {l : List Nat} {n : Nat} (h : n < l.length) :
    List.getD l n 0 ∈ l := by
  induction l generalizing n with
  | nil => simp at h
  | cons a t ih =>
    cases n with
    | zero => simp [List.getD]
    | succ m =>
      simp only [List.getD_cons_succ]
      exact List.mem_cons_of_mem a (ih (by simpa using h))

theorem test_eq_testBit (b : Bitset) (i : Nat) :
    b.test i = ((List.getD b.w (i / 64) 0).testBit (i % 64) &&
      decide (i / 64 < b.w.length)) := by
  by_cases h : i / 64 < b.w.length <;>
    simp [Bitset.test, h, Nat.testBit_to_div_mod, Nat.shiftRight_eq_div_pow]

theorem ctzAux_spec : ∀ fuel n : Nat, n ≠ 0 → n ≤ fuel →
    n.testBit (ctzAux fuel n) = true ∧ ∀ j, j < ctzAux fuel n → n.testBit j = false := by
  intro fuel
  induction fuel with
  | zero => intro n hn hle; omega
  | succ f ih =>
    intro n hn hle
    by_cases hodd : n % 2 = 1
    · rw [show ctzAux (f + 1) n = 0 from by rw [ctzAux_succ, if_pos hodd]]
      refine ⟨by simp [hodd], fun j hj => absurd hj (by omega)⟩
    · rw [show ctzAux (f + 1) n = ctzAux f (n / 2) + 1 from by
        rw [ctzAux_succ, if_neg hodd]]
      have hhalf : n / 2 ≠ 0 := by omega
      have hlt : n / 2 ≤ f := by omega
      obtain ⟨h1, h2⟩ := ih (n / 2) hhalf hlt
      refine ⟨?_, ?_⟩
      · rw [show n.testBit (ctzAux f (n / 2) + 1) = (n / 2).testBit (ctzAux f (n / 2))
          from by rw [Nat.testBit_add_one]]
        exact h1
      · intro j hj
        cases j with
        | zero =>
          simp only [Nat.testBit_zero]
          simp only [decide_eq_false_iff_not]
          omega
        | succ k =>
          rw [Nat.testBit_add_one]
          exact h2 k (by omega)

theorem ctz_spec : ∀ n : Nat, n ≠ 0 →
    n.testBit (ctz n) = true ∧ ∀ j, j < ctz n → n.testBit j = false :=
  fun n hn => ctzAux_spec n n hn (Nat.le_refl n)

theorem ctz_lt_64 {n : Nat} (h0 : n ≠ 0) (h64 : n < 2 ^ 64) : ctz n < 64 := by
  have h1 := (ctz_spec n h0).1
  have h2 := Nat.testBit_implies_ge h1
  by_contra hge
  have : 2 ^ 64 ≤ 2 ^ ctz n := Nat.pow_le_pow_right (by omega) (by omega)
  omega

/-- Under well-formedness, `find_first` returns the least set bit. -/
theorem findFirst_spec (b : Bitset) (hWF : b.WF) :
    (b.findFirst = none → ∀ i, b.test i = false) ∧
    (∀ i0, b.findFirst = some i0 →
      b.test i0 = true ∧ ∀ j, j < i0 → b.test j = false) := by
  obtain ⟨hw, hmin⟩ := hWF
  constructor
  · intro hnone i
    unfold Bitset.findFirst at hnone
    match hb : b.minWord with
    | some m => rw [hb] at hnone; exact Option.noConfusion hnone
    | none =>
      rw [hb] at hmin
      rw [test_eq_testBit]
      by_cases h : i / 64 < b.w.length
      · have : List.getD b.w (i / 64) 0 = 0 :=
          hmin (List.getD b.w (i / 64) 0) (getD_mem_of_lt h)
        rw [this]
        simp
      · simp [h]
  · intro i0 hsome
    unfold Bitset.findFirst at hsome
    match hb : b.minWord with
    | none => rw [hb] at hsome; exact Option.noConfusion hsome
    | some m =>
      rw [hb] at hsome hmin
      cases hsome
      obtain ⟨hmlen, hmne, hmzero⟩ := hmin
      have hmword : List.getD b.w m 0 < 2 ^ 64 :=
        hw (List.getD b.w m 0) (getD_mem_of_lt hmlen)
      have hctz := ctz_spec (List.getD b.w m 0) hmne
      have hctz64 : ctz (List.getD b.w m 0) < 64 := ctz_lt_64 hmne hmword
      constructor
      · rw [test_eq_testBit]
        have hdiv : (m * 64 + ctz (List.getD b.w m 0)) / 64 = m := by omega
        have hmod : (m * 64 + ctz (List.getD b.w m 0)) % 64 =
            ctz (List.getD b.w m 0) := by omega
        rw [hdiv, hmod, hctz.1]
        simp [hmlen]
      · intro j hj
        rw [test_eq_testBit]
        by_cases hjm : j / 64 < m
        · rw [hmzero (j / 64) hjm]
          simp
        · have hjem : j / 64 = m := by omega
          rw [hjem]
          have hjbit : j % 64 < ctz (List.getD b.w m 0) := by omega
          rw [hctz.2 (j % 64) hjbit]
          simp

theorem getD_replicate_zero (k j : Nat) :
    List.getD (List.replicate k (0 : Nat)) j 0 = 0 := by
  induction k generalizing j with
  | zero => simp [List.getD]
  | succ m ih =>
    cases j with
    | zero => simp [List.replicate]
    | succ n =>
      rw [List.replicate]
      simp only [List.getD_cons_succ]
      exact ih n

theorem getD_append_replicate_zero (l : List Nat) (k j : Nat) :
    List.getD (l ++ List.replicate k (0 : Nat)) j 0 = List.getD l j 0 := by
  induction l generalizing j with
  | nil => simp [getD_replicate_zero, List.getD]
  | cons a t ih =>
    cases j with
    | zero => simp
    | succ n =>
      simp only [List.cons_append, List.getD_cons_succ]
      exact ih n

theorem getD_set_poly {α : Type} (l : List α) (i j : Nat) (x d : α) :
    List.getD (List.set l i x) j d =
      if i = j ∧ i < l.length then x else List.getD l j d := by
  induction l generalizing i j with
  | nil => simp [List.getD]
  | cons a t ih =>
    cases i with
    | zero =>
      cases j with
      | zero => simp
      | succ m => simp [List.getD]
    | succ n =>
      cases j with
      | zero => simp [List.getD]
      | succ m =>
        simp only [List.set, List.getD_cons_succ, List.length_cons]
        rw [ih n m]
        by_cases h : n = m ∧ n < t.length
        · rw [if_pos h, if_pos ⟨by omega, by omega⟩]
        · rw [if_neg h, if_neg (by omega)]

theorem getD_zero_of_ge (l : List Nat) (j : Nat) (h : l.length ≤ j) :
    List.getD l j 0 = 0 := by
  induction l generalizing j with
  | nil => simp [List.getD]
  | cons a t ih =>
    cases j with
    | zero => simp at h
    | succ n =>
      simp only [List.getD_cons_succ]
      exact ih n (by simpa using h)

theorem all_zero_of_getD (l : List Nat) (h : ∀ j, j < l.length → List.getD l j 0 = 0) :
    ∀ x ∈ l, x = 0 := by
  induction l with
  | nil => simp
  | cons a t ih =>
    intro x hx
    rcases List.mem_cons.mp hx with rfl | hmem
    · exact h 0 (by simp)
    · exact ih (fun j hj => h (j + 1) (by simpa using hj)) x hmem

/-- The word-list form of `test`: out-of-range words read as 0. -/
theorem test_eq_testBit_getD (b : Bitset) (i : Nat) :
    b.test i = (List.getD b.w (i / 64) 0).testBit (i % 64) := by
  rw [test_eq_testBit]
  by_cases h : i / 64 < b.w.length
  · simp [h]
  · rw [getD_zero_of_ge b.w (i / 64) (by omega)]
    simp [h]

theorem ensureWord_w_getD (b : Bitset) (i j : Nat) :
    List.getD (b.ensureWord i).w j 0 = List.getD b.w j 0 := by
  unfold Bitset.ensureWord
  by_cases h : i / 64 < b.w.length
  · rw [if_pos h]
  · rw [if_neg h]
    exact getD_append_replicate_zero b.w _ j

theorem ensureWord_minWord (b : Bitset) (i : Nat) :
    (b.ensureWord i).minWord = b.minWord := by
  unfold Bitset.ensureWord
  by_cases h : i / 64 < b.w.length
  · rw [if_pos h]
  · rw [if_neg h]

theorem ensureWord_test (b : Bitset) (i j : Nat) :
    (b.ensureWord i).test j = b.test j := by
  rw [test_eq_testBit_getD, test_eq_testBit_getD, ensureWord_w_getD]

theorem ensureWord_len (b : Bitset) (i : Nat) :
    b.w.length ≤ (b.ensureWord i).w.length ∧ i / 64 < (b.ensureWord i).w.length := by
  unfold Bitset.ensureWord
  by_cases h : i / 64 < b.w.length
  · rw [if_pos h]
    exact ⟨le_refl _, h⟩
  · rw [if_neg h]
    constructor
    · simp
    · simp only [List.length_append, List.length_replicate]
      omega

theorem ensureWord_WF (b : Bitset) (i : Nat) (h : b.WF) : (b.ensureWord i).WF := by
  obtain ⟨hw, hmin⟩ := h
  constructor
  · intro x hx
    unfold Bitset.ensureWord at hx
    by_cases hr : i / 64 < b.w.length
    · rw [if_pos hr] at hx
      exact hw x hx
    · rw [if_neg hr] at hx
      simp only [List.mem_append] at hx
      rcases hx with hx | hx
      · exact hw x hx
      · rw [List.eq_of_mem_replicate hx]
        positivity
  · rw [ensureWord_minWord]
    cases hb : b.minWord with
    | none =>
      rw [hb] at hmin
      intro x hx
      unfold Bitset.ensureWord at hx
      by_cases hr : i / 64 < b.w.length
      · rw [if_pos hr] at hx
        exact hmin x hx
      · rw [if_neg hr] at hx
        simp only [List.mem_append] at hx
        rcases hx with hx | hx
        · exact hmin x hx
        · exact List.eq_of_mem_replicate hx
    | some m =>
      rw [hb] at hmin
      obtain ⟨hm1, hm2, hm3⟩ := hmin
      refine ⟨?_, ?_, ?_⟩
      · have := (ensureWord_len b i).1
        omega
      · rw [ensureWord_w_getD]
        exact hm2
      · intro j hj
        rw [ensureWord_w_getD]
        exact hm3 j hj

theorem set_w_eq (b : Bitset) (i : Nat) :
    (b.set i).w = List.set (b.ensureWord i).w (i / 64)
      (List.getD (b.ensureWord i).w (i / 64) 0 ||| (1 <<< (i % 64))) := rfl

theorem set_minWord_none (b : Bitset) (i : Nat) (hb : b.minWord = none) :
    (b.set i).minWord = some (i / 64) := by
  show (match b.minWord with
    | none => some (i / 64)
    | some m => if List.getD (b.ensureWord i).w (i / 64) 0 = 0 ∧ i / 64 < m
        then some (i / 64) else some m) = some (i / 64)
  rw [hb]

theorem set_minWord_some (b : Bitset) (i m : Nat) (hb : b.minWord = some m) :
    (b.set i).minWord = (if List.getD b.w (i / 64) 0 = 0 ∧ i / 64 < m
        then some (i / 64) else some m) := by
  show (match b.minWord with
    | none => some (i / 64)
    | some m => if List.getD (b.ensureWord i).w (i / 64) 0 = 0 ∧ i / 64 < m
        then some (i / 64) else some m) = _
  rw [hb]
  simp only [ensureWord_w_getD]

theorem one_shiftLeft_eq (k : Nat) : (1 : Nat) <<< k = 2 ^ k := by
  rw [Nat.shiftLeft_eq, one_mul]

theorem setword_ne_zero (b : Bitset) (i : Nat) :
    List.getD (b.ensureWord i).w (i / 64) 0 ||| (1 <<< (i % 64)) ≠ 0 := by
  intro hzero
  have hbit : (List.getD (b.ensureWord i).w (i / 64) 0 |||
      (1 <<< (i % 64))).testBit (i % 64) = true := by
    rw [Nat.testBit_lor, one_shiftLeft_eq, Nat.testBit_two_pow_self]
    simp
  rw [hzero] at hbit
  simp at hbit

/-- `set i` adds exactly bit `i` to the bitset. -/
theorem set_test (b : Bitset) (i j : Nat) :
    (b.set i).test j = (b.test j || decide (j = i)) := by
  rw [test_eq_testBit_getD, test_eq_testBit_getD, set_w_eq, getD_set_poly]
  have hlen1 := (ensureWord_len b i).2
  by_cases hww : i / 64 = j / 64
  · rw [if_pos ⟨hww, hlen1⟩, Nat.testBit_lor, one_shiftLeft_eq, ensureWord_w_getD, hww]
    have hmods : (i % 64 = j % 64) ↔ j = i := by omega
    rw [Nat.testBit_two_pow]
    by_cases hm : i % 64 = j % 64
    · have hji : j = i := hmods.mp hm
      simp [hm, hji]
    · have hji : ¬ (j = i) := fun hc => hm (hmods.mpr hc)
      simp [hm, hji]
  · rw [if_neg (fun hc => hww hc.1), ensureWord_w_getD]
    have hji : ¬ (j = i) := by omega
    simp [hji]

theorem set_WF (b : Bitset) (i : Nat) (h : b.WF) : (b.set i).WF := by
  have hb1 := ensureWord_WF b i h
  obtain ⟨hw1, hmin1⟩ := hb1
  obtain ⟨hw, hmin⟩ := h
  have hlen1 := (ensureWord_len b i).2
  have hwordlt : List.getD (b.ensureWord i).w (i / 64) 0 ||| (1 <<< (i % 64)) < 2 ^ 64 := by
    rw [one_shiftLeft_eq]
    apply Nat.or_lt_two_pow
    · by_cases hr : i / 64 < (b.ensureWord i).w.length
      · exact hw1 _ (getD_mem_of_lt hr)
      · rw [getD_zero_of_ge _ _ (by omega)]
        positivity
    · have h1 : (2 : Nat) ^ (i % 64 + 1) ≤ 2 ^ 64 := Nat.pow_le_pow_right (by omega) (by omega)
      have h2 : (0 : Nat) < 2 ^ (i % 64) := Nat.two_pow_pos _
      have h3 : (2 : Nat) ^ (i % 64 + 1) = 2 * 2 ^ (i % 64) := by
        rw [Nat.pow_succ]
        ring
      omega
  constructor
  · intro x hx
    rw [set_w_eq] at hx
    rcases List.mem_or_eq_of_mem_set hx with hx | rfl
    · exact hw1 x hx
    · exact hwordlt
  · cases hb : b.minWord with
    | none =>
      rw [set_minWord_none b i hb]
      rw [hb] at hmin
      refine ⟨?_, ?_, ?_⟩
      · rw [set_w_eq, List.length_set]
        exact hlen1
      · rw [set_w_eq, getD_set_poly, if_pos ⟨rfl, hlen1⟩]
        exact setword_ne_zero b i
      · intro j hj
        rw [set_w_eq, getD_set_poly, if_neg (by omega), ensureWord_w_getD]
        by_cases hr : j < b.w.length
        · exact hmin _ (getD_mem_of_lt hr)
        · exact getD_zero_of_ge _ _ (by omega)
    | some m =>
      rw [set_minWord_some b i m hb]
      rw [hb] at hmin
      obtain ⟨hm1, hm2, hm3⟩ := hmin
      by_cases hcond : List.getD b.w (i / 64) 0 = 0 ∧ i / 64 < m
      · rw [if_pos hcond]
        refine ⟨?_, ?_, ?_⟩
        · rw [set_w_eq, List.length_set]
          exact hlen1
        · rw [set_w_eq, getD_set_poly, if_pos ⟨rfl, hlen1⟩]
          exact setword_ne_zero b i
        · intro j hj
          rw [set_w_eq, getD_set_poly, if_neg (by omega), ensureWord_w_getD]
          exact hm3 j (by omega)
      · rw [if_neg hcond]
        refine ⟨?_, ?_, ?_⟩
        · rw [set_w_eq, List.length_set]
          have := (ensureWord_len b i).1
          omega
        · rw [set_w_eq, getD_set_poly]
          by_cases him : i / 64 = m
          · rw [if_pos ⟨him, hlen1⟩]
            exact setword_ne_zero b i
          · rw [if_neg (fun hc => him hc.1), ensureWord_w_getD]
            exact hm2
        · intro j hj
          rw [set_w_eq, getD_set_poly]
          by_cases hij : i / 64 = j
          · exfalso
            apply hcond
            refine ⟨?_, by omega⟩
            rw [hij]
            exact hm3 j hj
          · rw [if_neg (fun hc => hij hc.1), ensureWord_w_getD]
            exact hm3 j hj

theorem firstNZ_none {l : List Nat} (h : firstNZ l = none) :
    ∀ j, j < l.length → List.getD l j 0 = 0 := by
  induction l with
  | nil => simp
  | cons x xs ih =>
    unfold firstNZ at h
    by_cases hx : x ≠ 0
    · rw [if_pos hx] at h
      exact Option.noConfusion h
    · rw [if_neg hx] at h
      have hxs : firstNZ xs = none := by
        cases hfz : firstNZ xs with
        | none => rfl
        | some k =>
          rw [hfz] at h
          exact Option.noConfusion h
      intro j hj
      cases j with
      | zero => simpa using hx
      | succ n =>
        simp only [List.getD_cons_succ]
        exact ih hxs n (by simpa using hj)

theorem firstNZ_some {l : List Nat} {k : Nat} (h : firstNZ l = some k) :
    k < l.length ∧ List.getD l k 0 ≠ 0 ∧ ∀ j, j < k → List.getD l j 0 = 0 := by
  induction l generalizing k with
  | nil => exact Option.noConfusion h
  | cons x xs ih =>
    unfold firstNZ at h
    by_cases hx : x ≠ 0
    · rw [if_pos hx] at h
      cases h
      refine ⟨by simp, by simpa using hx, fun j hj => absurd hj (by omega)⟩
    · rw [if_neg hx] at h
      cases hfz : firstNZ xs with
      | none =>
        rw [hfz] at h
        exact Option.noConfusion h
      | some k2 =>
        rw [hfz] at h
        simp only [Option.map_some'] at h
        cases h
        obtain ⟨hb1, hb2, hb3⟩ := ih hfz
        refine ⟨by simpa using hb1, by simpa using hb2, ?_⟩
        intro j hj
        cases j with
        | zero => simpa using hx
        | succ n =>
          simp only [List.getD_cons_succ]
          exact hb3 n (by omega)

theorem getD_drop (l : List Nat) (n m : Nat) :
    List.getD (List.drop n l) m 0 = List.getD l (n + m) 0 := by
  induction l generalizing n with
  | nil => simp [List.getD]
  | cons a t ih =>
    cases n with
    | zero => simp
    | succ k =>
      simp only [List.drop_succ_cons]
      rw [ih k, show k + 1 + m = (k + m) + 1 from by omega]
      rfl

theorem firstNonzeroFrom_none {w : List Nat} {start : Nat}
    (h : firstNonzeroFrom w start = none) :
    ∀ j, start ≤ j → List.getD w j 0 = 0 := by
  unfold firstNonzeroFrom at h
  have hfz : firstNZ (List.drop start w) = none := by
    cases hz : firstNZ (List.drop start w) with
    | none => rfl
    | some k =>
      rw [hz] at h
      exact Option.noConfusion h
  intro j hj
  by_cases hr : j < w.length
  · have := firstNZ_none hfz (j - start) (by
      rw [List.length_drop]
      omega)
    rw [getD_drop] at this
    rwa [show start + (j - start) = j from by omega] at this
  · exact getD_zero_of_ge _ _ (by omega)

theorem firstNonzeroFrom_some {w : List Nat} {start k : Nat}
    (h : firstNonzeroFrom w start = some k) :
    start ≤ k ∧ k < w.length ∧ List.getD w k 0 ≠ 0 ∧
      ∀ j, start ≤ j → j < k → List.getD w j 0 = 0 := by
  unfold firstNonzeroFrom at h
  cases hz : firstNZ (List.drop start w) with
  | none =>
    rw [hz] at h
    exact Option.noConfusion h
  | some k2 =>
    rw [hz] at h
    simp only [Option.map_some'] at h
    cases h
    obtain ⟨hb1, hb2, hb3⟩ := firstNZ_some hz
    rw [List.length_drop] at hb1
    rw [getD_drop] at hb2
    refine ⟨by omega, by omega, hb2, ?_⟩
    intro j hjs hjk
    have := hb3 (j - start) (by omega)
    rw [getD_drop] at this
    rwa [show start + (j - start) = j from by omega] at this

theorem clear_w_getD (b : Bitset) (i j : Nat) :
    List.getD (b.clear i).w j 0 =
      if i / 64 = j ∧ i / 64 < b.w.length
      then List.getD b.w (i / 64) 0 &&& (2 ^ 64 - 1 - 2 ^ (i % 64))
      else List.getD b.w j 0 := by
  unfold Bitset.clear
  by_cases hr : i / 64 < b.w.length
  · rw [if_pos hr]
    simp only []
    rw [getD_set_poly]
  · rw [if_neg hr, if_neg (fun hc => hr hc.2)]

theorem mask_testBit (bi bj : Nat) (hbi : bi < 64) (hbj : bj < 64) :
    (2 ^ 64 - 1 - 2 ^ bi).testBit bj = !(decide (bi = bj)) := by
  have hlt : (2 : Nat) ^ bi < 2 ^ 64 := Nat.pow_lt_pow_right (by omega) hbi
  have heq : (2 : Nat) ^ 64 - 1 - 2 ^ bi = 2 ^ 64 - (2 ^ bi + 1) := by omega
  rw [heq, Nat.testBit_two_pow_sub_succ hlt, Nat.testBit_two_pow]
  simp [hbj]

theorem clear_minWord (b : Bitset) (i : Nat) :
    (b.clear i).minWord =
      (if i / 64 < b.w.length then
        (if List.getD b.w (i / 64) 0 &&& (2 ^ 64 - 1 - 2 ^ (i % 64)) = 0 ∧
            b.minWord = some (i / 64)
         then firstNonzeroFrom (List.set b.w (i / 64)
              (List.getD b.w (i / 64) 0 &&& (2 ^ 64 - 1 - 2 ^ (i % 64)))) (i / 64)
         else b.minWord)
      else b.minWord) := by
  unfold Bitset.clear
  by_cases hr : i / 64 < b.w.length
  · rw [if_pos hr, if_pos hr]
  · rw [if_neg hr, if_neg hr]

/-- `clear i` removes exactly bit `i` (an out-of-range `i` changes nothing,
and its bit was already 0). -/
theorem clear_test (b : Bitset) (i j : Nat) :
    (b.clear i).test j = (b.test j && !(decide (j = i))) := by
  rw [test_eq_testBit_getD, test_eq_testBit_getD, clear_w_getD]
  by_cases hin : i / 64 = j / 64 ∧ i / 64 < b.w.length
  · rw [if_pos hin]
    rw [Nat.testBit_land, mask_testBit (i % 64) (j % 64) (by omega) (by omega), hin.1]
    have hmods : (i % 64 = j % 64) ↔ j = i := by
      obtain ⟨h1, _⟩ := hin
      omega
    by_cases hm : i % 64 = j % 64
    · have hji : j = i := hmods.mp hm
      simp [hm, hji]
    · have hji : ¬ (j = i) := fun hc => hm (hmods.mpr hc)
      simp [hm, hji]
  · rw [if_neg hin]
    by_cases hww : i / 64 = j / 64
    · have hout : ¬ (i / 64 < b.w.length) := fun hc => hin ⟨hww, hc⟩
      rw [hww] at hout
      rw [getD_zero_of_ge _ _ (by omega)]
      simp
    · have hji : ¬ (j = i) := by omega
      simp [hji]

theorem clear_WF (b : Bitset) (i : Nat) (h : b.WF) : (b.clear i).WF := by
  obtain ⟨hw, hmin⟩ := h
  by_cases hr : i / 64 < b.w.length
  case neg =>
    have hid : b.clear i = b := by
      unfold Bitset.clear
      rw [if_neg hr]
    rw [hid]
    exact ⟨hw, hmin⟩
  case pos =>
    have hwset : (b.clear i).w = List.set b.w (i / 64)
        (List.getD b.w (i / 64) 0 &&& (2 ^ 64 - 1 - 2 ^ (i % 64))) := by
      unfold Bitset.clear
      rw [if_pos hr]
    have hwords : ∀ x ∈ (b.clear i).w, x < 2 ^ 64 := by
      intro x hx
      rw [hwset] at hx
      rcases List.mem_or_eq_of_mem_set hx with hx | rfl
      · exact hw x hx
      · calc List.getD b.w (i / 64) 0 &&& (2 ^ 64 - 1 - 2 ^ (i % 64)) ≤
            List.getD b.w (i / 64) 0 := Nat.and_le_left
          _ < 2 ^ 64 := hw _ (getD_mem_of_lt hr)
    refine ⟨hwords, ?_⟩
    rw [clear_minWord, if_pos hr]
    by_cases hcc : List.getD b.w (i / 64) 0 &&& (2 ^ 64 - 1 - 2 ^ (i % 64)) = 0 ∧
        b.minWord = some (i / 64)
    · rw [if_pos hcc]
      rw [hcc.2] at hmin
      obtain ⟨hm1, hm2, hm3⟩ := hmin
      cases hfz : firstNonzeroFrom (List.set b.w (i / 64)
          (List.getD b.w (i / 64) 0 &&& (2 ^ 64 - 1 - 2 ^ (i % 64)))) (i / 64) with
      | none =>
        rw [hwset]
        apply all_zero_of_getD
        intro j hj
        rw [List.length_set] at hj
        by_cases hji : j < i / 64
        · rw [getD_set_poly, if_neg (by omega)]
          exact hm3 j hji
        · exact firstNonzeroFrom_none hfz j (by omega)
      | some k =>
        obtain ⟨hk1, hk2, hk3, hk4⟩ := firstNonzeroFrom_some hfz
        refine ⟨?_, ?_, ?_⟩
        · rw [hwset]
          exact hk2
        · rw [hwset]
          exact hk3
        · intro j hj
          rw [hwset]
          by_cases hji : j < i / 64
          · rw [getD_set_poly, if_neg (by omega)]
            exact hm3 j hji
          · exact hk4 j (by omega) hj
    · rw [if_neg hcc]
      cases hb : b.minWord with
      | none =>
        rw [hb] at hmin
        intro x hx
        rw [hwset] at hx
        rcases List.mem_or_eq_of_mem_set hx with hx | rfl
        · exact hmin x hx
        · rw [hmin _ (getD_mem_of_lt hr)]
          simp
      | some m =>
        rw [hb] at hmin
        obtain ⟨hm1, hm2, hm3⟩ := hmin
        refine ⟨?_, ?_, ?_⟩
        · rw [hwset, List.length_set]
          exact hm1
        · rw [hwset, getD_set_poly]
          by_cases him : i / 64 = m
          · rw [if_pos ⟨him, hr⟩]
            intro hzero
            apply hcc
            refine ⟨hzero, ?_⟩
            rw [him]
            exact hb
          · rw [if_neg (fun hc => him hc.1)]
            exact hm2
        · intro j hj
          rw [hwset, getD_set_poly]
          by_cases hij : i / 64 = j
          · rw [if_pos ⟨hij, hr⟩, hij, hm3 j hj]
            simp
          · rw [if_neg (fun hc => hij hc.1)]
            exact hm3 j hj

theorem any_false_all_clear (b : Bitset) (h : b.WF) (ha : b.any = false) :
    ∀ i, b.test i = false := by
  intro i
  unfold Bitset.any at ha
  obtain ⟨hw, hmin⟩ := h
  cases hb : b.minWord with
  | some m =>
    rw [hb] at ha
    simp at ha
  | none =>
    rw [hb] at hmin
    rw [test_eq_testBit_getD]
    by_cases hr : i / 64 < b.w.length
    · rw [hmin _ (getD_mem_of_lt hr)]
      simp
    · rw [getD_zero_of_ge _ _ (by omega)]
      simp

theorem any_true_exists (b : Bitset) (h : b.WF) (ha : b.any = true) :
    ∃ i, b.test i = true := by
  unfold Bitset.any at ha
  obtain ⟨hw, hmin⟩ := h
  cases hb : b.minWord with
  | none =>
    rw [hb] at ha
    simp at ha
  | some m =>
    rw [hb] at hmin
    obtain ⟨hm1, hm2, hm3⟩ := hmin
    obtain ⟨k, hk⟩ := Nat.ne_zero_implies_bit_true hm2
    have hk64 : k < 64 := by
      have hlt := hw _ (getD_mem_of_lt hm1)
      have := Nat.testBit_implies_ge hk
      by_contra hge
      have : (2 : Nat) ^ 64 ≤ 2 ^ k := Nat.pow_le_pow_right (by omega) (by omega)
      omega
    refine ⟨m * 64 + k, ?_⟩
    rw [test_eq_testBit_getD]
    have hdiv : (m * 64 + k) / 64 = m := by omega
    have hmod : (m * 64 + k) % 64 = k := by omega
    rw [hdiv, hmod]
    exact hk

theorem getD_mem_poly {α : Type} {l : List α} {n : Nat} (d : α) (h : n < l.length) :
    List.getD l n d ∈ l := by
  induction l generalizing n with
  | nil => simp at h
  | cons a t ih =>
    cases n with
    | zero => simp [List.getD]
    | succ m =>
      simp only [List.getD_cons_succ]
      exact List.mem_cons_of_mem a (ih (by simpa using h))

theorem test_false_of_ge (b : Bitset) (i : Nat) (h : 64 * b.w.length ≤ i) :
    b.test i = false := by
  unfold Bitset.test
  rw [if_neg]
  omega

theorem sum_ne_zero_exists {l : List Nat} (h : l.sum ≠ 0) : ∃ x ∈ l, x ≠ 0 := by
  induction l with
  | nil => simp at h
  | cons a t ih =>
    by_cases ha : a = 0
    · rw [List.sum_cons, ha, Nat.zero_add] at h
      obtain ⟨x, hx, hxn⟩ := ih h
      exact ⟨x, List.mem_cons_of_mem a hx, hxn⟩
    · exact ⟨a, List.mem_cons_self a t, ha⟩

theorem mem_of_getLast? {α : Type} {l : List α} {a : α} (h : l.getLast? = some a) :
    a ∈ l := by
  induction l with
  | nil => simp [List.getLast?] at h
  | cons x t ih =>
    cases t with
    | nil =>
      simp [List.getLast?] at h
      simp [h]
    | cons y u =>
      rw [List.getLast?_cons_cons] at h
      exact List.mem_cons_of_mem x (ih h)

theorem getLast?_isSome_of_ne_nil {α : Type} {l : List α} (h : l ≠ []) :
    ∃ a, l.getLast? = some a := by
  cases hl : l.getLast? with
  | none => exact absurd (List.getLast?_eq_none_iff.mp hl) h
  | some a => exact ⟨a, rfl⟩

theorem bitset_wfCheck_WF {b : Bitset} (h : b.wfCheck = true) : b.WF := by
  unfold Bitset.wfCheck at h
  unfold Bitset.WF
  cases hb : b.minWord with
  | none =>
    rw [hb] at h
    simp only [Bool.and_eq_true, List.all_eq_true, decide_eq_true_eq] at h
    exact ⟨h.1, h.2⟩
  | some m =>
    rw [hb] at h
    simp only [Bool.and_eq_true, List.all_eq_true, decide_eq_true_eq,
      List.mem_range] at h
    exact ⟨h.1, h.2.1.1, h.2.1.2, fun j hj => h.2.2 j hj⟩

theorem wf_fbits {q : TLBPQ} (hwf : q.wfCheck = true) : q.fbits.WF := by
  unfold TLBPQ.wfCheck at hwf
  simp only [Bool.and_eq_true] at hwf
  exact bitset_wfCheck_WF hwf.1.1.1.1.1

theorem wf_layer {q : TLBPQ} (hwf : q.wfCheck = true) {f : Nat}
    (hf : f < q.layers.length) : (List.getD q.layers f default).wfCheck = true := by
  unfold TLBPQ.wfCheck at hwf
  simp only [Bool.and_eq_true, List.all_eq_true] at hwf
  exact hwf.1.1.1.1.2 _ (getD_mem_poly default hf)

theorem wf_hbits {q : TLBPQ} (hwf : q.wfCheck = true) {f : Nat}
    (hf : f < q.layers.length) : (List.getD q.layers f default).hbits.WF := by
  have h := wf_layer hwf hf
  unfold HLayer.wfCheck at h
  simp only [Bool.and_eq_true] at h
  exact bitset_wfCheck_WF h.1

theorem fsync {q : TLBPQ} (hwf : q.wfCheck = true) (f : Nat) :
    q.fbits.test f = (decide (f < q.layers.length) &&
      (List.getD q.layers f default).buckets.any (fun bk => !bk.isEmpty)) := by
  unfold TLBPQ.wfCheck at hwf
  simp only [Bool.and_eq_true, List.all_eq_true, List.mem_range, beq_iff_eq] at hwf
  by_cases hfb : f < max (64 * q.fbits.w.length) q.layers.length
  · exact hwf.1.1.1.2 f hfb
  · rw [test_false_of_ge q.fbits f (by omega)]
    have hlen : ¬ f < q.layers.length := by omega
    simp [hlen]

theorem hsync {q : TLBPQ} (hwf : q.wfCheck = true) {f : Nat}
    (hf : f < q.layers.length) (h : Nat) :
    (List.getD q.layers f default).hbits.test h =
      (decide (h < (List.getD q.layers f default).buckets.length) &&
        !(List.getD (List.getD q.layers f default).buckets h []).isEmpty) := by
  have hl := wf_layer hwf hf
  unfold HLayer.wfCheck at hl
  simp only [Bool.and_eq_true, List.all_eq_true, List.mem_range, beq_iff_eq] at hl
  by_cases hb : h < max (64 * (List.getD q.layers f default).hbits.w.length)
      (List.getD q.layers f default).buckets.length
  · exact hl.2 h hb
  · rw [test_false_of_ge _ h (by omega)]
    have hlen : ¬ h < (List.getD q.layers f default).buckets.length := by omega
    rw [decide_eq_false hlen, Bool.false_and]

theorem pos_sync {q : TLBPQ} (hwf : q.wfCheck = true) {v : Nat}
    (hv : v < q.pos.length) (hp : (List.getD q.pos v default).present = true) :
    (List.getD q.pos v default).f < 2 ^ 16 ∧
    (List.getD q.pos v default).h < 2 ^ 16 ∧
    (List.getD q.pos v default).f < q.layers.length ∧
    (List.getD q.pos v default).h <
      (List.getD q.layers (List.getD q.pos v default).f default).buckets.length ∧
    v ∈ q.bucketAt (List.getD q.pos v default).f (List.getD q.pos v default).h := by
  unfold TLBPQ.wfCheck at hwf
  simp only [Bool.and_eq_true, List.all_eq_true, List.mem_range] at hwf
  have h4 := hwf.1.1.2 v hv
  simp only [hp, Bool.not_true, Bool.false_or, Bool.and_eq_true,
    decide_eq_true_eq] at h4
  exact ⟨h4.1.1.1.1, h4.1.1.1.2, h4.1.1.2, h4.1.2, h4.2⟩

theorem bucket_sync {q : TLBPQ} (hwf : q.wfCheck = true) {f h v : Nat}
    (hf : f < q.layers.length)
    (hh : h < (List.getD q.layers f default).buckets.length)
    (hvb : v ∈ q.bucketAt f h) :
    v < q.pos.length ∧ (List.getD q.pos v default).present = true ∧
    (List.getD q.pos v default).f = f ∧ (List.getD q.pos v default).h = h := by
  unfold TLBPQ.wfCheck at hwf
  simp only [Bool.and_eq_true, List.all_eq_true, List.mem_range] at hwf
  have h5 := hwf.1.2 f hf h hh v hvb
  simp only [Bool.and_eq_true, decide_eq_true_eq] at h5
  exact ⟨h5.1.1.1, h5.1.1.2, h5.1.2, h5.2⟩

theorem count_sum {q : TLBPQ} (hwf : q.wfCheck = true) :
    q.count = (q.layers.map (fun L => (L.buckets.map List.length).sum)).sum := by
  unfold TLBPQ.wfCheck at hwf
  simp only [Bool.and_eq_true, decide_eq_true_eq] at hwf
  exact hwf.2

theorem findFirst_isSome_of_test {b : Bitset} (hWF : b.WF) {i : Nat}
    (h : b.test i = true) : ∃ i0, b.findFirst = some i0 := by
  cases hb : b.findFirst with
  | none =>
    rw [(findFirst_spec b hWF).1 hb i] at h
    exact Bool.noConfusion h
  | some k => exact ⟨k, rfl⟩

theorem extract_min_eq (q : TLBPQ) (f h v : Nat) (hc : ¬ q.count = 0)
    (hff : q.fbits.findFirst = some f)
    (hhf : (List.getD q.layers f default).hbits.findFirst = some h)
    (hlast : (List.getD (List.getD q.layers f default).buckets h []).getLast? = some v) :
    q.extract_min = some (extractResult q f h v) := by
  unfold TLBPQ.extract_min
  rw [if_neg hc, hff]
  show extractStep2 q f = some (extractResult q f h v)
  unfold extractStep2
  rw [hhf]
  show extractStep3 q f h = some (extractResult q f h v)
  unfold extractStep3
  rw [hlast]

theorem not_isEmpty_of_ne_nil {α : Type} {l : List α} (h : l ≠ []) :
    (!l.isEmpty) = true := by
  cases l with
  | nil => exact absurd rfl h
  | cons a t => rfl

theorem ne_nil_of_not_isEmpty {α : Type} {l : List α} (h : (!l.isEmpty) = true) :
    l ≠ [] := by
  cases l with
  | nil => exact Bool.noConfusion h
  | cons a t => exact List.cons_ne_nil a t

theorem mem_exists_getD {α : Type} {l : List α} {a : α} (d : α) (h : a ∈ l) :
    ∃ i, i < l.length ∧ List.getD l i d = a := by
  induction l with
  | nil => simp at h
  | cons x t ih =>
    rcases List.mem_cons.mp h with rfl | hmem
    · exact ⟨0, by simp, rfl⟩
    · obtain ⟨i, hi, hgi⟩ := ih hmem
      exact ⟨i + 1, by simpa using hi, by simpa [List.getD_cons_succ] using hgi⟩

/-- C6: on every well-formed non-empty two-level bucket queue,
`extract_min` returns an entry that is present in the queue, reports its
packed `(f << 16) | h` key, and whose `(f, h)` is lexicographically
minimal among all present entries; and the spec's sanity scenario holds:
after inserting `(v=3, pack(5,7))`, `(v=1, pack(3,9))`, `(v=2, pack(5,2))`
into an empty queue, three `extract_min` calls return ids `1, 2, 3` with
keys `pack(3,9)`, `pack(5,2)`, `pack(5,7)` respectively. -/
theorem C6_extract_min_lex (q : TLBPQ) (hwf : q.wfCheck = true) (hc : 0 < q.count) :
    (∃ q2 v k, q.extract_min = some (q2, v, k) ∧
      v < q.pos.length ∧ (List.getD q.pos v default).present = true ∧
      k = TLBPQ.keyFH (List.getD q.pos v default).f (List.getD q.pos v default).h ∧
      ∀ v2, v2 < q.pos.length → (List.getD q.pos v2 default).present = true →
        ((List.getD q.pos v default).f < (List.getD q.pos v2 default).f ∨
         ((List.getD q.pos v default).f = (List.getD q.pos v2 default).f ∧
          (List.getD q.pos v default).h ≤ (List.getD q.pos v2 default).h))) ∧
    (Option.map (fun r => r.2) scenarioEx1 = some (1, pack_fh_asc 3 9) ∧
     Option.map (fun r => r.2) scenarioEx2 = some (2, pack_fh_asc 5 2) ∧
     Option.map (fun r => r.2) scenarioEx3 = some (3, pack_fh_asc 5 7)) := by
  refine ⟨?_, by decide, by decide, by decide⟩
  have hcnt := count_sum hwf
  have hsum : (q.layers.map (fun L => (L.buckets.map List.length).sum)).sum ≠ 0 := by
    omega
  obtain ⟨x, hxmem, hxne⟩ := sum_ne_zero_exists hsum
  obtain ⟨L, hLmem, hLx⟩ := List.mem_map.mp hxmem
  have hsum2 : (L.buckets.map List.length).sum ≠ 0 := by rw [hLx]; exact hxne
  obtain ⟨y, hymem, hyne⟩ := sum_ne_zero_exists hsum2
  obtain ⟨bkl, hbklmem, hbkly⟩ := List.mem_map.mp hymem
  have hlen0 : bkl.length ≠ 0 := by rw [hbkly]; exact hyne
  have hbklne : bkl ≠ [] := by
    intro hnil
    rw [hnil] at hlen0
    exact hlen0 rfl
  obtain ⟨fA, hfAlt, hfAeq⟩ := mem_exists_getD default hLmem
  have hanyA : (List.getD q.layers fA default).buckets.any (fun bk => !bk.isEmpty)
      = true := by
    rw [hfAeq]
    exact List.any_eq_true.mpr ⟨bkl, hbklmem, not_isEmpty_of_ne_nil hbklne⟩
  have htestfA : q.fbits.test fA = true := by
    rw [fsync hwf fA, decide_eq_true hfAlt, Bool.true_and]
    exact hanyA
  obtain ⟨f0, hff⟩ := findFirst_isSome_of_test (wf_fbits hwf) htestfA
  have hspecf := (findFirst_spec q.fbits (wf_fbits hwf)).2 f0 hff
  have h1 := hspecf.1
  rw [fsync hwf f0] at h1
  simp only [Bool.and_eq_true, decide_eq_true_eq] at h1
  have hf0len : f0 < q.layers.length := h1.1
  have hf0any := h1.2
  obtain ⟨bk0, hbk0mem, hbk0ne⟩ := List.any_eq_true.mp hf0any
  obtain ⟨h1A, hh1lt, hh1eq⟩ := mem_exists_getD [] hbk0mem
  have htesth1 : (List.getD q.layers f0 default).hbits.test h1A = true := by
    rw [hsync hwf hf0len h1A, decide_eq_true hh1lt, Bool.true_and, hh1eq]
    exact hbk0ne
  obtain ⟨h0, hhf⟩ := findFirst_isSome_of_test (wf_hbits hwf hf0len) htesth1
  have hspech := (findFirst_spec _ (wf_hbits hwf hf0len)).2 h0 hhf
  have h2 := hspech.1
  rw [hsync hwf hf0len h0] at h2
  simp only [Bool.and_eq_true, decide_eq_true_eq] at h2
  have hh0lt : h0 < (List.getD q.layers f0 default).buckets.length := h2.1
  have hh0ne : List.getD (List.getD q.layers f0 default).buckets h0 [] ≠ [] :=
    ne_nil_of_not_isEmpty h2.2
  obtain ⟨v0, hlast⟩ := getLast?_isSome_of_ne_nil hh0ne
  have hext := extract_min_eq q f0 h0 v0 (by omega) hff hhf hlast
  have hv0b : v0 ∈ q.bucketAt f0 h0 := mem_of_getLast? hlast
  obtain ⟨hv0lt, hv0pres, hv0f, hv0h⟩ := bucket_sync hwf hf0len hh0lt hv0b
  refine ⟨(extractResult q f0 h0 v0).1, v0, TLBPQ.keyFH f0 h0, ?_, hv0lt, hv0pres,
    by rw [hv0f, hv0h], ?_⟩
  · rw [hext]
    rfl
  · intro v2 hv2 hp2
    obtain ⟨hp2f16, hp2h16, hp2f, hp2h, hv2b⟩ := pos_sync hwf hv2 hp2
    have hbne2 : List.getD (List.getD q.layers (List.getD q.pos v2 default).f
        default).buckets (List.getD q.pos v2 default).h [] ≠ [] :=
      List.ne_nil_of_mem hv2b
    have htest2 : q.fbits.test (List.getD q.pos v2 default).f = true := by
      rw [fsync hwf _, decide_eq_true hp2f, Bool.true_and]
      exact List.any_eq_true.mpr ⟨_, getD_mem_poly [] hp2h, not_isEmpty_of_ne_nil hbne2⟩
    have hf0le : f0 ≤ (List.getD q.pos v2 default).f := by
      by_contra hlt
      have hcon := hspecf.2 _ (by omega : (List.getD q.pos v2 default).f < f0)
      rw [htest2] at hcon
      exact Bool.noConfusion hcon
    by_cases heqf : f0 = (List.getD q.pos v2 default).f
    · have hp2h0 : (List.getD q.pos v2 default).h <
          (List.getD q.layers f0 default).buckets.length := by
        rw [heqf]; exact hp2h
      have hbne2f0 : List.getD (List.getD q.layers f0 default).buckets
          (List.getD q.pos v2 default).h [] ≠ [] := by
        rw [heqf]; exact hbne2
      have htesth2 : (List.getD q.layers f0 default).hbits.test
          (List.getD q.pos v2 default).h = true := by
        rw [hsync hwf hf0len _, decide_eq_true hp2h0, Bool.true_and]
        exact not_isEmpty_of_ne_nil hbne2f0
      have hh0le : h0 ≤ (List.getD q.pos v2 default).h := by
        by_contra hlt
        have hcon := hspech.2 ((List.getD q.pos v2 default).h) (by omega)
        rw [htesth2] at hcon
        exact Bool.noConfusion hcon
      exact Or.inr ⟨by rw [hv0f, heqf], by rw [hv0h]; exact hh0le⟩
    · exact Or.inl (by rw [hv0f]; omega)

/-- Witness for C6: the scenario queue after the three inserts is
well-formed and non-empty, and the theorem applies to it. -/
theorem C6_witness :
    q6.wfCheck = true ∧ 0 < q6.count ∧
      (∃ q2 v k, q6.extract_min = some (q2, v, k) ∧
        v < q6.pos.length ∧ (List.getD q6.pos v default).present = true ∧
        k = TLBPQ.keyFH (List.getD q6.pos v default).f (List.getD q6.pos v default).h ∧
        ∀ v2, v2 < q6.pos.length → (List.getD q6.pos v2 default).present = true →
          ((List.getD q6.pos v default).f < (List.getD q6.pos v2 default).f ∨
           ((List.getD q6.pos v default).f = (List.getD q6.pos v2 default).f ∧
            (List.getD q6.pos v default).h ≤ (List.getD q6.pos v2 default).h))) :=
  ⟨rfl, by decide, (C6_extract_min_lex q6 rfl (by decide)).1⟩

theorem applyPlan_nil_ops (T : Task) (hops : T.ops = []) (s : State)
    (acts : List Int) (t : State) (h : applyPlan T s acts = some t) : t = s := by
  cases acts with
  | nil =>
    unfold applyPlan at h
    exact (Option.some.inj h).symm
  | cons a rest =>
    unfold applyPlan at h
    rw [if_neg] at h
    · exact Option.noConfusion h
    · rintro ⟨h1, h2, h3⟩
      rw [hops] at h2
      simp at h2

set_option maxHeartbeats 4000000 in
/-- C3: on the spec's unsolvable task (one variable, `init x=0`,
`goal x=1`, no operators) — which provably has no plan — the sequential
engine exhausts its open list and returns `solved = false` as specified,
but `bidir_astar` exhausts both open lists without any meeting and
nevertheless returns `solved = true` (with an empty plan of cost 0):
after the loop the code sets `R.solved = true` unconditionally. -/
theorem C3_bidir_unsolvable_reports_solved :
    (∀ acts, ¬ validPlan task3 acts) ∧
    resSolved (astar task3 (fun _ => 0) 100 true false (fun _ => false) 10) =
      some false ∧
    bresSummary (bidir_astar task3 (fun _ => 0) true 100 true false false
      (fun _ => false) 20) = some (true, [], 0) := by
  refine ⟨?_, rfl, rfl⟩
  rintro acts ⟨s, happ, hgoal⟩
  have hs := applyPlan_nil_ops task3 rfl task3.init acts s happ
  rw [hs] at hgoal
  exact Bool.noConfusion hgoal

/-- If the CPU budget is already crossed when the first loop iteration
starts, the engine exits the process with code 101 (no `Result` is ever
produced). -/
theorem astarLoop_timeout (T : Task) (hfun : State → Int) (pmax : Nat)
    (reopen do_mutex : Bool) (tout : Nat → Bool) (f iter : Nat) (st : AState)
    (hne : st.openl.isEmpty = false) (ht : tout iter = true) :
    astarLoop T hfun pmax reopen do_mutex tout (f + 1) iter st =
      some (Except.error 101) := by
  unfold astarLoop
  rw [hne, if_neg (by simp), ht, if_pos rfl]

set_option maxHeartbeats 4000000 in
/-- C4 counterexample: on the spec's unsolvable task with the CPU budget
already exceeded, the sequential engine terminates the process with exit
code 101; no timeout `Result` (with statistics) is surfaced to the
caller. -/
theorem C4_counterexample :
    astar task3 (fun _ => 0) 100 true false (fun _ => true) 10 =
      some (Except.error 101) := rfl

/-- C4 (amended): whenever the initial state is not a goal and the CPU
clock sampled at the top of the first main-loop iteration reports the
budget crossed, `astar` calls `std::exit(101)` instead of returning a
timeout `Result`. -/
theorem C4_amended_timeout_exit (T : Task) (hfun : State → Int) (pmax : Nat)
    (reopen do_mutex : Bool) (tout : Nat → Bool) (fuel : Nat)
    (hng : is_goal T T.init = false) (ht : tout 0 = true) (hf : 0 < fuel) :
    astar T hfun pmax reopen do_mutex tout fuel = some (Except.error 101) := by
  cases fuel with
  | zero => omega
  | succ f =>
    have h1 : astar T hfun pmax reopen do_mutex tout (f + 1) =
        astarLoop T hfun pmax reopen do_mutex tout (f + 1) 0
          ⟨[⟨T.init, -1, -1⟩], [(T.init, 0)], [⟨0, hfun T.init, false⟩],
            olInsert [] 0 (pack_fh_asc (hfun T.init) (hfun T.init)),
            ⟨0, 0, 1, 0⟩⟩ := by
      show (if is_goal T T.init = true
        then some (Except.ok ⟨true, 0, [], [⟨T.init, -1, -1⟩], SStats.zero⟩)
        else astarLoop T hfun pmax reopen do_mutex tout (f + 1) 0
          ⟨[⟨T.init, -1, -1⟩], [(T.init, 0)], [⟨0, hfun T.init, false⟩],
            olInsert [] 0 (pack_fh_asc (hfun T.init) (hfun T.init)),
            ⟨0, 0, 1, 0⟩⟩) = _
      rw [hng, if_neg (by simp)]
    rw [h1]
    exact astarLoop_timeout T hfun pmax reopen do_mutex tout f 0 _ rfl ht

set_option maxHeartbeats 4000000 in
theorem C4_witness :
    is_goal task3 task3.init = false ∧ (fun _ : Nat => true) 0 = true ∧
      0 < 10 ∧
      astar task3 (fun _ => 0) 100 true false (fun _ => true) 10 =
        some (Except.error 101) :=
  ⟨rfl, rfl, by omega,
    C4_amended_timeout_exit task3 (fun _ => 0) 100 true false (fun _ => true) 10
      rfl rfl (by omega)⟩

set_option maxHeartbeats 4000000 in
/-- C10 counterexample: a task whose initial state satisfies the goal
takes the early-return path before the integer-mode test, so with
`h_is_integer = false` the function still returns a `Result`
(`solved = true`) instead of reporting an error and exiting 201. -/
theorem C10_counterexample :
    bidir_astar task10 (fun _ => 0) false 100 true false false (fun _ => false) 20 =
      some (Except.ok ⟨true, 0, [], [⟨[0], -1, -1⟩], SStats.zero, true, 0⟩) := rfl

/-- C10 (amended): when the initial state does not satisfy the goal and
the heuristic is not declared integral, `bidir_astar` never returns a
`Result`: it reports the error and terminates the process with exit code
201 (the init-satisfies-goal early return is the only non-integer path
that produces a `Result`). -/
theorem C10_amended_exit201 (T : Task) (hfun : State → Int) (pmax : Nat)
    (reopen do_mutex stop_first : Bool) (tout : Nat → Bool) (fuel : Nat)
    (hns : forward_state_satisfies_reg T.init (make_goal_reg_state T) = false) :
    bidir_astar T hfun false pmax reopen do_mutex stop_first tout fuel =
      some (Except.error 201) := by
  show (if forward_state_satisfies_reg T.init (make_goal_reg_state T) = true
    then some (Except.ok ⟨true, 0, [], [⟨T.init, -1, -1⟩], SStats.zero, true, 0⟩)
    else if false = true
      then bidirLoop T hfun pmax reopen do_mutex stop_first tout fuel 0
        ⟨[⟨T.init, -1, -1⟩], [(T.init, 0)], [⟨make_goal_reg_state T, -1, -1⟩],
          [(make_goal_reg_state T, 0)], [⟨0, hfun T.init, false⟩], [⟨0, false⟩],
          olInsert [] 0 (pack_fh_asc (hfun T.init) (hfun T.init)),
          olInsert [] 0 (pack_fh_asc 0 0), ⟨0, 0, 1, 0⟩, false, none, -1, -1, true⟩
      else some (Except.error 201)) = some (Except.error 201)
  rw [hns, if_neg (by simp), if_neg (by simp)]

set_option maxHeartbeats 4000000 in
theorem C10_witness :
    forward_state_satisfies_reg task3.init (make_goal_reg_state task3) = false ∧
      bidir_astar task3 (fun _ => 0) false 100 true false false (fun _ => false) 5 =
        some (Except.error 201) :=
  ⟨rfl, C10_amended_exit201 task3 (fun _ => 0) 100 true false false
    (fun _ => false) 5 rfl⟩

theorem socFinish_solved {T : Task} {st : PState}
    (h : (socFinish T st).solved = true) :
    (socFinish T st).plan_ops = [] ∧ (socFinish T st).cost = 0 := by
  unfold socFinish at h
  unfold socFinish
  cases hg : st.goal_node with
  | some g => exact ⟨rfl, rfl⟩
  | none =>
    rw [hg] at h
    exact Bool.noConfusion h

theorem socLoop_shape (T : Task) (tout : Nat → Bool) :
    ∀ fuel iter st R, socLoop T tout fuel iter st = some R →
      R = ⟨false, -1, []⟩ ∨ ∃ st2, R = socFinish T st2 := by
  intro fuel
  induction fuel with
  | zero =>
    intro iter st R h
    exact Option.noConfusion h
  | succ f ih =>
    intro iter st R h
    simp only [socLoop] at h
    cases htb : tout iter with
    | true =>
      rw [htb, if_pos rfl] at h
      exact Or.inl (Option.some.inj h).symm
    | false =>
      rw [htb, if_neg (by simp : ¬ (false = true))] at h
      cases hpop : popBest st.openp with
      | none =>
        simp only [hpop] at h
        exact Or.inr ⟨st, (Option.some.inj h).symm⟩
      | some pr =>
        obtain ⟨cur, rest⟩ := pr
        simp only [hpop] at h
        cases hsg : storeGet st.store cur.id with
        | none =>
          simp only [hsg] at h
          exact ih _ _ _ h
        | some cur_state =>
          simp only [hsg] at h
          cases hgl : is_goal T cur_state with
          | true =>
            rw [hgl, if_pos rfl] at h
            exact Or.inr ⟨_, (Option.some.inj h).symm⟩
          | false =>
            rw [hgl, if_neg (by simp : ¬ (false = true))] at h
            exact ih _ _ _ h

/-- C2: whenever `astar_soc` terminates with `solved = true`, the
returned `plan_ops` is the empty sequence and the returned cost is 0 —
the node registry that `reconstruct_plan` needs is commented out and the
solved branch builds the plan from a fresh empty vector. On the spec's
switch task (flip `x` from 0 to 1 at cost 1) the search detects the goal
and returns `solved = true` with `plan_ops = []`, cost 0, yet the empty
sequence is not a plan for that task (its initial state is not a goal),
so the result does not contain an operator sequence leading to the
detected goal. -/
theorem C2_astar_soc_empty_plan :
    (∀ (T : Task) (tout : Nat → Bool) (fuel : Nat) (R : SearchResult),
      astar_soc T tout fuel = some R → R.solved = true →
        R.plan_ops = [] ∧ R.cost = 0) ∧
    astar_soc task2 (fun _ => false) 10 = some ⟨true, 0, []⟩ ∧
    ¬ validPlan task2 [] := by
  refine ⟨?_, rfl, ?_⟩
  · intro T tout fuel R h hs
    rcases socLoop_shape T tout fuel 0 _ R h with rfl | ⟨st2, rfl⟩
    · exact Bool.noConfusion hs
    · exact socFinish_solved hs
  · rintro ⟨s, happ, hgoal⟩
    have hs : s = task2.init := by
      unfold applyPlan at happ
      exact (Option.some.inj happ).symm
    rw [hs] at hgoal
    exact Bool.noConfusion hgoal

theorem shiftLeft_lor_add : ∀ (n a b : Nat), b < 2 ^ n →
    (a <<< n) ||| b = a * 2 ^ n + b := by
  intro n
  induction n with
  | zero =>
    intro a b hb
    have hb0 : b = 0 := by omega
    subst hb0
    simp [Nat.shiftLeft_eq]
  | succ k ih =>
    intro a b hb
    have hsh : a <<< (k + 1) = (a <<< k) * 2 := by
      rw [Nat.shiftLeft_eq, Nat.shiftLeft_eq, Nat.pow_succ]
      ring
    have hdiv : ((a <<< (k + 1)) ||| b) / 2 = (a <<< k) ||| (b / 2) := by
      rw [Nat.or_div_two, hsh, Nat.mul_div_cancel]
      omega
    have heven : (a <<< (k + 1)) % 2 = 0 := by
      rw [hsh]
      omega
    have hiff := @Nat.or_mod_two_eq_one (a <<< (k + 1)) b
    have hmod : ((a <<< (k + 1)) ||| b) % 2 = b % 2 := by omega
    have hrec := ih a (b / 2) (by omega)
    have hp : a * 2 ^ (k + 1) = 2 * (a * 2 ^ k) := by
      rw [Nat.pow_succ]
      ring
    omega

theorem and_mask_of_lt {x : Nat} (hx : x < 2 ^ 16) : x &&& H_MASK = x := by
  apply Nat.eq_of_testBit_eq
  intro j
  rw [Nat.testBit_land]
  unfold H_MASK
  rw [Nat.testBit_two_pow_sub_one]
  by_cases hj : j < 16
  · simp [hj]
  · have : x.testBit j = false := by
      apply Nat.testBit_lt_two_pow
      calc x < 2 ^ 16 := hx
        _ ≤ 2 ^ j := Nat.pow_le_pow_right (by omega) (by omega)
    simp [hj, this]

/-- In the unwrapped range the packed key is exactly `f * 2^16 + h`. -/
theorem pack_val {f h : Int} (hf0 : 0 ≤ f) (hf : f < 2 ^ 16) (hh0 : 0 ≤ h)
    (hh : h < 2 ^ 16) : pack_fh_asc f h = f.toNat * 2 ^ 16 + h.toNat := by
  show (toUKey (if f < 0 then 0 else f) <<< H_BITS % 2 ^ 32) |||
    (toUKey (if h < 0 then 0 else h) &&& H_MASK) = f.toNat * 2 ^ 16 + h.toNat
  rw [if_neg (by omega), if_neg (by omega),
    toUKey_small hf0 (by omega), toUKey_small hh0 (by omega)]
  have h1 : f.toNat <<< H_BITS % 2 ^ 32 = f.toNat <<< H_BITS := by
    apply Nat.mod_eq_of_lt
    unfold H_BITS
    rw [Nat.shiftLeft_eq]
    calc f.toNat * 2 ^ 16 ≤ (2 ^ 16 - 1) * 2 ^ 16 := Nat.mul_le_mul_right _ (by omega)
      _ < 2 ^ 32 := by norm_num
  have h2 : h.toNat &&& H_MASK = h.toNat := and_mask_of_lt (by omega)
  rw [h1, h2]
  unfold H_BITS
  rw [shiftLeft_lor_add 16 f.toNat h.toNat (by omega)]

/-- The stale-entry test on a synced key: the popped values match the
current `g`/`h` exactly when neither 16-bit field wrapped. -/
theorem key_match_iff {g h : Int} (hg : 0 ≤ g) (hh : 0 ≤ h) :
    (((unpack_f (pack_fh_asc (g + h) h) : Int) = g + h ∧
      (unpack_h (pack_fh_asc (g + h) h) : Int) = h) ↔
     (g + h < 2 ^ 16 ∧ h < 2 ^ 16)) := by
  obtain ⟨h1, h2⟩ := C5_amended_pack_roundtrip (g + h) h
  rw [h1, h2]
  have hm1 : max (g + h) 0 = g + h := by omega
  have hm2 : max h 0 = h := by omega
  rw [hm1, hm2]
  constructor
  · rintro ⟨e1, e2⟩
    constructor
    · by_contra hge
      have := Int.emod_emod_of_dvd (g + h) (dvd_refl (2 ^ 16))
      omega
    · by_contra hge
      omega
  · rintro ⟨b1, b2⟩
    constructor
    · exact Int.emod_eq_of_lt (by omega) (by omega)
    · exact Int.emod_eq_of_lt (by omega) (by omega)

theorem olExtractMin_eq_none {o : OpenL} (h : olExtractMin o = none) : o = [] := by
  cases o with
  | nil => rfl
  | cons e tail =>
    simp only [olExtractMin] at h
    cases htl : olExtractMin tail with
    | none => rw [htl] at h; exact Option.noConfusion h
    | some pr =>
      obtain ⟨m2, r2⟩ := pr
      simp only [htl] at h
      by_cases hc : e.2 ≤ m2.2
      · rw [if_pos hc] at h; exact Option.noConfusion h
      · rw [if_neg hc] at h; exact Option.noConfusion h

theorem olExtractMin_spec : ∀ (o : OpenL) (m : Nat × Nat) (rest : OpenL),
    olExtractMin o = some (m, rest) →
    m ∈ o ∧ (∀ e ∈ o, m.2 ≤ e.2) ∧ o.Perm (m :: rest) := by
  intro o
  induction o with
  | nil => intro m rest h; exact Option.noConfusion h
  | cons e tail ih =>
    intro m rest h
    simp only [olExtractMin] at h
    cases htl : olExtractMin tail with
    | none =>
      rw [htl] at h
      have hnil : tail = [] := olExtractMin_eq_none htl
      subst hnil
      have hpair := Option.some.inj h
      rw [Prod.mk.injEq] at hpair
      obtain ⟨he, hr⟩ := hpair
      refine ⟨?_, ?_, ?_⟩
      · rw [← he]; exact List.mem_singleton_self e
      · intro e2 he2
        rw [List.mem_singleton] at he2
        rw [← he, he2]
      · rw [← he, ← hr]
    | some pr =>
      obtain ⟨m2, rest2⟩ := pr
      simp only [htl] at h
      obtain ⟨hm2mem, hm2min, hm2perm⟩ := ih m2 rest2 htl
      by_cases hc : e.2 ≤ m2.2
      · rw [if_pos hc] at h
        have hpair := Option.some.inj h
        rw [Prod.mk.injEq] at hpair
        obtain ⟨rfl, rfl⟩ := hpair
        refine ⟨List.mem_cons_self e tail, ?_, List.Perm.refl _⟩
        intro e2 he2
        rcases List.mem_cons.mp he2 with rfl | ht
        · exact le_refl _
        · exact le_trans hc (hm2min e2 ht)
      · rw [if_neg hc] at h
        have hpair := Option.some.inj h
        rw [Prod.mk.injEq] at hpair
        obtain ⟨rfl, rfl⟩ := hpair
        refine ⟨List.mem_cons_of_mem e hm2mem, ?_, ?_⟩
        · intro e2 he2
          rcases List.mem_cons.mp he2 with rfl | ht
          · omega
          · exact hm2min e2 ht
        · exact List.Perm.trans (List.Perm.cons e hm2perm) (List.Perm.swap m2 e rest2)

theorem olExtractMin_mem_rest {o : OpenL} {m : Nat × Nat} {rest : OpenL}
    (h : olExtractMin o = some (m, rest)) : ∀ e ∈ rest, e ∈ o := by
  intro e he
  exact (olExtractMin_spec o m rest h).2.2.mem_iff.mpr (List.mem_cons_of_mem m he)

theorem olExtractMin_mem_of_ne {o : OpenL} {m : Nat × Nat} {rest : OpenL}
    (h : olExtractMin o = some (m, rest)) :
    ∀ e ∈ o, e ≠ m → e ∈ rest := by
  intro e he hne
  have := (olExtractMin_spec o m rest h).2.2.mem_iff.mp he
  rcases List.mem_cons.mp this with rfl | ht
  · exact absurd rfl hne
  · exact ht

theorem olChangeKey_mem {o : OpenL} {v k : Nat} :
    ∀ e2 ∈ olChangeKey o v k, (e2.1 ≠ v ∧ e2 ∈ o) ∨ e2 = (v, k) := by
  intro e2 he2
  unfold olChangeKey at he2
  obtain ⟨e, he, heq⟩ := List.mem_map.mp he2
  by_cases hc : e.1 = v
  · rw [if_pos hc] at heq
    exact Or.inr heq.symm
  · rw [if_neg hc] at heq
    rw [← heq]
    exact Or.inl ⟨hc, he⟩

theorem olChangeKey_inOpen {o : OpenL} {v k w : Nat}
    (h : ∃ e ∈ o, e.1 = w) : ∃ e ∈ olChangeKey o v k, e.1 = w := by
  obtain ⟨e, he, hw⟩ := h
  unfold olChangeKey
  by_cases hc : e.1 = v
  · refine ⟨(v, k), List.mem_map.mpr ⟨e, he, by rw [if_pos hc]⟩, ?_⟩
    rw [← hc, hw]
  · exact ⟨e, List.mem_map.mpr ⟨e, he, by rw [if_neg hc]⟩, hw⟩

theorem olContains_iff {o : OpenL} {v : Nat} :
    olContains o v = true ↔ ∃ e ∈ o, e.1 = v := by
  unfold olContains
  rw [List.any_eq_true]
  constructor
  · rintro ⟨e, he, hd⟩
    exact ⟨e, he, of_decide_eq_true hd⟩
  · rintro ⟨e, he, hd⟩
    exact ⟨e, he, decide_eq_true hd⟩

theorem olKeyOf_sync {o : OpenL} {v K : Nat}
    (hall : ∀ e ∈ o, e.1 = v → e.2 = K) (hin : ∃ e ∈ o, e.1 = v) :
    olKeyOf o v = K := by
  unfold olKeyOf
  obtain ⟨e0, he0, hv0⟩ := hin
  have hfind : ∃ e2, o.find? (fun e => decide (e.1 = v)) = some e2 := by
    cases hf : o.find? (fun e => decide (e.1 = v)) with
    | none =>
      have := List.find?_eq_none.mp hf e0 he0
      rw [decide_eq_true hv0] at this
      exact absurd rfl this
    | some e2 => exact ⟨e2, rfl⟩
  obtain ⟨e2, hf⟩ := hfind
  rw [hf]
  have hmem := List.mem_of_find?_eq_some hf
  have hpred := List.find?_some hf
  exact hall e2 hmem (of_decide_eq_true hpred)

theorem getD_append_poly {α : Type} (l : List α) (x d : α) (v : Nat) :
    List.getD (l ++ [x]) v d =
      if v < l.length then List.getD l v d
      else if v = l.length then x else d := by
  induction l generalizing v with
  | nil =>
    cases v with
    | zero => simp [List.getD]
    | succ k => simp [List.getD]
  | cons a t ih =>
    cases v with
    | zero => simp [List.getD]
    | succ k =>
      have hstep : List.getD (a :: t ++ [x]) (k + 1) d = List.getD (t ++ [x]) k d := by
        rw [List.cons_append, List.getD_cons_succ]
      rw [hstep, ih k, List.length_cons]
      by_cases h1 : k < t.length
      · rw [if_pos h1, if_pos (show k + 1 < t.length + 1 by omega), List.getD_cons_succ]
      · rw [if_neg h1, if_neg (show ¬ k + 1 < t.length + 1 by omega)]
        by_cases h2 : k = t.length
        · rw [if_pos h2, if_pos (show k + 1 = t.length + 1 by omega)]
        · rw [if_neg h2, if_neg (show ¬ k + 1 = t.length + 1 by omega)]

theorem lookupIdx_mem : ∀ {l : List (State × Nat)} {t : State} {v : Nat},
    lookupIdx l t = some v → (t, v) ∈ l := by
  intro l
  induction l with
  | nil => intro t v h; exact Option.noConfusion h
  | cons e rest ih =>
    intro t v h
    unfold lookupIdx at h
    by_cases hc : e.1 = t
    · rw [if_pos hc] at h
      have h2 := Option.some.inj h
      have he : e = (t, v) := by
        rw [Prod.ext_iff]
        exact ⟨hc, h2⟩
      rw [← he]
      exact List.mem_cons_self e rest
    · rw [if_neg hc] at h
      exact List.mem_cons_of_mem e (ih h)

theorem olChangeKey_ids (o : OpenL) (v k : Nat) :
    (olChangeKey o v k).map Prod.fst = o.map Prod.fst := by
  unfold olChangeKey
  rw [List.map_map]
  apply List.map_congr_left
  intro e he
  by_cases hc : e.1 = v
  · show (if e.1 = v then (v, k) else e).1 = e.1
    rw [if_pos hc]
    exact hc.symm
  · show (if e.1 = v then (v, k) else e).1 = e.1
    rw [if_neg hc]

theorem nodup_insert_ids {o : OpenL} {v k : Nat}
    (hno : (o.map Prod.fst).Nodup) (hni : ¬ ∃ e ∈ o, e.1 = v) :
    ((olInsert o v k).map Prod.fst).Nodup := by
  unfold olInsert
  rw [List.map_cons]
  rw [List.nodup_cons]
  refine ⟨?_, hno⟩
  intro hmem
  obtain ⟨e, he, hfst⟩ := List.mem_map.mp hmem
  exact hni ⟨e, he, hfst⟩

/-- Effect of the improved-`g` update of an existing node `v` (relaxed
through node `u` by operator `a`), for any resulting open list
satisfying the key-rewrite contract `P1`-`P4`. -/
theorem upd_spec (T : Task) (hfun : State → Int) (do_mutex : Bool)
    (exc : Nat → Prop) (u a v : Nat) (st : AState) (openl2 : OpenL) (stats2 : SStats)
    (hca : 0 ≤ (opAt T a).cost) (ha : a < T.ops.length)
    (hu : u < st.nodes.length) (hv : v < st.nodes.length)
    (hsv : sOf st v = succState (opAt T a) (sOf st u))
    (happ : is_applicable (opAt T a) (sOf st u) = true)
    (himp : gOf st u + (opAt T a).cost < gOf st v)
    (hInv : Inv T hfun do_mutex exc st)
    (P1 : ∀ e2 ∈ openl2, (e2.1 ≠ v ∧ e2 ∈ st.openl) ∨
      (e2.1 = v ∧ e2.2 = pack_fh_asc (gOf st u + (opAt T a).cost + hfun (sOf st v))
        (hfun (sOf st v))))
    (P2 : ∀ w, inOpen st w → ∃ e ∈ openl2, e.1 = w)
    (P3 : ∃ e ∈ openl2, e.1 = v)
    (P4 : (openl2.map Prod.fst).Nodup) :
    Inv T hfun do_mutex exc
      ⟨st.nodes.set v ⟨sOf st v, (u : Int), (a : Int)⟩, st.idx,
        st.meta.set v ⟨gOf st u + (opAt T a).cost, hfun (sOf st v), false⟩,
        openl2, stats2⟩ ∧
    (∀ w, w < st.nodes.length →
      sOf ⟨st.nodes.set v ⟨sOf st v, (u : Int), (a : Int)⟩, st.idx,
        st.meta.set v ⟨gOf st u + (opAt T a).cost, hfun (sOf st v), false⟩,
        openl2, stats2⟩ w = sOf st w) ∧
    (∀ w, gOf ⟨st.nodes.set v ⟨sOf st v, (u : Int), (a : Int)⟩, st.idx,
        st.meta.set v ⟨gOf st u + (opAt T a).cost, hfun (sOf st v), false⟩,
        openl2, stats2⟩ w ≤ gOf st w) ∧
    (∀ w, w ≠ v →
      gOf ⟨st.nodes.set v ⟨sOf st v, (u : Int), (a : Int)⟩, st.idx,
        st.meta.set v ⟨gOf st u + (opAt T a).cost, hfun (sOf st v), false⟩,
        openl2, stats2⟩ w = gOf st w ∧
      clOf ⟨st.nodes.set v ⟨sOf st v, (u : Int), (a : Int)⟩, st.idx,
        st.meta.set v ⟨gOf st u + (opAt T a).cost, hfun (sOf st v), false⟩,
        openl2, stats2⟩ w = clOf st w) ∧
    u ≠ v := by
  have hlen := hInv.lenm
  have hvm : v < st.meta.length := by omega
  have huv : u ≠ v := by
    intro he
    rw [he] at himp
    omega
  have hsOf : ∀ w, sOf ⟨st.nodes.set v ⟨sOf st v, (u : Int), (a : Int)⟩, st.idx,
      st.meta.set v ⟨gOf st u + (opAt T a).cost, hfun (sOf st v), false⟩,
      openl2, stats2⟩ w = sOf st w := by
    intro w
    show (List.getD (st.nodes.set v ⟨sOf st v, (u : Int), (a : Int)⟩) w default).s =
      (List.getD st.nodes w default).s
    rw [getD_set_poly]
    by_cases hc : v = w ∧ v < st.nodes.length
    · rw [if_pos hc, ← hc.1]
      rfl
    · rw [if_neg hc]
  have hgOf : ∀ w, gOf ⟨st.nodes.set v ⟨sOf st v, (u : Int), (a : Int)⟩, st.idx,
      st.meta.set v ⟨gOf st u + (opAt T a).cost, hfun (sOf st v), false⟩,
      openl2, stats2⟩ w = if w = v then gOf st u + (opAt T a).cost else gOf st w := by
    intro w
    show (List.getD (st.meta.set v ⟨gOf st u + (opAt T a).cost, hfun (sOf st v), false⟩)
      w default).g = _
    rw [getD_set_poly]
    by_cases hc : v = w ∧ v < st.meta.length
    · rw [if_pos hc, if_pos hc.1.symm]
    · rw [if_neg hc, if_neg (by intro he; exact hc ⟨he.symm, hvm⟩)]
      rfl
  have hhOf : ∀ w, hOf ⟨st.nodes.set v ⟨sOf st v, (u : Int), (a : Int)⟩, st.idx,
      st.meta.set v ⟨gOf st u + (opAt T a).cost, hfun (sOf st v), false⟩,
      openl2, stats2⟩ w = if w = v then hfun (sOf st v) else hOf st w := by
    intro w
    show (List.getD (st.meta.set v ⟨gOf st u + (opAt T a).cost, hfun (sOf st v), false⟩)
      w default).h = _
    rw [getD_set_poly]
    by_cases hc : v = w ∧ v < st.meta.length
    · rw [if_pos hc, if_pos hc.1.symm]
    · rw [if_neg hc, if_neg (by intro he; exact hc ⟨he.symm, hvm⟩)]
      rfl
  have hclOf : ∀ w, clOf ⟨st.nodes.set v ⟨sOf st v, (u : Int), (a : Int)⟩, st.idx,
      st.meta.set v ⟨gOf st u + (opAt T a).cost, hfun (sOf st v), false⟩,
      openl2, stats2⟩ w = if w = v then false else clOf st w := by
    intro w
    show (List.getD (st.meta.set v ⟨gOf st u + (opAt T a).cost, hfun (sOf st v), false⟩)
      w default).closed = _
    rw [getD_set_poly]
    by_cases hc : v = w ∧ v < st.meta.length
    · rw [if_pos hc, if_pos hc.1.symm]
    · rw [if_neg hc, if_neg (by intro he; exact hc ⟨he.symm, hvm⟩)]
      rfl
  have hnode : ∀ w, w ≠ v →
      List.getD (st.nodes.set v ⟨sOf st v, (u : Int), (a : Int)⟩) w default =
      List.getD st.nodes w default := by
    intro w hw
    rw [getD_set_poly, if_neg (by intro he; exact hw he.1.symm)]
  have hnodev : List.getD (st.nodes.set v ⟨sOf st v, (u : Int), (a : Int)⟩) v default =
      ⟨sOf st v, (u : Int), (a : Int)⟩ := by
    rw [getD_set_poly, if_pos ⟨rfl, hv⟩]
  have hwOK : ∀ w, witOK st w → witOK ⟨st.nodes.set v ⟨sOf st v, (u : Int), (a : Int)⟩,
      st.idx, st.meta.set v ⟨gOf st u + (opAt T a).cost, hfun (sOf st v), false⟩,
      openl2, stats2⟩ w := by
    intro w hw
    by_cases hwv : w = v
    · subst hwv
      exact Or.inl P3
    · rcases hw with hop | hcl | hlim
      · exact Or.inl (P2 w hop)
      · refine Or.inr (Or.inl ?_)
        rw [hclOf, if_neg hwv]
        exact hcl
      · refine Or.inr (Or.inr ?_)
        unfold limbo at hlim ⊢
        rw [hgOf, hhOf, if_neg hwv, if_neg hwv]
        exact hlim
  refine ⟨?_, fun w _ => hsOf w, ?_, ?_, huv⟩
  case refine_2 =>
    intro w
    rw [hgOf]
    by_cases hwv : w = v
    · rw [if_pos hwv, hwv]
      omega
    · rw [if_neg hwv]
  case refine_3 =>
    intro w hwv
    rw [hgOf, hclOf, if_neg hwv, if_neg hwv]
    exact ⟨rfl, rfl⟩
  constructor
  case lenm =>
    show (st.meta.set v _).length = (st.nodes.set v _).length
    rw [List.length_set, List.length_set]
    exact hInv.lenm
  case root =>
    intro w hwlen hpar
    rw [List.length_set] at hwlen
    rw [hsOf]
    by_cases hwv : w = v
    · rw [hwv, hnodev] at hpar
      have hpar2 : (u : Int) < 0 := hpar
      omega
    · rw [hnode w hwv] at hpar
      exact hInv.root w hwlen hpar
  case gnn =>
    intro w hwlen
    rw [List.length_set] at hwlen
    rw [hgOf]
    by_cases hwv : w = v
    · rw [if_pos hwv]
      have := hInv.gnn u hu
      omega
    · rw [if_neg hwv]
      exact hInv.gnn w hwlen
  case hsy =>
    intro w hwlen
    rw [List.length_set] at hwlen
    rw [hhOf, hsOf]
    by_cases hwv : w = v
    · rw [if_pos hwv, hwv]
    · rw [if_neg hwv]
      exact hInv.hsy w hwlen
  case edge =>
    intro w hwlen hpar
    rw [List.length_set] at hwlen
    by_cases hwv : w = v
    · subst hwv
      rw [hnodev] at hpar ⊢
      refine ⟨by simpa using hu, Int.natCast_nonneg a, by simpa using ha, ?_, ?_, ?_⟩
      · show is_applicable (opAt T (Int.ofNat a).toNat) _ = true
        rw [hsOf]
        simpa using happ
      · rw [hsOf, hsOf]
        show succState (opAt T (Int.ofNat a).toNat) (sOf st (Int.ofNat u).toNat) = sOf st w
        simpa using hsv.symm
      · rw [hgOf, hgOf]
        show (if (Int.ofNat u).toNat = w then _ else _) +
          (opAt T (Int.ofNat a).toNat).cost ≤ (if w = w then _ else _)
        rw [if_pos rfl, if_neg (by simpa using huv)]
        simp
    · rw [hnode w hwv] at hpar ⊢
      obtain ⟨e1, e2, e3, e4, e5, e6⟩ := hInv.edge w hwlen hpar
      rw [List.length_set]
      refine ⟨e1, e2, e3, by rw [hsOf]; exact e4, by rw [hsOf, hsOf]; exact e5, ?_⟩
      rw [hgOf, hgOf, if_neg hwv]
      by_cases hpv : (List.getD st.nodes w default).parent.toNat = v
      · rw [if_pos hpv]
        rw [hpv] at e6
        omega
      · rw [if_neg hpv]
        exact e6
  case keysync =>
    intro e he
    rcases P1 e he with ⟨hne, hmem⟩ | ⟨hev, hkey⟩
    · obtain ⟨k1, k2⟩ := hInv.keysync e hmem
      rw [List.length_set]
      refine ⟨k1, ?_⟩
      rw [hgOf, hhOf, if_neg hne, if_neg hne]
      exact k2
    · rw [List.length_set, hev]
      refine ⟨by omega, ?_⟩
      rw [hgOf, hhOf, if_pos rfl, if_pos rfl, hkey]
  case closedprop =>
    intro w hwlen hexc hwcl a2 ha2 happ2 hmx2
    rw [List.length_set] at hwlen
    rw [hclOf] at hwcl
    by_cases hwv : w = v
    · rw [if_pos hwv] at hwcl
      exact Bool.noConfusion hwcl
    · rw [if_neg hwv] at hwcl
      rw [hsOf] at happ2 hmx2 ⊢
      obtain ⟨v2, c1, c2, c3⟩ := hInv.closedprop w hwlen hexc hwcl a2 ha2 happ2 hmx2
      refine ⟨v2, by rw [List.length_set]; omega, by rw [hsOf]; exact c2, ?_⟩
      rw [hgOf, hgOf, if_neg hwv]
      by_cases hv2v : v2 = v
      · rw [if_pos hv2v]
        rw [hv2v] at c3
        omega
      · rw [if_neg hv2v]
        exact c3
  case goalcl =>
    intro w hwlen hwcl
    rw [List.length_set] at hwlen
    rw [hclOf] at hwcl
    rw [hsOf]
    by_cases hwv : w = v
    · rw [if_pos hwv] at hwcl
      exact Bool.noConfusion hwcl
    · rw [if_neg hwv] at hwcl
      exact hInv.goalcl w hwlen hwcl
  case idxp =>
    intro p hp
    obtain ⟨i1, i2⟩ := hInv.idxp p hp
    rw [List.length_set]
    exact ⟨i1, by rw [hsOf]; exact i2⟩
  case allwit =>
    intro w hwlen
    rw [List.length_set] at hwlen
    exact hwOK w (hInv.allwit w hwlen)
  case nodup => exact P4
  case nco =>
    intro w hwcl hop
    rw [hclOf] at hwcl
    by_cases hwv : w = v
    · rw [if_pos hwv] at hwcl
      exact Bool.noConfusion hwcl
    · rw [if_neg hwv] at hwcl
      obtain ⟨e, he, hei⟩ := hop
      rcases P1 e he with ⟨hne, hmem⟩ | ⟨hev, _⟩
      · exact hInv.nco w hwcl ⟨e, hmem, hei⟩
      · rw [hev] at hei
        exact hwv hei.symm
  case rootwit =>
    obtain ⟨r1, r2, r3⟩ := hInv.rootwit
    have hv0 : v ≠ 0 := by
      intro he
      rw [he] at himp
      have := hInv.gnn u hu
      omega
    rw [List.length_set]
    refine ⟨r1, by rw [hsOf]; exact r2, ?_⟩
    rw [hgOf, if_neg (by omega)]
    exact r3

/-- Effect of inserting a brand-new node for the successor state reached
from node `u` by operator `a`. -/
theorem app_spec (T : Task) (hfun : State → Int) (do_mutex : Bool)
    (exc : Nat → Prop) (u a : Nat) (st : AState) (stats2 : SStats)
    (hca : 0 ≤ (opAt T a).cost) (ha : a < T.ops.length)
    (hu : u < st.nodes.length)
    (happ : is_applicable (opAt T a) (sOf st u) = true)
    (hInv : Inv T hfun do_mutex exc st) :
    Inv T hfun do_mutex exc
      ⟨st.nodes ++ [⟨succState (opAt T a) (sOf st u), (u : Int), (a : Int)⟩],
        (succState (opAt T a) (sOf st u), st.nodes.length) :: st.idx,
        st.meta ++ [⟨gOf st u + (opAt T a).cost,
          hfun (succState (opAt T a) (sOf st u)), false⟩],
        olInsert st.openl st.nodes.length
          (pack_fh_asc (gOf st u + (opAt T a).cost +
            hfun (succState (opAt T a) (sOf st u)))
            (hfun (succState (opAt T a) (sOf st u)))),
        stats2⟩ ∧
    (∀ w, w < st.nodes.length →
      sOf ⟨st.nodes ++ [⟨succState (opAt T a) (sOf st u), (u : Int), (a : Int)⟩],
        (succState (opAt T a) (sOf st u), st.nodes.length) :: st.idx,
        st.meta ++ [⟨gOf st u + (opAt T a).cost,
          hfun (succState (opAt T a) (sOf st u)), false⟩],
        olInsert st.openl st.nodes.length
          (pack_fh_asc (gOf st u + (opAt T a).cost +
            hfun (succState (opAt T a) (sOf st u)))
            (hfun (succState (opAt T a) (sOf st u)))),
        stats2⟩ w = sOf st w) ∧
    (∀ w, w < st.nodes.length →
      gOf ⟨st.nodes ++ [⟨succState (opAt T a) (sOf st u), (u : Int), (a : Int)⟩],
        (succState (opAt T a) (sOf st u), st.nodes.length) :: st.idx,
        st.meta ++ [⟨gOf st u + (opAt T a).cost,
          hfun (succState (opAt T a) (sOf st u)), false⟩],
        olInsert st.openl st.nodes.length
          (pack_fh_asc (gOf st u + (opAt T a).cost +
            hfun (succState (opAt T a) (sOf st u)))
            (hfun (succState (opAt T a) (sOf st u)))),
        stats2⟩ w = gOf st w ∧
      clOf ⟨st.nodes ++ [⟨succState (opAt T a) (sOf st u), (u : Int), (a : Int)⟩],
        (succState (opAt T a) (sOf st u), st.nodes.length) :: st.idx,
        st.meta ++ [⟨gOf st u + (opAt T a).cost,
          hfun (succState (opAt T a) (sOf st u)), false⟩],
        olInsert st.openl st.nodes.length
          (pack_fh_asc (gOf st u + (opAt T a).cost +
            hfun (succState (opAt T a) (sOf st u)))
            (hfun (succState (opAt T a) (sOf st u)))),
        stats2⟩ w = clOf st w) ∧
    sOf ⟨st.nodes ++ [⟨succState (opAt T a) (sOf st u), (u : Int), (a : Int)⟩],
        (succState (opAt T a) (sOf st u), st.nodes.length) :: st.idx,
        st.meta ++ [⟨gOf st u + (opAt T a).cost,
          hfun (succState (opAt T a) (sOf st u)), false⟩],
        olInsert st.openl st.nodes.length
          (pack_fh_asc (gOf st u + (opAt T a).cost +
            hfun (succState (opAt T a) (sOf st u)))
            (hfun (succState (opAt T a) (sOf st u)))),
        stats2⟩ st.nodes.length = succState (opAt T a) (sOf st u) ∧
    gOf ⟨st.nodes ++ [⟨succState (opAt T a) (sOf st u), (u : Int), (a : Int)⟩],
        (succState (opAt T a) (sOf st u), st.nodes.length) :: st.idx,
        st.meta ++ [⟨gOf st u + (opAt T a).cost,
          hfun (succState (opAt T a) (sOf st u)), false⟩],
        olInsert st.openl st.nodes.length
          (pack_fh_asc (gOf st u + (opAt T a).cost +
            hfun (succState (opAt T a) (sOf st u)))
            (hfun (succState (opAt T a) (sOf st u)))),
        stats2⟩ st.nodes.length = gOf st u + (opAt T a).cost := by
  have hlen := hInv.lenm
  have hsOf : ∀ w, sOf ⟨st.nodes ++ [⟨succState (opAt T a) (sOf st u), (u : Int), (a : Int)⟩],
      (succState (opAt T a) (sOf st u), st.nodes.length) :: st.idx,
      st.meta ++ [⟨gOf st u + (opAt T a).cost,
        hfun (succState (opAt T a) (sOf st u)), false⟩],
      olInsert st.openl st.nodes.length
        (pack_fh_asc (gOf st u + (opAt T a).cost +
          hfun (succState (opAt T a) (sOf st u)))
          (hfun (succState (opAt T a) (sOf st u)))),
      stats2⟩ w = if w < st.nodes.length then sOf st w
        else if w = st.nodes.length then succState (opAt T a) (sOf st u) else [] := by
    intro w
    show (List.getD (st.nodes ++ [_]) w default).s = _
    rw [getD_append_poly]
    by_cases h1 : w < st.nodes.length
    · rw [if_pos h1, if_pos h1]
      rfl
    · rw [if_neg h1, if_neg h1]
      by_cases h2 : w = st.nodes.length
      · rw [if_pos h2, if_pos h2]
      · rw [if_neg h2, if_neg h2]
        rfl
  have hgOf : ∀ w, gOf ⟨st.nodes ++ [⟨succState (opAt T a) (sOf st u), (u : Int), (a : Int)⟩],
      (succState (opAt T a) (sOf st u), st.nodes.length) :: st.idx,
      st.meta ++ [⟨gOf st u + (opAt T a).cost,
        hfun (succState (opAt T a) (sOf st u)), false⟩],
      olInsert st.openl st.nodes.length
        (pack_fh_asc (gOf st u + (opAt T a).cost +
          hfun (succState (opAt T a) (sOf st u)))
          (hfun (succState (opAt T a) (sOf st u)))),
      stats2⟩ w = if w < st.nodes.length then gOf st w
        else if w = st.nodes.length then gOf st u + (opAt T a).cost else 0 := by
    intro w
    show (List.getD (st.meta ++ [_]) w default).g = _
    rw [getD_append_poly, hlen]
    by_cases h1 : w < st.nodes.length
    · rw [if_pos h1, if_pos h1]
      rfl
    · rw [if_neg h1, if_neg h1]
      by_cases h2 : w = st.nodes.length
      · rw [if_pos h2, if_pos h2]
      · rw [if_neg h2, if_neg h2]
        rfl
  have hhOf : ∀ w, hOf ⟨st.nodes ++ [⟨succState (opAt T a) (sOf st u), (u : Int), (a : Int)⟩],
      (succState (opAt T a) (sOf st u), st.nodes.length) :: st.idx,
      st.meta ++ [⟨gOf st u + (opAt T a).cost,
        hfun (succState (opAt T a) (sOf st u)), false⟩],
      olInsert st.openl st.nodes.length
        (pack_fh_asc (gOf st u + (opAt T a).cost +
          hfun (succState (opAt T a) (sOf st u)))
          (hfun (succState (opAt T a) (sOf st u)))),
      stats2⟩ w = if w < st.nodes.length then hOf st w
        else if w = st.nodes.length then hfun (succState (opAt T a) (sOf st u)) else 0 := by
    intro w
    show (List.getD (st.meta ++ [_]) w default).h = _
    rw [getD_append_poly, hlen]
    by_cases h1 : w < st.nodes.length
    · rw [if_pos h1, if_pos h1]
      rfl
    · rw [if_neg h1, if_neg h1]
      by_cases h2 : w = st.nodes.length
      · rw [if_pos h2, if_pos h2]
      · rw [if_neg h2, if_neg h2]
        rfl
  have hclOf : ∀ w, clOf ⟨st.nodes ++ [⟨succState (opAt T a) (sOf st u), (u : Int), (a : Int)⟩],
      (succState (opAt T a) (sOf st u), st.nodes.length) :: st.idx,
      st.meta ++ [⟨gOf st u + (opAt T a).cost,
        hfun (succState (opAt T a) (sOf st u)), false⟩],
      olInsert st.openl st.nodes.length
        (pack_fh_asc (gOf st u + (opAt T a).cost +
          hfun (succState (opAt T a) (sOf st u)))
          (hfun (succState (opAt T a) (sOf st u)))),
      stats2⟩ w = if w < st.nodes.length then clOf st w else false := by
    intro w
    show (List.getD (st.meta ++ [_]) w default).closed = _
    rw [getD_append_poly, hlen]
    by_cases h1 : w < st.nodes.length
    · rw [if_pos h1, if_pos h1]
      rfl
    · rw [if_neg h1, if_neg h1]
      by_cases h2 : w = st.nodes.length
      · rw [if_pos h2]
      · rw [if_neg h2]
        rfl
  have hnode2 : ∀ w, w < st.nodes.length →
      List.getD (st.nodes ++ [⟨succState (opAt T a) (sOf st u), (u : Int), (a : Int)⟩])
        w default = List.getD st.nodes w default := by
    intro w hw
    rw [getD_append_poly, if_pos hw]
  have hnoden : List.getD (st.nodes ++ [(⟨succState (opAt T a) (sOf st u), (u : Int), (a : Int)⟩ : SNode)])
      st.nodes.length default = (⟨succState (opAt T a) (sOf st u), (u : Int), (a : Int)⟩ : SNode) := by
    rw [getD_append_poly, if_neg (by omega), if_pos rfl]
  have hlen2 : (st.nodes ++ [(⟨succState (opAt T a) (sOf st u), (u : Int), (a : Int)⟩ : SNode)]).length
      = st.nodes.length + 1 := by
    rw [List.length_append, List.length_singleton]
  refine ⟨?_, fun w hw => by rw [hsOf, if_pos hw],
    fun w hw => ⟨by rw [hgOf, if_pos hw], by rw [hclOf, if_pos hw]⟩,
    by rw [hsOf, if_neg (by omega), if_pos rfl],
    by rw [hgOf, if_neg (by omega), if_pos rfl]⟩
  constructor
  case lenm =>
    show (st.meta ++ [_]).length = (st.nodes ++ [_]).length
    rw [List.length_append, List.length_append, hlen]
    rfl
  case root =>
    intro w hw hpar
    rw [hlen2] at hw
    rw [hsOf]
    by_cases h1 : w < st.nodes.length
    · rw [hnode2 w h1] at hpar
      rw [if_pos h1]
      exact hInv.root w h1 hpar
    · have h2 : w = st.nodes.length := by omega
      rw [h2, hnoden] at hpar
      have hpar2 : (u : Int) < 0 := hpar
      exact absurd hpar2 (not_lt.mpr (Int.natCast_nonneg u))
  case gnn =>
    intro w hw
    rw [hlen2] at hw
    rw [hgOf]
    by_cases h1 : w < st.nodes.length
    · rw [if_pos h1]
      exact hInv.gnn w h1
    · rw [if_neg h1, if_pos (by omega)]
      have := hInv.gnn u hu
      omega
  case hsy =>
    intro w hw
    rw [hlen2] at hw
    rw [hhOf, hsOf]
    by_cases h1 : w < st.nodes.length
    · rw [if_pos h1, if_pos h1]
      exact hInv.hsy w h1
    · rw [if_neg h1, if_neg h1, if_pos (by omega), if_pos (by omega)]
  case edge =>
    intro w hw hpar
    rw [hlen2] at hw
    by_cases h1 : w < st.nodes.length
    · rw [hnode2 w h1] at hpar ⊢
      obtain ⟨e1, e2, e3, e4, e5, e6⟩ := hInv.edge w h1 hpar
      refine ⟨by rw [hlen2]; omega, e2, e3, ?_, ?_, ?_⟩
      · rw [hsOf, if_pos e1]
        exact e4
      · rw [hsOf, hsOf, if_pos e1, if_pos h1]
        exact e5
      · rw [hgOf, hgOf, if_pos e1, if_pos h1]
        exact e6
    · have h2 : w = st.nodes.length := by omega
      rw [h2, hnoden] at hpar ⊢
      simp only [Int.toNat_natCast, List.length_append, List.length_singleton] at hpar ⊢
      refine ⟨by omega, Int.natCast_nonneg a, ha, ?_, ?_, ?_⟩
      · rw [hsOf, if_pos hu]
        exact happ
      · rw [hsOf, hsOf, if_pos hu, if_neg (Nat.lt_irrefl _), if_pos rfl]
      · rw [hgOf, hgOf, if_pos hu, if_neg (Nat.lt_irrefl _), if_pos rfl]
  case keysync =>
    intro e he
    rcases List.mem_cons.mp he with rfl | hmem
    · refine ⟨?_, ?_⟩
      · show st.nodes.length < _
        rw [hlen2]
        omega
      · show pack_fh_asc (gOf st u + (opAt T a).cost + hfun (succState (opAt T a) (sOf st u)))
            (hfun (succState (opAt T a) (sOf st u))) =
          pack_fh_asc (gOf _ st.nodes.length + hOf _ st.nodes.length) (hOf _ st.nodes.length)
        rw [hgOf, hhOf]
        rw [if_neg (Nat.lt_irrefl st.nodes.length), if_neg (Nat.lt_irrefl st.nodes.length),
          if_pos rfl, if_pos rfl]
    · obtain ⟨k1, k2⟩ := hInv.keysync e hmem
      rw [hlen2]
      refine ⟨by omega, ?_⟩
      rw [hgOf, hhOf, if_pos k1, if_pos k1]
      exact k2
  case closedprop =>
    intro w hw hexc hwcl a2 ha2 happ2 hmx2
    rw [hlen2] at hw
    rw [hclOf] at hwcl
    by_cases h1 : w < st.nodes.length
    · rw [if_pos h1] at hwcl
      rw [hsOf, if_pos h1] at happ2 hmx2 ⊢
      obtain ⟨v2, c1, c2, c3⟩ := hInv.closedprop w h1 hexc hwcl a2 ha2 happ2 hmx2
      refine ⟨v2, by rw [hlen2]; omega, ?_, ?_⟩
      · rw [hsOf, if_pos c1]
        exact c2
      · rw [hgOf, hgOf, if_pos c1, if_pos h1]
        exact c3
    · rw [if_neg h1] at hwcl
      exact Bool.noConfusion hwcl
  case goalcl =>
    intro w hw hwcl
    rw [hlen2] at hw
    rw [hclOf] at hwcl
    by_cases h1 : w < st.nodes.length
    · rw [if_pos h1] at hwcl
      rw [hsOf, if_pos h1]
      exact hInv.goalcl w h1 hwcl
    · rw [if_neg h1] at hwcl
      exact Bool.noConfusion hwcl
  case idxp =>
    intro p hp
    rcases List.mem_cons.mp hp with rfl | hmem
    · rw [hlen2]
      exact ⟨by omega, by rw [hsOf, if_neg (by omega), if_pos rfl]⟩
    · obtain ⟨i1, i2⟩ := hInv.idxp p hmem
      rw [hlen2]
      exact ⟨by omega, by rw [hsOf, if_pos i1]; exact i2⟩
  case allwit =>
    intro w hw
    rw [hlen2] at hw
    by_cases h1 : w < st.nodes.length
    · rcases hInv.allwit w h1 with hop | hcl | hlim
      · obtain ⟨e, he, hei⟩ := hop
        exact Or.inl ⟨e, List.mem_cons_of_mem _ he, hei⟩
      · refine Or.inr (Or.inl ?_)
        rw [hclOf, if_pos h1]
        exact hcl
      · refine Or.inr (Or.inr ?_)
        unfold limbo at hlim ⊢
        rw [hgOf, hhOf, if_pos h1, if_pos h1]
        exact hlim
    · have h2 : w = st.nodes.length := by omega
      refine Or.inl ⟨_, List.mem_cons_self _ _, h2.symm⟩
  case nodup =>
    apply nodup_insert_ids hInv.nodup
    rintro ⟨e, he, hei⟩
    have := (hInv.keysync e he).1
    omega
  case nco =>
    intro w hwcl hop
    rw [hclOf] at hwcl
    by_cases h1 : w < st.nodes.length
    · rw [if_pos h1] at hwcl
      obtain ⟨e, he, hei⟩ := hop
      rcases List.mem_cons.mp he with rfl | hmem
      · have : st.nodes.length = w := hei
        omega
      · exact hInv.nco w hwcl ⟨e, hmem, hei⟩
    · rw [if_neg h1] at hwcl
      exact Bool.noConfusion hwcl
  case rootwit =>
    obtain ⟨r1, r2, r3⟩ := hInv.rootwit
    rw [hlen2]
    refine ⟨by omega, by rw [hsOf, if_pos r1]; exact r2, by rw [hgOf, if_pos r1]; exact r3⟩

/-- relaxOp characterization: inapplicable operator leaves the state unchanged. -/
theorem relaxOp_char_skip (T : Task) (hfun : State → Int) (r dm : Bool)
    (u a : Nat) (su : State) (st : AState)
    (hnapp : is_applicable (T.ops.getD a default) su = false) :
    relaxOp T hfun r dm u a su st = st := by
  simp only [relaxOp, hnapp, Bool.false_eq_true, if_false]

/-- relaxOp characterization: mutex-violating successor only bumps `generated`. -/
theorem relaxOp_char_mutex (T : Task) (hfun : State → Int) (r dm : Bool)
    (u a : Nat) (su : State) (st : AState)
    (happt : is_applicable (T.ops.getD a default) su = true)
    (hmx : (dm && violates_mutex T (succState (T.ops.getD a default) su)) = true) :
    relaxOp T hfun r dm u a su st =
      { st with stats := { st.stats with generated := st.stats.generated + 1 } } := by
  simp only [relaxOp, happt, hmx, eq_self_iff_true, if_true, Bool.false_eq_true, if_false]

/-- relaxOp characterization: known successor without a g-improvement only
bumps `generated` and `duplicates`. -/
theorem relaxOp_char_dup (T : Task) (hfun : State → Int) (r dm : Bool)
    (u a v : Nat) (su : State) (st : AState)
    (happt : is_applicable (T.ops.getD a default) su = true)
    (hmxf : (dm && violates_mutex T (succState (T.ops.getD a default) su)) = false)
    (hl : lookupIdx st.idx (succState (T.ops.getD a default) su) = some v)
    (hnimp : ¬((st.meta.getD u default).g + (T.ops.getD a default).cost <
      (st.meta.getD v default).g)) :
    relaxOp T hfun r dm u a su st =
      { st with stats := { st.stats with
          generated := st.stats.generated + 1
          duplicates := st.stats.duplicates + 1 } } := by
  simp only [relaxOp, happt, hmxf, eq_self_iff_true, if_true, Bool.false_eq_true, if_false,
    hl, hnimp]

/-- relaxOp characterization: unseen successor is appended as a new node and
inserted into the open list. -/
theorem relaxOp_char_new (T : Task) (hfun : State → Int) (r dm : Bool)
    (u a : Nat) (su : State) (st : AState)
    (happt : is_applicable (T.ops.getD a default) su = true)
    (hmxf : (dm && violates_mutex T (succState (T.ops.getD a default) su)) = false)
    (hl : lookupIdx st.idx (succState (T.ops.getD a default) su) = none) :
    relaxOp T hfun r dm u a su st =
      ⟨st.nodes ++ [⟨succState (T.ops.getD a default) su, (u : Int), (a : Int)⟩],
        (succState (T.ops.getD a default) su, st.nodes.length) :: st.idx,
        st.meta ++ [⟨(st.meta.getD u default).g + (T.ops.getD a default).cost,
          hfun (succState (T.ops.getD a default) su), false⟩],
        olInsert st.openl st.nodes.length
          (pack_fh_asc ((st.meta.getD u default).g + (T.ops.getD a default).cost +
            hfun (succState (T.ops.getD a default) su))
            (hfun (succState (T.ops.getD a default) su))),
        ⟨st.stats.expanded, st.stats.generated + 1, st.stats.evaluated + 1, st.stats.duplicates⟩⟩ := by
  simp only [relaxOp, happt, hmxf, eq_self_iff_true, if_true, Bool.false_eq_true, if_false, hl]

/-- relaxOp characterization: strictly improved g on a closed node with
reopening enabled rewires the node, un-closes it and re-inserts it. -/
theorem relaxOp_char_reopen (T : Task) (hfun : State → Int) (dm : Bool)
    (u a v : Nat) (su : State) (st : AState)
    (happt : is_applicable (T.ops.getD a default) su = true)
    (hmxf : (dm && violates_mutex T (succState (T.ops.getD a default) su)) = false)
    (hl : lookupIdx st.idx (succState (T.ops.getD a default) su) = some v)
    (himp : (st.meta.getD u default).g + (T.ops.getD a default).cost < (st.meta.getD v default).g)
    (hclv : (st.meta.getD v default).closed = true) :
    relaxOp T hfun true dm u a su st =
      ⟨st.nodes.set v ⟨(st.nodes.getD v default).s, (u : Int), (a : Int)⟩, st.idx,
        st.meta.set v ⟨(st.meta.getD u default).g + (T.ops.getD a default).cost, hfun ((st.nodes.getD v default).s), false⟩,
        olInsert st.openl v (pack_fh_asc ((st.meta.getD u default).g + (T.ops.getD a default).cost + hfun ((st.nodes.getD v default).s)) (hfun ((st.nodes.getD v default).s))),
        ⟨st.stats.expanded, st.stats.generated + 1, st.stats.evaluated + 1, st.stats.duplicates⟩⟩ := by
  simp only [relaxOp, happt, hmxf, eq_self_iff_true, if_true, Bool.false_eq_true, if_false,
    hl, himp, hclv, List.set_set]

/-- relaxOp characterization: strictly improved g on an open node with a
different key updates the node and changes its key in place. -/
theorem relaxOp_char_chg (T : Task) (hfun : State → Int) (dm : Bool)
    (u a v : Nat) (su : State) (st : AState)
    (happt : is_applicable (T.ops.getD a default) su = true)
    (hmxf : (dm && violates_mutex T (succState (T.ops.getD a default) su)) = false)
    (hl : lookupIdx st.idx (succState (T.ops.getD a default) su) = some v)
    (himp : (st.meta.getD u default).g + (T.ops.getD a default).cost < (st.meta.getD v default).g)
    (hclvf : (st.meta.getD v default).closed = false)
    (hcon : olContains st.openl v = true)
    (hne : pack_fh_asc ((st.meta.getD u default).g + (T.ops.getD a default).cost + hfun ((st.nodes.getD v default).s)) (hfun ((st.nodes.getD v default).s)) ≠ olKeyOf st.openl v) :
    relaxOp T hfun true dm u a su st =
      ⟨st.nodes.set v ⟨(st.nodes.getD v default).s, (u : Int), (a : Int)⟩, st.idx,
        st.meta.set v ⟨(st.meta.getD u default).g + (T.ops.getD a default).cost, hfun ((st.nodes.getD v default).s), false⟩,
        olChangeKey st.openl v (pack_fh_asc ((st.meta.getD u default).g + (T.ops.getD a default).cost + hfun ((st.nodes.getD v default).s)) (hfun ((st.nodes.getD v default).s))),
        ⟨st.stats.expanded, st.stats.generated + 1, st.stats.evaluated + 1, st.stats.duplicates⟩⟩ := by
  by_cases hlt : pack_fh_asc ((st.meta.getD u default).g + (T.ops.getD a default).cost + hfun ((st.nodes.getD v default).s)) (hfun ((st.nodes.getD v default).s)) < olKeyOf st.openl v
  · simp only [relaxOp, happt, hmxf, eq_self_iff_true, if_true, Bool.false_eq_true, if_false,
      hl, himp, hclvf, hcon, hlt]
  · have hgt : pack_fh_asc ((st.meta.getD u default).g + (T.ops.getD a default).cost + hfun ((st.nodes.getD v default).s)) (hfun ((st.nodes.getD v default).s)) > olKeyOf st.openl v := by omega
    simp only [relaxOp, happt, hmxf, eq_self_iff_true, if_true, Bool.false_eq_true, if_false,
      hl, himp, hclvf, hcon, hlt, hgt]

/-- relaxOp characterization: strictly improved g on an open node whose key
already equals the new key only rewires the node. -/
theorem relaxOp_char_eq (T : Task) (hfun : State → Int) (dm : Bool)
    (u a v : Nat) (su : State) (st : AState)
    (happt : is_applicable (T.ops.getD a default) su = true)
    (hmxf : (dm && violates_mutex T (succState (T.ops.getD a default) su)) = false)
    (hl : lookupIdx st.idx (succState (T.ops.getD a default) su) = some v)
    (himp : (st.meta.getD u default).g + (T.ops.getD a default).cost < (st.meta.getD v default).g)
    (hclvf : (st.meta.getD v default).closed = false)
    (hcon : olContains st.openl v = true)
    (hk : pack_fh_asc ((st.meta.getD u default).g + (T.ops.getD a default).cost + hfun ((st.nodes.getD v default).s)) (hfun ((st.nodes.getD v default).s)) = olKeyOf st.openl v) :
    relaxOp T hfun true dm u a su st =
      ⟨st.nodes.set v ⟨(st.nodes.getD v default).s, (u : Int), (a : Int)⟩, st.idx,
        st.meta.set v ⟨(st.meta.getD u default).g + (T.ops.getD a default).cost, hfun ((st.nodes.getD v default).s), false⟩,
        st.openl,
        ⟨st.stats.expanded, st.stats.generated + 1, st.stats.evaluated + 1, st.stats.duplicates⟩⟩ := by
  have hnlt : ¬(pack_fh_asc ((st.meta.getD u default).g + (T.ops.getD a default).cost + hfun ((st.nodes.getD v default).s)) (hfun ((st.nodes.getD v default).s)) < olKeyOf st.openl v) := by omega
  have hngt : ¬(pack_fh_asc ((st.meta.getD u default).g + (T.ops.getD a default).cost + hfun ((st.nodes.getD v default).s)) (hfun ((st.nodes.getD v default).s)) > olKeyOf st.openl v) := by omega
  simp only [relaxOp, happt, hmxf, eq_self_iff_true, if_true, Bool.false_eq_true, if_false,
    hl, himp, hclvf, hcon, hnlt, hngt]

/-- relaxOp characterization: strictly improved g on a known node that is
neither closed nor in the open list inserts it. -/
theorem relaxOp_char_ins (T : Task) (hfun : State → Int) (dm : Bool)
    (u a v : Nat) (su : State) (st : AState)
    (happt : is_applicable (T.ops.getD a default) su = true)
    (hmxf : (dm && violates_mutex T (succState (T.ops.getD a default) su)) = false)
    (hl : lookupIdx st.idx (succState (T.ops.getD a default) su) = some v)
    (himp : (st.meta.getD u default).g + (T.ops.getD a default).cost < (st.meta.getD v default).g)
    (hclvf : (st.meta.getD v default).closed = false)
    (hconf : olContains st.openl v = false) :
    relaxOp T hfun true dm u a su st =
      ⟨st.nodes.set v ⟨(st.nodes.getD v default).s, (u : Int), (a : Int)⟩, st.idx,
        st.meta.set v ⟨(st.meta.getD u default).g + (T.ops.getD a default).cost, hfun ((st.nodes.getD v default).s), false⟩,
        olInsert st.openl v (pack_fh_asc ((st.meta.getD u default).g + (T.ops.getD a default).cost + hfun ((st.nodes.getD v default).s)) (hfun ((st.nodes.getD v default).s))),
        ⟨st.stats.expanded, st.stats.generated + 1, st.stats.evaluated + 1, st.stats.duplicates⟩⟩ := by
  simp only [relaxOp, happt, hmxf, eq_self_iff_true, if_true, Bool.false_eq_true, if_false,
    hl, himp, hclvf, hconf]

/-- With duplicate-free open-list ids, any entry with id `v` carries the key
reported by `olKeyOf`. -/
theorem olKeyOf_unique {o : OpenL} {v : Nat} (hnd : (o.map Prod.fst).Nodup) :
    ∀ e ∈ o, e.1 = v → olKeyOf o v = e.2 := by
  induction o with
  | nil =>
    intro e he hv
    exact absurd he (List.not_mem_nil e)
  | cons e0 rest ih =>
    intro e he hv
    rw [List.map_cons, List.nodup_cons] at hnd
    by_cases hc : e0.1 = v
    · have hfind : olKeyOf (e0 :: rest) v = e0.2 := by
        unfold olKeyOf
        rw [List.find?_cons_of_pos _ (by simpa using hc)]
      rcases List.mem_cons.mp he with rfl | hm
      · exact hfind
      · exfalso
        apply hnd.1
        rw [hc, ← hv]
        exact List.mem_map.mpr ⟨e, hm, rfl⟩
    · have hstep : olKeyOf (e0 :: rest) v = olKeyOf rest v := by
        unfold olKeyOf
        rw [List.find?_cons_of_neg _ (by simpa using hc)]
      rcases List.mem_cons.mp he with rfl | hm
      · exact absurd hv hc
      · rw [hstep]
        exact ih hnd.2 e hm hv

/-- Full conclusion package for the improved-g update of `relaxOp`:
invariant preservation plus all the stability facts and the successor
witness, over the explicitly updated search state. -/
theorem upd_full (T : Task) (hfun : State → Int) (do_mutex : Bool)
    (exc : Nat → Prop) (u a v : Nat) (st : AState) (openl2 : OpenL) (stats2 : SStats)
    (hca : 0 ≤ (opAt T a).cost) (ha : a < T.ops.length)
    (hu : u < st.nodes.length) (hv : v < st.nodes.length)
    (hsv : sOf st v = succState (opAt T a) (sOf st u))
    (happ : is_applicable (opAt T a) (sOf st u) = true)
    (himp : gOf st u + (opAt T a).cost < gOf st v)
    (hInv : Inv T hfun do_mutex exc st)
    (P1 : ∀ e2 ∈ openl2, (e2.1 ≠ v ∧ e2 ∈ st.openl) ∨
      (e2.1 = v ∧ e2.2 = pack_fh_asc (gOf st u + (opAt T a).cost + hfun (sOf st v))
        (hfun (sOf st v))))
    (P2 : ∀ w, inOpen st w → ∃ e ∈ openl2, e.1 = w)
    (P3 : ∃ e ∈ openl2, e.1 = v)
    (P4 : (openl2.map Prod.fst).Nodup) :
    Inv T hfun do_mutex exc
      ⟨st.nodes.set v ⟨sOf st v, (u : Int), (a : Int)⟩, st.idx,
        st.meta.set v ⟨gOf st u + (opAt T a).cost, hfun (sOf st v), false⟩,
        openl2, stats2⟩ ∧
    st.nodes.length ≤
      ((⟨st.nodes.set v ⟨sOf st v, (u : Int), (a : Int)⟩, st.idx,
        st.meta.set v ⟨gOf st u + (opAt T a).cost, hfun (sOf st v), false⟩,
        openl2, stats2⟩ : AState)).nodes.length ∧
    (∀ w, w < st.nodes.length →
      sOf ⟨st.nodes.set v ⟨sOf st v, (u : Int), (a : Int)⟩, st.idx,
        st.meta.set v ⟨gOf st u + (opAt T a).cost, hfun (sOf st v), false⟩,
        openl2, stats2⟩ w = sOf st w) ∧
    (∀ w, w < st.nodes.length →
      gOf ⟨st.nodes.set v ⟨sOf st v, (u : Int), (a : Int)⟩, st.idx,
        st.meta.set v ⟨gOf st u + (opAt T a).cost, hfun (sOf st v), false⟩,
        openl2, stats2⟩ w ≤ gOf st w) ∧
    gOf ⟨st.nodes.set v ⟨sOf st v, (u : Int), (a : Int)⟩, st.idx,
        st.meta.set v ⟨gOf st u + (opAt T a).cost, hfun (sOf st v), false⟩,
        openl2, stats2⟩ u = gOf st u ∧
    clOf ⟨st.nodes.set v ⟨sOf st v, (u : Int), (a : Int)⟩, st.idx,
        st.meta.set v ⟨gOf st u + (opAt T a).cost, hfun (sOf st v), false⟩,
        openl2, stats2⟩ u = clOf st u ∧
    ∃ v2, v2 < ((⟨st.nodes.set v ⟨sOf st v, (u : Int), (a : Int)⟩, st.idx,
        st.meta.set v ⟨gOf st u + (opAt T a).cost, hfun (sOf st v), false⟩,
        openl2, stats2⟩ : AState)).nodes.length ∧
      sOf ⟨st.nodes.set v ⟨sOf st v, (u : Int), (a : Int)⟩, st.idx,
        st.meta.set v ⟨gOf st u + (opAt T a).cost, hfun (sOf st v), false⟩,
        openl2, stats2⟩ v2 = succState (opAt T a) (sOf st u) ∧
      gOf ⟨st.nodes.set v ⟨sOf st v, (u : Int), (a : Int)⟩, st.idx,
        st.meta.set v ⟨gOf st u + (opAt T a).cost, hfun (sOf st v), false⟩,
        openl2, stats2⟩ v2 ≤ gOf st u + (opAt T a).cost := by
  obtain ⟨i1, i2, i3, i4, i5⟩ := upd_spec T hfun do_mutex exc u a v st openl2 stats2
    hca ha hu hv hsv happ himp hInv P1 P2 P3 P4
  have hgv : gOf ⟨st.nodes.set v ⟨sOf st v, (u : Int), (a : Int)⟩, st.idx,
        st.meta.set v ⟨gOf st u + (opAt T a).cost, hfun (sOf st v), false⟩,
        openl2, stats2⟩ v = gOf st u + (opAt T a).cost := by
    show (List.getD (st.meta.set v _) v default).g = _
    rw [getD_set_poly, if_pos ⟨rfl, by rw [hInv.lenm]; exact hv⟩]
  refine ⟨i1, ?_, i2, fun w _ => i3 w, (i4 u i5).1, (i4 u i5).2, v, ?_, ?_, le_of_eq hgv⟩
  · show st.nodes.length ≤ (st.nodes.set v _).length
    rw [List.length_set]
  · show v < (st.nodes.set v _).length
    rw [List.length_set]
    exact hv
  · rw [i2 v hv]
    exact hsv

set_option maxHeartbeats 2000000 in
/-- One successor relaxation preserves the invariant, never loses nodes,
never changes stored states, never increases g values, leaves the expanded
node `u` untouched, and (when the operator applies without a mutex hit)
leaves a successor node with g at most `g(u) + cost`. -/
theorem relaxOp_spec (T : Task) (hfun : State → Int) (do_mutex : Bool)
    (exc : Nat → Prop) (u a : Nat) (su : State) (st : AState)
    (hca : 0 ≤ (opAt T a).cost) (ha : a < T.ops.length)
    (hu : u < st.nodes.length) (hsu : su = sOf st u)
    (hInv : Inv T hfun do_mutex exc st) :
    Inv T hfun do_mutex exc (relaxOp T hfun true do_mutex u a su st) ∧
    st.nodes.length ≤ (relaxOp T hfun true do_mutex u a su st).nodes.length ∧
    (∀ w, w < st.nodes.length →
      sOf (relaxOp T hfun true do_mutex u a su st) w = sOf st w) ∧
    (∀ w, w < st.nodes.length →
      gOf (relaxOp T hfun true do_mutex u a su st) w ≤ gOf st w) ∧
    gOf (relaxOp T hfun true do_mutex u a su st) u = gOf st u ∧
    clOf (relaxOp T hfun true do_mutex u a su st) u = clOf st u ∧
    (is_applicable (opAt T a) su = true →
      (do_mutex && violates_mutex T (succState (opAt T a) su)) = false →
      ∃ v2, v2 < (relaxOp T hfun true do_mutex u a su st).nodes.length ∧
        sOf (relaxOp T hfun true do_mutex u a su st) v2 = succState (opAt T a) su ∧
        gOf (relaxOp T hfun true do_mutex u a su st) v2 ≤
          gOf st u + (opAt T a).cost) := by
  subst hsu
  by_cases happt : is_applicable (T.ops.getD a default) (sOf st u) = true
  · by_cases hmx : (do_mutex &&
        violates_mutex T (succState (T.ops.getD a default) (sOf st u))) = true
    · rw [relaxOp_char_mutex T hfun true do_mutex u a (sOf st u) st happt hmx]
      refine ⟨⟨hInv.lenm, hInv.root, hInv.gnn, hInv.hsy, hInv.edge, hInv.keysync,
        hInv.closedprop, hInv.goalcl, hInv.idxp, hInv.allwit, hInv.nodup, hInv.nco,
        hInv.rootwit⟩, le_refl _, fun w _ => rfl, fun w _ => le_refl _, rfl, rfl, ?_⟩
      intro happ2 hmx2
      have hmx2x : (do_mutex &&
          violates_mutex T (succState (T.ops.getD a default) (sOf st u))) = false := hmx2
      rw [hmx] at hmx2x
      exact Bool.noConfusion hmx2x
    · have hmxf : (do_mutex &&
          violates_mutex T (succState (T.ops.getD a default) (sOf st u))) = false := by
        revert hmx
        cases do_mutex && violates_mutex T (succState (T.ops.getD a default) (sOf st u)) <;>
          simp
      cases hl : lookupIdx st.idx (succState (T.ops.getD a default) (sOf st u)) with
      | none =>
        rw [relaxOp_char_new T hfun true do_mutex u a (sOf st u) st happt hmxf hl]
        obtain ⟨j1, j2, j3, j4, j5⟩ := app_spec T hfun do_mutex exc u a st
          ⟨st.stats.expanded, st.stats.generated + 1, st.stats.evaluated + 1, st.stats.duplicates⟩ hca ha hu happt hInv
        refine ⟨j1, ?_, j2, fun w hw => le_of_eq (j3 w hw).1, (j3 u hu).1, (j3 u hu).2, ?_⟩
        · show st.nodes.length ≤ (st.nodes ++ [_]).length
          rw [List.length_append, List.length_singleton]
          omega
        · intro _ _
          refine ⟨st.nodes.length, ?_, j4, le_of_eq j5⟩
          show st.nodes.length < (st.nodes ++ [_]).length
          rw [List.length_append, List.length_singleton]
          omega
      | some v =>
        obtain ⟨hv, hsv⟩ := hInv.idxp _ (lookupIdx_mem hl)
        by_cases himp : (st.meta.getD u default).g + (T.ops.getD a default).cost <
            (st.meta.getD v default).g
        · have hgimp : gOf st u + (opAt T a).cost < gOf st v := himp
          by_cases hclv : (st.meta.getD v default).closed = true
          · have hnin : ¬ ∃ e ∈ st.openl, e.1 = v := hInv.nco v hclv
            obtain ⟨c1, c2, c3, c4, c5, c6, c7⟩ := upd_full T hfun do_mutex exc u a v st
              (olInsert st.openl v (pack_fh_asc (gOf st u + (opAt T a).cost + hfun (sOf st v)) (hfun (sOf st v)))) ⟨st.stats.expanded, st.stats.generated + 1, st.stats.evaluated + 1, st.stats.duplicates⟩
              hca ha hu hv hsv happt hgimp hInv
              (by
                intro e2 he2
                rcases List.mem_cons.mp he2 with rfl | hm
                · exact Or.inr ⟨rfl, rfl⟩
                · exact Or.inl ⟨fun hveq => hnin ⟨e2, hm, hveq⟩, hm⟩)
              (by
                intro w hwo
                obtain ⟨e, he, hei⟩ := hwo
                exact ⟨e, List.mem_cons_of_mem _ he, hei⟩)
              ⟨(v, pack_fh_asc (gOf st u + (opAt T a).cost + hfun (sOf st v)) (hfun (sOf st v))), List.mem_cons_self _ _, rfl⟩
              (nodup_insert_ids hInv.nodup hnin)
            rw [relaxOp_char_reopen T hfun do_mutex u a v (sOf st u) st happt hmxf hl
              himp hclv]
            exact ⟨c1, c2, c3, c4, c5, c6, fun _ _ => c7⟩
          · have hclvf : (st.meta.getD v default).closed = false := by
              revert hclv
              cases (st.meta.getD v default).closed <;> simp
            by_cases hcon : olContains st.openl v = true
            · by_cases hk : pack_fh_asc ((st.meta.getD u default).g + (T.ops.getD a default).cost + hfun ((st.nodes.getD v default).s)) (hfun ((st.nodes.getD v default).s)) = olKeyOf st.openl v
              · obtain ⟨c1, c2, c3, c4, c5, c6, c7⟩ := upd_full T hfun do_mutex exc u a v st
                  st.openl ⟨st.stats.expanded, st.stats.generated + 1, st.stats.evaluated + 1, st.stats.duplicates⟩
                  hca ha hu hv hsv happt hgimp hInv
                  (by
                    intro e2 he2
                    by_cases hveq : e2.1 = v
                    · refine Or.inr ⟨hveq, ?_⟩
                      have hq := olKeyOf_unique hInv.nodup e2 he2 hveq
                      exact hq.symm.trans hk.symm
                    · exact Or.inl ⟨hveq, he2⟩)
                  (fun w hwo => hwo)
                  (olContains_iff.mp hcon)
                  hInv.nodup
                rw [relaxOp_char_eq T hfun do_mutex u a v (sOf st u) st happt hmxf hl
                  himp hclvf hcon hk]
                exact ⟨c1, c2, c3, c4, c5, c6, fun _ _ => c7⟩
              · obtain ⟨c1, c2, c3, c4, c5, c6, c7⟩ := upd_full T hfun do_mutex exc u a v st
                  (olChangeKey st.openl v (pack_fh_asc (gOf st u + (opAt T a).cost + hfun (sOf st v)) (hfun (sOf st v)))) ⟨st.stats.expanded, st.stats.generated + 1, st.stats.evaluated + 1, st.stats.duplicates⟩
                  hca ha hu hv hsv happt hgimp hInv
                  (by
                    intro e2 he2
                    rcases olChangeKey_mem e2 he2 with ⟨hne2, hm⟩ | heq
                    · exact Or.inl ⟨hne2, hm⟩
                    · exact Or.inr ⟨by rw [heq], by rw [heq]⟩)
                  (fun w hwo => olChangeKey_inOpen hwo)
                  (olChangeKey_inOpen (olContains_iff.mp hcon))
                  (by
                    rw [olChangeKey_ids]
                    exact hInv.nodup)
                rw [relaxOp_char_chg T hfun do_mutex u a v (sOf st u) st happt hmxf hl
                  himp hclvf hcon hk]
                exact ⟨c1, c2, c3, c4, c5, c6, fun _ _ => c7⟩
            · have hconf : olContains st.openl v = false := by
                revert hcon
                cases olContains st.openl v <;> simp
              have hnin : ¬ ∃ e ∈ st.openl, e.1 = v := by
                intro hex
                have hcx := olContains_iff.mpr hex
                rw [hconf] at hcx
                exact Bool.noConfusion hcx
              obtain ⟨c1, c2, c3, c4, c5, c6, c7⟩ := upd_full T hfun do_mutex exc u a v st
                (olInsert st.openl v (pack_fh_asc (gOf st u + (opAt T a).cost + hfun (sOf st v)) (hfun (sOf st v)))) ⟨st.stats.expanded, st.stats.generated + 1, st.stats.evaluated + 1, st.stats.duplicates⟩
                hca ha hu hv hsv happt hgimp hInv
                (by
                  intro e2 he2
                  rcases List.mem_cons.mp he2 with rfl | hm
                  · exact Or.inr ⟨rfl, rfl⟩
                  · exact Or.inl ⟨fun hveq => hnin ⟨e2, hm, hveq⟩, hm⟩)
                (by
                  intro w hwo
                  obtain ⟨e, he, hei⟩ := hwo
                  exact ⟨e, List.mem_cons_of_mem _ he, hei⟩)
                ⟨(v, pack_fh_asc (gOf st u + (opAt T a).cost + hfun (sOf st v)) (hfun (sOf st v))), List.mem_cons_self _ _, rfl⟩
                (nodup_insert_ids hInv.nodup hnin)
              rw [relaxOp_char_ins T hfun do_mutex u a v (sOf st u) st happt hmxf hl
                himp hclvf hconf]
              exact ⟨c1, c2, c3, c4, c5, c6, fun _ _ => c7⟩
        · rw [relaxOp_char_dup T hfun true do_mutex u a v (sOf st u) st happt hmxf hl himp]
          refine ⟨⟨hInv.lenm, hInv.root, hInv.gnn, hInv.hsy, hInv.edge, hInv.keysync,
            hInv.closedprop, hInv.goalcl, hInv.idxp, hInv.allwit, hInv.nodup, hInv.nco,
            hInv.rootwit⟩, le_refl _, fun w _ => rfl, fun w _ => le_refl _, rfl, rfl, ?_⟩
          intro _ _
          refine ⟨v, hv, hsv, ?_⟩
          have hle : (st.meta.getD v default).g ≤
              (st.meta.getD u default).g + (T.ops.getD a default).cost := not_lt.mp himp
          exact hle
  · have hnapp : is_applicable (T.ops.getD a default) (sOf st u) = false := by
      revert happt
      cases is_applicable (T.ops.getD a default) (sOf st u) <;> simp
    rw [relaxOp_char_skip T hfun true do_mutex u a (sOf st u) st hnapp]
    refine ⟨hInv, le_refl _, fun w _ => rfl, fun w _ => le_refl _, rfl, rfl, ?_⟩
    intro happ2 _
    exact absurd happ2 happt

theorem opAt_mem (T : Task) (a : Nat) (ha : a < T.ops.length) : opAt T a ∈ T.ops := by
  unfold opAt
  rw [List.getD_eq_getElem T.ops default ha]
  exact List.getElem_mem ha

/-- Folding `relaxOp` over any list of in-range operator indices preserves
the invariant and leaves, for every processed applicable non-mutex operator,
a successor witness with g at most `g(u) + cost`. -/
theorem foldRelax_spec (T : Task) (hfun : State → Int) (do_mutex : Bool)
    (exc : Nat → Prop) (u : Nat) (su : State)
    (hcost : ∀ op ∈ T.ops, 0 ≤ op.cost) :
    ∀ (l : List Nat), (∀ a ∈ l, a < T.ops.length) →
    ∀ (st : AState), u < st.nodes.length → su = sOf st u →
    Inv T hfun do_mutex exc st →
    Inv T hfun do_mutex exc
      (List.foldl (fun st a => relaxOp T hfun true do_mutex u a su st) st l) ∧
    st.nodes.length ≤
      (List.foldl (fun st a => relaxOp T hfun true do_mutex u a su st) st l).nodes.length ∧
    (∀ w, w < st.nodes.length →
      sOf (List.foldl (fun st a => relaxOp T hfun true do_mutex u a su st) st l) w =
        sOf st w) ∧
    (∀ w, w < st.nodes.length →
      gOf (List.foldl (fun st a => relaxOp T hfun true do_mutex u a su st) st l) w ≤
        gOf st w) ∧
    gOf (List.foldl (fun st a => relaxOp T hfun true do_mutex u a su st) st l) u =
      gOf st u ∧
    clOf (List.foldl (fun st a => relaxOp T hfun true do_mutex u a su st) st l) u =
      clOf st u ∧
    (∀ a ∈ l, is_applicable (opAt T a) su = true →
      (do_mutex && violates_mutex T (succState (opAt T a) su)) = false →
      ∃ v2, v2 <
        (List.foldl (fun st a => relaxOp T hfun true do_mutex u a su st) st l).nodes.length ∧
        sOf (List.foldl (fun st a => relaxOp T hfun true do_mutex u a su st) st l) v2 =
          succState (opAt T a) su ∧
        gOf (List.foldl (fun st a => relaxOp T hfun true do_mutex u a su st) st l) v2 ≤
          gOf st u + (opAt T a).cost) := by
  intro l
  induction l with
  | nil =>
    intro _ st hu hsu hInv
    refine ⟨hInv, le_refl _, fun w _ => rfl, fun w _ => le_refl _, rfl, rfl, ?_⟩
    intro a hmem
    exact absurd hmem (List.not_mem_nil a)
  | cons a t ih =>
    intro hl st hu hsu hInv
    have ha : a < T.ops.length := hl a (List.mem_cons_self a t)
    have hca : 0 ≤ (opAt T a).cost := hcost _ (opAt_mem T a ha)
    obtain ⟨r1, r2, r3, r4, r5, r6, r7⟩ :=
      relaxOp_spec T hfun do_mutex exc u a su st hca ha hu hsu hInv
    have hu1 : u < (relaxOp T hfun true do_mutex u a su st).nodes.length :=
      Nat.lt_of_lt_of_le hu r2
    have hsu1 : su = sOf (relaxOp T hfun true do_mutex u a su st) u := by
      rw [r3 u hu]
      exact hsu
    obtain ⟨i1, i2, i3, i4, i5, i6, i7⟩ := ih (fun a2 h2 => hl a2 (List.mem_cons_of_mem a h2))
      (relaxOp T hfun true do_mutex u a su st) hu1 hsu1 r1
    rw [List.foldl_cons]
    refine ⟨i1, le_trans r2 i2, ?_, ?_, ?_, ?_, ?_⟩
    · intro w hw
      rw [i3 w (Nat.lt_of_lt_of_le hw r2), r3 w hw]
    · intro w hw
      exact le_trans (i4 w (Nat.lt_of_lt_of_le hw r2)) (r4 w hw)
    · rw [i5, r5]
    · rw [i6, r6]
    · intro a2 hmem happ2 hmx2
      rcases List.mem_cons.mp hmem with rfl | hm
      · obtain ⟨v2, w1, w2, w3⟩ := r7 happ2 hmx2
        refine ⟨v2, Nat.lt_of_lt_of_le w1 i2, ?_, ?_⟩
        · rw [i3 v2 w1]
          exact w2
        · exact le_trans (i4 v2 w1) w3
      · obtain ⟨v2, w1, w2, w3⟩ := i7 a2 hm happ2 hmx2
        refine ⟨v2, w1, w2, ?_⟩
        rw [r5] at w3
        exact w3

/-- `expandNode` (the successor loop over all operators) preserves the
invariant and establishes a successor witness for every applicable
non-mutex operator. -/
theorem expandNode_spec (T : Task) (hfun : State → Int) (do_mutex : Bool)
    (exc : Nat → Prop) (u : Nat) (su : State) (st : AState)
    (hcost : ∀ op ∈ T.ops, 0 ≤ op.cost)
    (hu : u < st.nodes.length) (hsu : su = sOf st u)
    (hInv : Inv T hfun do_mutex exc st) :
    Inv T hfun do_mutex exc (expandNode T hfun true do_mutex u su st) ∧
    st.nodes.length ≤ (expandNode T hfun true do_mutex u su st).nodes.length ∧
    (∀ w, w < st.nodes.length →
      sOf (expandNode T hfun true do_mutex u su st) w = sOf st w) ∧
    (∀ w, w < st.nodes.length →
      gOf (expandNode T hfun true do_mutex u su st) w ≤ gOf st w) ∧
    gOf (expandNode T hfun true do_mutex u su st) u = gOf st u ∧
    clOf (expandNode T hfun true do_mutex u su st) u = clOf st u ∧
    (∀ a, a < T.ops.length → is_applicable (opAt T a) su = true →
      (do_mutex && violates_mutex T (succState (opAt T a) su)) = false →
      ∃ v2, v2 < (expandNode T hfun true do_mutex u su st).nodes.length ∧
        sOf (expandNode T hfun true do_mutex u su st) v2 = succState (opAt T a) su ∧
        gOf (expandNode T hfun true do_mutex u su st) v2 ≤
          gOf st u + (opAt T a).cost) := by
  obtain ⟨i1, i2, i3, i4, i5, i6, i7⟩ := foldRelax_spec T hfun do_mutex exc u su hcost
    (List.range T.ops.length) (fun a h => List.mem_range.mp h) st hu hsu hInv
  exact ⟨i1, i2, i3, i4, i5, i6,
    fun a ha happ hmx => i7 a (List.mem_range.mpr ha) happ hmx⟩

/-- Popping a stale open entry (mismatched key) preserves the invariant:
the stale test can only fire on a 16-bit wrap, so the dropped node is in
`limbo` and its witness obligation survives. -/
theorem stale_skip_spec (T : Task) (hfun : State → Int) (dm : Bool)
    (u key : Nat) (rest : OpenL) (st : AState)
    (hnn : ∀ s, 0 ≤ hfun s)
    (hpop : olExtractMin st.openl = some ((u, key), rest))
    (hstale : (unpack_f key : Int) ≠
        (st.meta.getD u default).g + (st.meta.getD u default).h ∨
      (unpack_h key : Int) ≠ (st.meta.getD u default).h)
    (hInv : Inv T hfun dm (fun _ => False) st) :
    Inv T hfun dm (fun _ => False) { st with openl := rest } := by
  have hmem : (u, key) ∈ st.openl := (olExtractMin_spec st.openl (u, key) rest hpop).1
  have hperm := (olExtractMin_spec st.openl (u, key) rest hpop).2.2
  have hk := hInv.keysync (u, key) hmem
  have hu : u < st.nodes.length := hk.1
  constructor
  case lenm => exact hInv.lenm
  case root => exact hInv.root
  case gnn => exact hInv.gnn
  case hsy => exact hInv.hsy
  case edge => exact hInv.edge
  case keysync =>
    intro e he
    exact hInv.keysync e (olExtractMin_mem_rest hpop e he)
  case closedprop =>
    intro v hv hne hcl
    exact hInv.closedprop v hv not_false hcl
  case goalcl => exact hInv.goalcl
  case idxp => exact hInv.idxp
  case allwit =>
    intro v hv
    rcases hInv.allwit v hv with hop | hcl | hlim
    · obtain ⟨e, he, hei⟩ := hop
      by_cases he2 : e = (u, key)
      · rw [he2] at hei
        have huv : u = v := hei
        subst huv
        refine Or.inr (Or.inr ?_)
        have hg := hInv.gnn u hu
        have hh0 : 0 ≤ hOf st u := by
          rw [hInv.hsy u hu]
          exact hnn _
        have hiff := key_match_iff hg hh0
        have hstale2 : (unpack_f key : Int) ≠ gOf st u + hOf st u ∨
            (unpack_h key : Int) ≠ hOf st u := hstale
        have hk2 : key = pack_fh_asc (gOf st u + hOf st u) (hOf st u) := hk.2
        rw [hk2] at hstale2
        have hnm : ¬((unpack_f (pack_fh_asc (gOf st u + hOf st u) (hOf st u)) : Int) =
            gOf st u + hOf st u ∧
            (unpack_h (pack_fh_asc (gOf st u + hOf st u) (hOf st u)) : Int) = hOf st u) := by
          rcases hstale2 with h | h
          · exact fun hc => h hc.1
          · exact fun hc => h hc.2
        have hnb := mt hiff.mpr hnm
        show 2 ^ 16 ≤ gOf st u + hOf st u ∨ 2 ^ 16 ≤ hOf st u
        omega
      · exact Or.inl ⟨e, olExtractMin_mem_of_ne hpop e he he2, hei⟩
    · exact Or.inr (Or.inl hcl)
    · exact Or.inr (Or.inr hlim)
  case nodup =>
    have hpm := hperm.map Prod.fst
    have hall : ((u, key).1 :: rest.map Prod.fst).Nodup := by
      rw [← List.map_cons]
      exact hpm.nodup_iff.mp hInv.nodup
    exact (List.nodup_cons.mp hall).2
  case nco =>
    intro v hcl hop
    obtain ⟨e, he, hei⟩ := hop
    exact hInv.nco v hcl ⟨e, olExtractMin_mem_rest hpop e he, hei⟩
  case rootwit => exact hInv.rootwit

/-- Closing the freshly popped non-goal node `u`: the invariant holds with
`u` exempted from the closed-node expansion obligation (it is discharged
by the subsequent `expandNode`). -/
theorem close_step_spec (T : Task) (hfun : State → Int) (dm : Bool)
    (u key : Nat) (rest : OpenL) (st : AState) (stats2 : SStats)
    (hpop : olExtractMin st.openl = some ((u, key), rest))
    (hgoal : is_goal T (sOf st u) = false)
    (hInv : Inv T hfun dm (fun _ => False) st) :
    Inv T hfun dm (fun w => w = u)
      ⟨st.nodes, st.idx,
        st.meta.set u ⟨(st.meta.getD u default).g, (st.meta.getD u default).h, true⟩,
        rest, stats2⟩ ∧
    (∀ w, gOf ⟨st.nodes, st.idx,
        st.meta.set u ⟨(st.meta.getD u default).g, (st.meta.getD u default).h, true⟩,
        rest, stats2⟩ w = gOf st w) ∧
    (∀ w, hOf ⟨st.nodes, st.idx,
        st.meta.set u ⟨(st.meta.getD u default).g, (st.meta.getD u default).h, true⟩,
        rest, stats2⟩ w = hOf st w) ∧
    clOf ⟨st.nodes, st.idx,
        st.meta.set u ⟨(st.meta.getD u default).g, (st.meta.getD u default).h, true⟩,
        rest, stats2⟩ u = true ∧
    u < st.nodes.length := by
  have hmem : (u, key) ∈ st.openl := (olExtractMin_spec st.openl (u, key) rest hpop).1
  have hperm := (olExtractMin_spec st.openl (u, key) rest hpop).2.2
  have hu : u < st.nodes.length := (hInv.keysync (u, key) hmem).1
  have hum : u < st.meta.length := by
    rw [hInv.lenm]
    exact hu
  have hgOf : ∀ w, gOf ⟨st.nodes, st.idx,
        st.meta.set u ⟨(st.meta.getD u default).g, (st.meta.getD u default).h, true⟩,
        rest, stats2⟩ w = gOf st w := by
    intro w
    show (List.getD (st.meta.set u _) w default).g = _
    rw [getD_set_poly]
    by_cases h1 : u = w ∧ u < st.meta.length
    · rw [if_pos h1]
      rw [← h1.1]
      rfl
    · rw [if_neg h1]
      rfl
  have hhOf : ∀ w, hOf ⟨st.nodes, st.idx,
        st.meta.set u ⟨(st.meta.getD u default).g, (st.meta.getD u default).h, true⟩,
        rest, stats2⟩ w = hOf st w := by
    intro w
    show (List.getD (st.meta.set u _) w default).h = _
    rw [getD_set_poly]
    by_cases h1 : u = w ∧ u < st.meta.length
    · rw [if_pos h1]
      rw [← h1.1]
      rfl
    · rw [if_neg h1]
      rfl
  have hclOf : ∀ w, w ≠ u → clOf ⟨st.nodes, st.idx,
        st.meta.set u ⟨(st.meta.getD u default).g, (st.meta.getD u default).h, true⟩,
        rest, stats2⟩ w = clOf st w := by
    intro w hw
    show (List.getD (st.meta.set u _) w default).closed = _
    rw [getD_set_poly, if_neg (fun hc => hw hc.1.symm)]
    rfl
  have hclu : clOf ⟨st.nodes, st.idx,
        st.meta.set u ⟨(st.meta.getD u default).g, (st.meta.getD u default).h, true⟩,
        rest, stats2⟩ u = true := by
    show (List.getD (st.meta.set u _) u default).closed = true
    rw [getD_set_poly, if_pos ⟨rfl, hum⟩]
  have hrestids : ((u, key).1 :: rest.map Prod.fst).Nodup := by
    rw [← List.map_cons]
    exact (hperm.map Prod.fst).nodup_iff.mp hInv.nodup
  refine ⟨?_, hgOf, hhOf, hclu, hu⟩
  constructor
  case lenm =>
    show (st.meta.set u _).length = st.nodes.length
    rw [List.length_set]
    exact hInv.lenm
  case root => exact hInv.root
  case gnn =>
    intro v hv
    rw [hgOf]
    exact hInv.gnn v hv
  case hsy =>
    intro v hv
    rw [hhOf]
    exact hInv.hsy v hv
  case edge =>
    intro v hv hpar
    obtain ⟨e1, e2, e3, e4, e5, e6⟩ := hInv.edge v hv hpar
    refine ⟨e1, e2, e3, e4, e5, ?_⟩
    rw [hgOf, hgOf]
    exact e6
  case keysync =>
    intro e he
    have hks := hInv.keysync e (olExtractMin_mem_rest hpop e he)
    rw [hgOf, hhOf]
    exact hks
  case closedprop =>
    intro v hv hne hcl a ha happ hmx
    have hcl2 : clOf st v = true := by
      rw [← hclOf v hne]
      exact hcl
    obtain ⟨v2, c1, c2, c3⟩ := hInv.closedprop v hv not_false hcl2 a ha happ hmx
    refine ⟨v2, c1, c2, ?_⟩
    rw [hgOf, hgOf]
    exact c3
  case goalcl =>
    intro v hv hcl
    by_cases hvu : v = u
    · subst hvu
      exact hgoal
    · apply hInv.goalcl v hv
      rw [← hclOf v hvu]
      exact hcl
  case idxp => exact hInv.idxp
  case allwit =>
    intro v hv
    rcases hInv.allwit v hv with hop | hcl | hlim
    · obtain ⟨e, he, hei⟩ := hop
      by_cases he2 : e = (u, key)
      · rw [he2] at hei
        have huv : u = v := hei
        subst huv
        exact Or.inr (Or.inl hclu)
      · exact Or.inl ⟨e, olExtractMin_mem_of_ne hpop e he he2, hei⟩
    · by_cases hvu : v = u
      · subst hvu
        exact Or.inr (Or.inl hclu)
      · refine Or.inr (Or.inl ?_)
        rw [hclOf v hvu]
        exact hcl
    · refine Or.inr (Or.inr ?_)
      unfold limbo at hlim ⊢
      rw [hgOf, hhOf]
      exact hlim
  case nodup => exact (List.nodup_cons.mp hrestids).2
  case nco =>
    intro v hcl hop
    obtain ⟨e, he, hei⟩ := hop
    by_cases hvu : v = u
    · subst hvu
      apply (List.nodup_cons.mp hrestids).1
      rw [← hei]
      exact List.mem_map.mpr ⟨e, he, rfl⟩
    · have hcl2 : clOf st v = true := by
        rw [← hclOf v hvu]
        exact hcl
      exact hInv.nco v hcl2 ⟨e, olExtractMin_mem_rest hpop e he, hei⟩
  case rootwit =>
    obtain ⟨r1, r2, r3⟩ := hInv.rootwit
    refine ⟨r1, r2, ?_⟩
    rw [hgOf]
    exact r3

/-- Once the expansion of `u` has produced a successor witness for every
applicable non-mutex operator, the exemption of `u` can be dropped. -/
theorem exc_discharge (T : Task) (hfun : State → Int) (dm : Bool)
    (u : Nat) (st : AState)
    (hInv : Inv T hfun dm (fun w => w = u) st)
    (hwit : ∀ a, a < T.ops.length →
      is_applicable (opAt T a) (sOf st u) = true →
      (dm && violates_mutex T (succState (opAt T a) (sOf st u))) = false →
      ∃ v2, v2 < st.nodes.length ∧ sOf st v2 = succState (opAt T a) (sOf st u) ∧
        gOf st v2 ≤ gOf st u + (opAt T a).cost) :
    Inv T hfun dm (fun _ => False) st := by
  constructor
  case lenm => exact hInv.lenm
  case root => exact hInv.root
  case gnn => exact hInv.gnn
  case hsy => exact hInv.hsy
  case edge => exact hInv.edge
  case keysync => exact hInv.keysync
  case closedprop =>
    intro v hv _ hcl a ha happ hmx
    by_cases hvu : v = u
    · subst hvu
      exact hwit a ha happ hmx
    · exact hInv.closedprop v hv hvu hcl a ha happ hmx
  case goalcl => exact hInv.goalcl
  case idxp => exact hInv.idxp
  case allwit => exact hInv.allwit
  case nodup => exact hInv.nodup
  case nco => exact hInv.nco
  case rootwit => exact hInv.rootwit

theorem applyPlan_append (T : Task) : ∀ (l1 l2 : List Int) (s : State),
    applyPlan T s (l1 ++ l2) = (applyPlan T s l1).bind (fun s2 => applyPlan T s2 l2) := by
  intro l1
  induction l1 with
  | nil =>
    intro l2 s
    rfl
  | cons a t ih =>
    intro l2 s
    rw [List.cons_append]
    by_cases hc : a ≥ 0 ∧ a.toNat < T.ops.length ∧
        is_applicable (T.ops.getD a.toNat default) s = true
    · simp only [applyPlan, if_pos hc]
      exact ih l2 _
    · simp only [applyPlan, if_neg hc]
      rfl

theorem eval_plan_cost_nil (T : Task) : eval_plan_cost T [] = 0 := rfl

theorem eval_plan_cost_append (T : Task) (l1 l2 : List Int) :
    eval_plan_cost T (l1 ++ l2) = eval_plan_cost T l1 + eval_plan_cost T l2 := by
  unfold eval_plan_cost
  rw [List.map_append, List.sum_append]

theorem eval_plan_cost_cons (T : Task) (a : Int) (l : List Int) :
    eval_plan_cost T (a :: l) =
      (T.ops.getD a.toNat default).cost + eval_plan_cost T l := by
  unfold eval_plan_cost
  rw [List.map_cons, List.sum_cons]

/-- A plan that applies successfully has non-negative cost when all
operator costs are non-negative. -/
theorem planCost_nonneg (T : Task) (hcost : ∀ op ∈ T.ops, 0 ≤ op.cost) :
    ∀ (acts : List Int) (s t : State), applyPlan T s acts = some t →
    0 ≤ eval_plan_cost T acts := by
  intro acts
  induction acts with
  | nil =>
    intro s t _
    exact le_refl 0
  | cons a l ih =>
    intro s t h
    simp only [applyPlan] at h
    by_cases hc : a ≥ 0 ∧ a.toNat < T.ops.length ∧
        is_applicable (T.ops.getD a.toNat default) s = true
    · rw [if_pos hc] at h
      have h0 := hcost (T.ops.getD a.toNat default)
        (by rw [List.getD_eq_getElem T.ops default hc.2.1]; exact List.getElem_mem hc.2.1)
      have h1 := ih _ _ h
      rw [eval_plan_cost_cons]
      omega
    · rw [if_neg hc] at h
      exact Option.noConfusion h

/-- The parent-chain walk yields a genuine plan from the initial state to
the stored state, of cost at most the stored g. -/
theorem extract_plan_aux_spec (T : Task) (hfun : State → Int) (dm : Bool)
    (exc : Nat → Prop) (st : AState) (hInv : Inv T hfun dm exc st) :
    ∀ (fuel : Nat) (v : Int) (acts : List Int), 0 ≤ v → v.toNat < st.nodes.length →
      extract_plan_aux st.nodes fuel v = some acts →
      applyPlan T T.init acts = some (sOf st v.toNat) ∧
      eval_plan_cost T acts ≤ gOf st v.toNat := by
  intro fuel
  induction fuel with
  | zero =>
    intro v acts hv0 hvl h
    simp only [extract_plan_aux] at h
    by_cases hc : v ≥ 0 ∧ (st.nodes.getD v.toNat default).parent ≥ 0
    · rw [if_pos hc] at h
      exact Option.noConfusion h
    · rw [if_neg hc] at h
      have hpar : (st.nodes.getD v.toNat default).parent < 0 := by
        rcases not_and_or.mp hc with h1 | h1
        · exact absurd hv0 h1
        · omega
      injection h with h2
      subst h2
      have hroot := hInv.root v.toNat hvl hpar
      refine ⟨?_, ?_⟩
      · rw [hroot]
        rfl
      · exact hInv.gnn v.toNat hvl
  | succ fuel ih =>
    intro v acts hv0 hvl h
    simp only [extract_plan_aux] at h
    by_cases hc : v ≥ 0 ∧ (st.nodes.getD v.toNat default).parent ≥ 0
    · rw [if_pos hc] at h
      cases haux : extract_plan_aux st.nodes fuel (st.nodes.getD v.toNat default).parent with
      | none =>
        rw [haux] at h
        exact Option.noConfusion h
      | some acts0 =>
        rw [haux] at h
        injection h with h2
        subst h2
        obtain ⟨e1, e2, e3, e4, e5, e6⟩ := hInv.edge v.toNat hvl hc.2
        obtain ⟨ih1, ih2⟩ := ih (st.nodes.getD v.toNat default).parent acts0 hc.2 e1 haux
        have hstep : applyPlan T (sOf st (st.nodes.getD v.toNat default).parent.toNat)
            [(st.nodes.getD v.toNat default).act] =
            some (succState (opAt T (st.nodes.getD v.toNat default).act.toNat)
              (sOf st (st.nodes.getD v.toNat default).parent.toNat)) := by
          simp only [applyPlan]
          rw [if_pos ⟨e2, e3, e4⟩]
          rfl
        refine ⟨?_, ?_⟩
        · rw [applyPlan_append, ih1, Option.some_bind, hstep, e5]
        · have e6x : gOf st (st.nodes.getD v.toNat default).parent.toNat +
              (T.ops.getD (st.nodes.getD v.toNat default).act.toNat default).cost ≤
              gOf st v.toNat := e6
          rw [eval_plan_cost_append, eval_plan_cost_cons, eval_plan_cost_nil]
          omega
    · rw [if_neg hc] at h
      have hpar : (st.nodes.getD v.toNat default).parent < 0 := by
        rcases not_and_or.mp hc with h1 | h1
        · exact absurd hv0 h1
        · omega
      injection h with h2
      subst h2
      have hroot := hInv.root v.toNat hvl hpar
      refine ⟨?_, ?_⟩
      · rw [hroot]
        rfl
      · exact hInv.gnn v.toNat hvl

/-- `extract_plan` on a node id below the node count yields a plan
reaching that node's state, of cost at most its g value. -/
theorem extract_plan_spec (T : Task) (hfun : State → Int) (dm : Bool)
    (exc : Nat → Prop) (st : AState) (hInv : Inv T hfun dm exc st)
    (u : Nat) (acts : List Int) (hu : u < st.nodes.length)
    (h : extract_plan st.nodes (u : Int) = some acts) :
    applyPlan T T.init acts = some (sOf st u) ∧
    eval_plan_cost T acts ≤ gOf st u := by
  have hh := extract_plan_aux_spec T hfun dm exc st hInv (st.nodes.length + 1)
    (u : Int) acts (Int.natCast_nonneg u) (by rw [Int.toNat_natCast]; exact hu) h
  rw [Int.toNat_natCast] at hh
  exact hh

/-- On any search state satisfying the invariant, every goal-reaching plan
of cost below the 16-bit wrap leaves an open entry whose `g + h` is at most
the plan cost: the frontier intersects the plan. -/
theorem path_open_witness (T : Task) (hfun : State → Int) (dm : Bool)
    (st : AState) (hInv : Inv T hfun dm (fun _ => False) st)
    (hcost : ∀ op ∈ T.ops, 0 ≤ op.cost)
    (hnn : ∀ s, 0 ≤ hfun s)
    (hadm : ∀ s acts t, applyPlan T s acts = some t → is_goal T t = true →
      hfun s ≤ eval_plan_cost T acts)
    (hmutexOK : ∀ acts t, applyPlan T T.init acts = some t →
      (dm && violates_mutex T t) = false)
    (sg : State) (hsg : is_goal T sg = true)
    (C : Int) (hC : C < 2 ^ 16) :
    ∀ (rest : List Int) (v : Nat) (acts0 : List Int),
      v < st.nodes.length →
      applyPlan T T.init acts0 = some (sOf st v) →
      applyPlan T (sOf st v) rest = some sg →
      gOf st v ≤ eval_plan_cost T acts0 →
      eval_plan_cost T acts0 + eval_plan_cost T rest ≤ C →
      ∃ e ∈ st.openl, gOf st e.1 + hOf st e.1 ≤ C := by
  intro rest
  induction rest with
  | nil =>
    intro v acts0 hv hreach happly hg hsum
    have hsgv : sOf st v = sg := by
      injection happly
    have hadm0 : hfun (sOf st v) ≤ 0 := by
      have hx := hadm (sOf st v) [] sg happly hsg
      rwa [eval_plan_cost_nil] at hx
    have hh := hInv.hsy v hv
    have hh0 : 0 ≤ hfun (sOf st v) := hnn _
    rw [eval_plan_cost_nil] at hsum
    rcases hInv.allwit v hv with hop | hcl | hlim
    · obtain ⟨e, he, hei⟩ := hop
      refine ⟨e, he, ?_⟩
      rw [hei]
      omega
    · have := hInv.goalcl v hv hcl
      rw [hsgv, hsg] at this
      exact Bool.noConfusion this
    · exfalso
      unfold limbo at hlim
      omega
  | cons a rest2 ih =>
    intro v acts0 hv hreach happly hg hsum
    have hadmv : hfun (sOf st v) ≤ eval_plan_cost T (a :: rest2) :=
      hadm (sOf st v) (a :: rest2) sg happly hsg
    have hh := hInv.hsy v hv
    have hh0 : 0 ≤ hfun (sOf st v) := hnn _
    have hnn0 : 0 ≤ eval_plan_cost T acts0 := planCost_nonneg T hcost acts0 _ _ hreach
    rcases hInv.allwit v hv with hop | hcl | hlim
    · obtain ⟨e, he, hei⟩ := hop
      refine ⟨e, he, ?_⟩
      rw [hei]
      omega
    · simp only [applyPlan] at happly
      by_cases hcnd : a ≥ 0 ∧ a.toNat < T.ops.length ∧
          is_applicable (T.ops.getD a.toNat default) (sOf st v) = true
      · rw [if_pos hcnd] at happly
        have hreach2 : applyPlan T T.init (acts0 ++ [a]) =
            some (succState (T.ops.getD a.toNat default) (sOf st v)) := by
          rw [applyPlan_append, hreach, Option.some_bind]
          simp only [applyPlan]
          rw [if_pos hcnd]
        have hmx := hmutexOK (acts0 ++ [a]) _ hreach2
        have happx : is_applicable (opAt T a.toNat) (sOf st v) = true := hcnd.2.2
        have hmxx : (dm && violates_mutex T (succState (opAt T a.toNat) (sOf st v))) =
            false := hmx
        obtain ⟨v2, c1, c2, c3⟩ :=
          hInv.closedprop v hv not_false hcl a.toNat hcnd.2.1 happx hmxx
        have c3x : gOf st v2 ≤ gOf st v + (T.ops.getD a.toNat default).cost := c3
        refine ih v2 (acts0 ++ [a]) c1 ?_ ?_ ?_ ?_
        · rw [c2]
          exact hreach2
        · rw [c2]
          exact happly
        · rw [eval_plan_cost_append, eval_plan_cost_cons, eval_plan_cost_nil]
          omega
        · rw [eval_plan_cost_append, eval_plan_cost_cons, eval_plan_cost_nil]
          rw [eval_plan_cost_cons] at hsum
          omega
      · rw [if_neg hcnd] at happly
        exact Option.noConfusion happly
    · exfalso
      unfold limbo at hlim
      rw [eval_plan_cost_cons] at hsum hadmv
      omega

/-- When a goal node is popped with a fresh (non-stale) key, its g value is
at most the cost of every goal-reaching plan. -/
theorem goal_pop_optimal (T : Task) (hfun : State → Int) (dm : Bool)
    (st : AState) (u key : Nat) (rest : OpenL)
    (hInv : Inv T hfun dm (fun _ => False) st)
    (hcost : ∀ op ∈ T.ops, 0 ≤ op.cost)
    (hnn : ∀ s, 0 ≤ hfun s)
    (hadm : ∀ s acts t, applyPlan T s acts = some t → is_goal T t = true →
      hfun s ≤ eval_plan_cost T acts)
    (hmutexOK : ∀ acts t, applyPlan T T.init acts = some t →
      (dm && violates_mutex T t) = false)
    (hpop : olExtractMin st.openl = some ((u, key), rest))
    (hfresh : (unpack_f key : Int) =
        (st.meta.getD u default).g + (st.meta.getD u default).h ∧
      (unpack_h key : Int) = (st.meta.getD u default).h)
    (pl : List Int) (sg : State)
    (hpl : applyPlan T T.init pl = some sg) (hsg : is_goal T sg = true) :
    gOf st u ≤ eval_plan_cost T pl := by
  have hmem : (u, key) ∈ st.openl := (olExtractMin_spec st.openl (u, key) rest hpop).1
  have hu : u < st.nodes.length := (hInv.keysync (u, key) hmem).1
  have hkey : key = pack_fh_asc (gOf st u + hOf st u) (hOf st u) :=
    (hInv.keysync (u, key) hmem).2
  have hg := hInv.gnn u hu
  have hh0 : 0 ≤ hOf st u := by
    rw [hInv.hsy u hu]
    exact hnn _
  have hfresh2 : (unpack_f key : Int) = gOf st u + hOf st u ∧
      (unpack_h key : Int) = hOf st u := hfresh
  rw [hkey] at hfresh2
  have hbound := (key_match_iff hg hh0).mp hfresh2
  by_cases hC : eval_plan_cost T pl < 2 ^ 16
  · obtain ⟨r1, r2, r3⟩ := hInv.rootwit
    obtain ⟨e, he, hbe⟩ := path_open_witness T hfun dm st hInv hcost hnn hadm hmutexOK
      sg hsg (eval_plan_cost T pl) hC pl 0 [] r1
      (by rw [r2]; rfl)
      (by rw [r2]; exact hpl)
      (by rw [eval_plan_cost_nil]; exact r3)
      (by rw [eval_plan_cost_nil]; omega)
    have hke := hInv.keysync e he
    have hmin : key ≤ e.2 :=
      (olExtractMin_spec st.openl (u, key) rest hpop).2.1 e he
    have hge := hInv.gnn e.1 hke.1
    have hhe0 : 0 ≤ hOf st e.1 := by
      rw [hInv.hsy e.1 hke.1]
      exact hnn _
    have hpv_u : pack_fh_asc (gOf st u + hOf st u) (hOf st u) =
        (gOf st u + hOf st u).toNat * 2 ^ 16 + (hOf st u).toNat :=
      pack_val (by omega) hbound.1 hh0 hbound.2
    have hpv_e : pack_fh_asc (gOf st e.1 + hOf st e.1) (hOf st e.1) =
        (gOf st e.1 + hOf st e.1).toNat * 2 ^ 16 + (hOf st e.1).toNat :=
      pack_val (by omega) (by omega) hhe0 (by omega)
    rw [hkey, hpv_u, hke.2, hpv_e] at hmin
    omega
  · omega

set_option maxHeartbeats 2000000 in
/-- Soundness and optimality of the A* main loop: starting from any state
satisfying the invariant, a `solved=true` result carries a genuine plan
whose reported cost is its evaluated cost and is at most the cost of every
goal-reaching plan. -/
theorem astarLoop_sound (T : Task) (hfun : State → Int) (pmax : Nat) (dm : Bool)
    (tout : Nat → Bool)
    (hcost : ∀ op ∈ T.ops, 0 ≤ op.cost)
    (hnn : ∀ s, 0 ≤ hfun s)
    (hadm : ∀ s acts t, applyPlan T s acts = some t → is_goal T t = true →
      hfun s ≤ eval_plan_cost T acts)
    (hmutexOK : ∀ acts t, applyPlan T T.init acts = some t →
      (dm && violates_mutex T t) = false) :
    ∀ (fuel iter : Nat) (st : AState) (R : SResult),
      Inv T hfun dm (fun _ => False) st →
      astarLoop T hfun pmax true dm tout fuel iter st = some (Except.ok R) →
      R.solved = true →
      (∃ s, applyPlan T T.init R.plan = some s ∧ is_goal T s = true) ∧
      R.plan_cost = eval_plan_cost T R.plan ∧
      (∀ acts t, applyPlan T T.init acts = some t → is_goal T t = true →
        R.plan_cost ≤ eval_plan_cost T acts) := by
  intro fuel
  induction fuel with
  | zero =>
    intro iter st R _ h _
    exact Option.noConfusion h
  | succ fuel ih =>
    intro iter st R hInv h hsol
    simp only [astarLoop] at h
    by_cases hemp : st.openl.isEmpty = true
    · rw [if_pos hemp] at h
      injection h with h2
      injection h2 with h3
      rw [← h3] at hsol
      exact Bool.noConfusion hsol
    · rw [if_neg hemp] at h
      by_cases htb : tout iter = true
      · rw [if_pos htb] at h
        injection h with h2
        exact Except.noConfusion h2
      · rw [if_neg htb] at h
        cases hpop : olExtractMin st.openl with
        | none =>
          simp only [hpop] at h
          exact Option.noConfusion h
        | some pr =>
          obtain ⟨⟨u, key⟩, rest⟩ := pr
          simp only [hpop] at h
          by_cases hstale : (unpack_f key : Int) ≠
              (st.meta.getD u default).g + (st.meta.getD u default).h ∨
              (unpack_h key : Int) ≠ (st.meta.getD u default).h
          · rw [if_pos hstale] at h
            exact ih (iter + 1) _ R
              (stale_skip_spec T hfun dm u key rest st hnn hpop hstale hInv) h hsol
          · rw [if_neg hstale] at h
            have hfresh : (unpack_f key : Int) =
                (st.meta.getD u default).g + (st.meta.getD u default).h ∧
                (unpack_h key : Int) = (st.meta.getD u default).h := by
              obtain ⟨h1, h2⟩ := not_or.mp hstale
              exact ⟨not_ne_iff.mp h1, not_ne_iff.mp h2⟩
            by_cases hgoal : is_goal T (st.nodes.getD u default).s = true
            · rw [if_pos hgoal] at h
              cases hex : extract_plan st.nodes (u : Int) with
              | none =>
                simp only [hex] at h
                exact Option.noConfusion h
              | some acts =>
                simp only [hex] at h
                injection h with h2
                injection h2 with h3
                subst h3
                have hmem := (olExtractMin_spec st.openl (u, key) rest hpop).1
                have hu := (hInv.keysync _ hmem).1
                obtain ⟨p1, p2⟩ := extract_plan_spec T hfun dm _ st hInv u acts hu hex
                refine ⟨⟨sOf st u, p1, hgoal⟩, rfl, ?_⟩
                intro acts2 t hap hg2
                have hopt := goal_pop_optimal T hfun dm st u key rest hInv hcost hnn
                  hadm hmutexOK hpop hfresh acts2 t hap hg2
                show eval_plan_cost T acts ≤ eval_plan_cost T acts2
                omega
            · rw [if_neg hgoal] at h
              by_cases hpm : pmax < st.stats.expanded + 1
              · rw [if_pos hpm] at h
                injection h with h2
                injection h2 with h3
                rw [← h3] at hsol
                exact Bool.noConfusion hsol
              · rw [if_neg hpm] at h
                have hgoal2 : is_goal T (sOf st u) = false := by
                  have hx : ¬ (is_goal T (sOf st u) = true) := hgoal
                  revert hx
                  cases is_goal T (sOf st u) <;> simp
                obtain ⟨k1, k2, k3, k4, k5⟩ := close_step_spec T hfun dm u key rest st
                  ⟨st.stats.expanded + 1, st.stats.generated, st.stats.evaluated,
                    st.stats.duplicates⟩ hpop hgoal2 hInv
                have hu1 : u < (⟨st.nodes, st.idx,
                    st.meta.set u ⟨(st.meta.getD u default).g,
                      (st.meta.getD u default).h, true⟩,
                    rest, ⟨st.stats.expanded + 1, st.stats.generated, st.stats.evaluated,
                      st.stats.duplicates⟩⟩ : AState).nodes.length := k5
                obtain ⟨x1, x2, x3, x4, x5, x6, x7⟩ := expandNode_spec T hfun dm
                  (fun w => w = u) u ((st.nodes.getD u default).s)
                  (⟨st.nodes, st.idx,
                    st.meta.set u ⟨(st.meta.getD u default).g,
                      (st.meta.getD u default).h, true⟩,
                    rest, ⟨st.stats.expanded + 1, st.stats.generated, st.stats.evaluated,
                      st.stats.duplicates⟩⟩ : AState) hcost hu1 rfl k1
                have hInv2 : Inv T hfun dm (fun _ => False)
                    (expandNode T hfun true dm u ((st.nodes.getD u default).s)
                      (⟨st.nodes, st.idx,
                        st.meta.set u ⟨(st.meta.getD u default).g,
                          (st.meta.getD u default).h, true⟩,
                        rest, ⟨st.stats.expanded + 1, st.stats.generated,
                          st.stats.evaluated, st.stats.duplicates⟩⟩ : AState)) := by
                  apply exc_discharge T hfun dm u _ x1
                  intro a ha2 happ2 hmx2
                  have hsu2 := x3 u hu1
                  rw [hsu2] at happ2 hmx2
                  obtain ⟨v2, w1, w2, w3⟩ := x7 a ha2 happ2 hmx2
                  refine ⟨v2, w1, ?_, ?_⟩
                  · rw [w2, hsu2]
                    rfl
                  · rw [x5]
                    exact w3
                exact ih (iter + 1) _ R hInv2 h hsol

/-- The seeded initial search state satisfies the invariant. -/
theorem init_Inv (T : Task) (hfun : State → Int) (dm : Bool)
    (hninit : is_goal T T.init = false) :
    Inv T hfun dm (fun _ => False)
      ⟨[⟨T.init, -1, -1⟩], [(T.init, 0)], [⟨0, hfun T.init, false⟩],
        olInsert [] 0 (pack_fh_asc (hfun T.init) (hfun T.init)), ⟨0, 0, 1, 0⟩⟩ := by
  constructor
  case lenm => rfl
  case root =>
    intro v hv hpar
    have hv1 : v < 1 := hv
    have hv0 : v = 0 := by omega
    subst hv0
    rfl
  case gnn =>
    intro v hv
    have hv1 : v < 1 := hv
    have hv0 : v = 0 := by omega
    subst hv0
    exact le_refl 0
  case hsy =>
    intro v hv
    have hv1 : v < 1 := hv
    have hv0 : v = 0 := by omega
    subst hv0
    rfl
  case edge =>
    intro v hv hpar
    have hv1 : v < 1 := hv
    have hv0 : v = 0 := by omega
    subst hv0
    have hpar2 : (0 : Int) ≤ -1 := hpar
    omega
  case keysync =>
    intro e he
    have he2 := List.mem_singleton.mp he
    subst he2
    refine ⟨Nat.zero_lt_one, ?_⟩
    show pack_fh_asc (hfun T.init) (hfun T.init) =
      pack_fh_asc (0 + hfun T.init) (hfun T.init)
    rw [Int.zero_add]
  case closedprop =>
    intro v hv hne hcl
    have hv1 : v < 1 := hv
    have hv0 : v = 0 := by omega
    subst hv0
    exact Bool.noConfusion hcl
  case goalcl =>
    intro v hv hcl
    have hv1 : v < 1 := hv
    have hv0 : v = 0 := by omega
    subst hv0
    exact hninit
  case idxp =>
    intro p hp
    have hp2 := List.mem_singleton.mp hp
    subst hp2
    exact ⟨Nat.zero_lt_one, rfl⟩
  case allwit =>
    intro v hv
    have hv1 : v < 1 := hv
    have hv0 : v = 0 := by omega
    subst hv0
    exact Or.inl ⟨(0, pack_fh_asc (hfun T.init) (hfun T.init)),
      List.mem_singleton.mpr rfl, rfl⟩
  case nodup => exact List.nodup_singleton 0
  case nco =>
    intro v hcl
    cases v with
    | zero => exact Bool.noConfusion hcl
    | succ n => exact Bool.noConfusion hcl
  case rootwit => exact ⟨Nat.zero_lt_one, rfl, le_refl 0⟩

set_option maxHeartbeats 1000000 in
/-- C1: for every task whose heuristic is admissible (`hadm`) and consistent
(`hcons`), with the engine's preconditions (non-negative integer operator
costs, non-negative heuristic values, and mutex groups that genuinely hold
on reachable states so that runtime mutex pruning never discards a plan
state), every plan returned by the sequential A* `astar` with `solved=true`
is a genuine plan whose reported cost equals its evaluated cost and is
minimal among all goal-reaching plans: the optimal plan cost of `T`. -/
theorem C1_astar_optimal (T : Task) (hfun : State → Int) (pmax : Nat) (dm : Bool)
    (tout : Nat → Bool) (fuel : Nat) (R : SResult)
    (hcost : ∀ op ∈ T.ops, 0 ≤ op.cost)
    (hnn : ∀ s, 0 ≤ hfun s)
    (hadm : ∀ s acts t, applyPlan T s acts = some t → is_goal T t = true →
      hfun s ≤ eval_plan_cost T acts)
    (hcons : ∀ a, a < T.ops.length → ∀ s, is_applicable (opAt T a) s = true →
      hfun s ≤ (opAt T a).cost + hfun (succState (opAt T a) s))
    (hmutexOK : ∀ acts t, applyPlan T T.init acts = some t →
      (dm && violates_mutex T t) = false)
    (hrun : astar T hfun pmax true dm tout fuel = some (Except.ok R))
    (hsol : R.solved = true) :
    (∃ s, applyPlan T T.init R.plan = some s ∧ is_goal T s = true) ∧
    R.plan_cost = eval_plan_cost T R.plan ∧
    (∀ acts t, applyPlan T T.init acts = some t → is_goal T t = true →
      R.plan_cost ≤ eval_plan_cost T acts) := by
  simp only [astar] at hrun
  by_cases hg0 : is_goal T T.init = true
  · rw [if_pos hg0] at hrun
    injection hrun with h2
    injection h2 with h3
    subst h3
    refine ⟨⟨T.init, rfl, hg0⟩, rfl, ?_⟩
    intro acts t hap hgt
    show (0 : Int) ≤ eval_plan_cost T acts
    exact planCost_nonneg T hcost acts _ _ hap
  · rw [if_neg hg0] at hrun
    have hninit : is_goal T T.init = false := by
      revert hg0
      cases is_goal T T.init <;> simp
    exact astarLoop_sound T hfun pmax dm tout hcost hnn hadm hmutexOK fuel 0 _ R
      (init_Inv T hfun dm hninit) hrun hsol

set_option maxHeartbeats 2000000 in
/-- Concrete instantiation of C1 on the one-switch task with the zero
heuristic (admissible and consistent): the run returns the plan `[0]` with
reported cost 1, which is valid and optimal. -/
theorem C1_witness :
    astar task2 (fun _ => 0) 100 true false (fun _ => false) 10 =
      some (Except.ok (⟨true, 1, [0], [⟨[0], -1, -1⟩, ⟨[1], 0, 0⟩], ⟨1, 1, 2, 0⟩⟩ : SResult)) ∧
    ((∃ s, applyPlan task2 task2.init (⟨true, 1, [0], [⟨[0], -1, -1⟩, ⟨[1], 0, 0⟩], ⟨1, 1, 2, 0⟩⟩ : SResult).plan = some s ∧
        is_goal task2 s = true) ∧
     (⟨true, 1, [0], [⟨[0], -1, -1⟩, ⟨[1], 0, 0⟩], ⟨1, 1, 2, 0⟩⟩ : SResult).plan_cost =
        eval_plan_cost task2 (⟨true, 1, [0], [⟨[0], -1, -1⟩, ⟨[1], 0, 0⟩], ⟨1, 1, 2, 0⟩⟩ : SResult).plan ∧
     (∀ acts t, applyPlan task2 task2.init acts = some t →
        is_goal task2 t = true →
        (⟨true, 1, [0], [⟨[0], -1, -1⟩, ⟨[1], 0, 0⟩], ⟨1, 1, 2, 0⟩⟩ : SResult).plan_cost ≤ eval_plan_cost task2 acts)) := by
  have hcost : ∀ op ∈ task2.ops, 0 ≤ op.cost := by
    intro op hop
    have hx := List.mem_singleton.mp hop
    subst hx
    decide
  refine ⟨rfl, C1_astar_optimal task2 (fun _ => 0) 100 false (fun _ => false) 10
    (⟨true, 1, [0], [⟨[0], -1, -1⟩, ⟨[1], 0, 0⟩], ⟨1, 1, 2, 0⟩⟩ : SResult)
    hcost (fun _ => le_refl 0)
    (fun s acts t hap _ => planCost_nonneg task2 hcost acts s t hap)
    (fun a ha s happ => by
      have h1 : a < 1 := ha
      have h0 : a = 0 := by omega
      subst h0
      show (0 : Int) ≤ 1 + 0
      decide)
    (fun _ _ _ => rfl) rfl rfl⟩

end PlannerV
